import Mathlib

/-!
Verification of the `aurora` HTTP-request language front end.

This file shallowly embeds the core pipeline of the `aurora` repository
(lexer, parser, validator, evaluator) as executable Lean definitions, and
proves properties of the embedding.  Each definition mirrors one function
of the Rust source:

* `Aurora.Lexer.*`       embeds `src/lexer.rs`
* `Aurora.Parser.*`      embeds `src/parser.rs`
* `Aurora.Validator.*`   embeds `src/validator.rs`
* `Aurora.Machine.*`     embeds `src/machine.rs`
* data types embed `src/span.rs`, `src/token.rs`, `src/ast.rs`,
  `src/validated.rs`, `src/value.rs`, `src/diagnostic.rs`

Modelling conventions:

* Source text is a `List Char`; positions are byte offsets, advanced by
  `Char.utf8Size` exactly as the Rust lexer advances `self.pos` by
  `char::len_utf8`.
* Rust's `char::is_whitespace` (the Unicode White_Space property) is
  embedded exactly; `char::is_alphabetic` / `char::is_alphanumeric` are
  modelled on the ASCII range (the full Unicode Alphabetic table is out of
  scope; every input considered in the theorems below is ASCII).
* Loops and the re-entrant lexer/parser recursion are embedded as
  fuel-indexed recursion; the driver functions supply fuel that is proved
  (or, for concrete inputs, computed) sufficient, so the artificial
  "out of fuel" branch is unreachable.
* The Rust enums `token::HttpMethod`, `ast::HttpMethod` and
  `validated::HttpMethod` are embedded as the single enum
  `Aurora.HttpMethod` with the five variants used by the lexer, parser,
  validator and machine; the conversion matches in `parser.rs` and
  `validator.rs` are identity maps under this identification.
* `IndexMap` (insertion-ordered map) is embedded as an association list
  with `IndexMap::insert` semantics (existing key keeps its position and
  gets the new value; new keys append).
* Rust `Result<T, Diagnostic>` becomes `Except Diagnostic T`; a Rust panic
  (`Value::string`, `Value::dictionary`, `self.names[name]`) becomes
  `Option.none` at the evaluator level.
* `f64` payloads are kept abstract: a validated float literal carries its
  source text (no claim below depends on float values), and `f64` parsing
  of lexer-shaped float text never fails in Rust.
-/

namespace Aurora

/-- A brace character (written via its code so that braces never appear in
string or character literals in this file). -/
def openBrace : Char := '\x7b'

/-- The closing brace character. -/
def closeBrace : Char := '\x7d'

/-- Byte offsets, embedding `span.rs::Span`.  The Rust field `end` is a
reserved word in Lean and is named `stop` here. -/
structure Span where
  start : Nat
  stop : Nat

/-- `Span::new`. -/
def Span.new (start stop : Nat) : Span := ⟨start, stop⟩

/-- `Span::to`: combines two spans' extremes. -/
def Span.to (s other : Span) : Span := ⟨s.start, other.stop⟩

instance : DecidableEq Span := fun a b => by
  cases a; cases b
  rw [Span.mk.injEq]
  exact inferInstance

/-- `diagnostic.rs::Level`. -/
inductive Level where
  | Error
  deriving DecidableEq

/-- `diagnostic.rs::Label`. -/
structure Label where
  message : String
  span : Span
  level : Level

/-- `diagnostic.rs::Diagnostic`. -/
structure Diagnostic where
  message : String
  span : Span
  level : Level
  labels : List Label

/-- `Diagnostic::new`. -/
def Diagnostic.new (message : String) (span : Span) (level : Level) : Diagnostic :=
  ⟨message, span, level, []⟩

/-- `Diagnostic::error`. -/
def Diagnostic.error (message : String) (span : Span) : Diagnostic :=
  Diagnostic.new message span .Error

/-- `Diagnostic::label`. -/
def Diagnostic.label (d : Diagnostic) (message : String) (span : Span) (level : Level) :
    Diagnostic :=
  { d with labels := d.labels ++ [⟨message, span, level⟩] }

/-- `Diagnostic::primary_label`. -/
def Diagnostic.primary_label (d : Diagnostic) (message : String) (level : Level) : Diagnostic :=
  d.label message d.span level

/-- The HTTP method enum (`token.rs`/`ast.rs`/`validated.rs::HttpMethod`,
identified; see the header). -/
inductive HttpMethod where
  | Get
  | Post
  | Put
  | Patch
  | Delete
  deriving DecidableEq

/-- `token.rs::Keyword`. -/
inductive Keyword where
  | Entry
  | Const
  | Null
  deriving DecidableEq

/-- `token.rs::Delim`. -/
inductive Delim where
  | OpenBrace
  | OpenBrack
  | CloseBrace
  | CloseBrack
  deriving DecidableEq

/-- `Delim::is_open`. -/
def Delim.is_open : Delim → Bool
  | .OpenBrace | .OpenBrack => true
  | .CloseBrace | .CloseBrack => false

/-- The `Display` impl for `Delim`. -/
def Delim.display : Delim → String
  | .OpenBrace => "\x7b"
  | .OpenBrack => "["
  | .CloseBrace => "\x7d"
  | .CloseBrack => "]"

mutual
/-- `token.rs::TokenKind`.  Borrowed `&str` slices are embedded as the
`List Char` they denote. -/
inductive TokenKind where
  | Identifier (text : List Char)
  | HttpMethod (m : HttpMethod)
  | Keyword (k : Keyword)
  | Float (text : List Char)
  | Integer (text : List Char)
  | String (parts : List TemplatePart)
  | Colon
  | Comma
  | Eq
  | Delim (d : Delim)

/-- `token.rs::TemplatePart`. -/
inductive TemplatePart where
  | Literal (text : List Char)
  | Code (tokens : List Token)

/-- `token.rs::Token`. -/
inductive Token where
  | mk (kind : TokenKind) (span : Span) (skipped_newline : Bool)
end

/-- The `kind` field of a token. -/
def Token.kind : Token → TokenKind
  | .mk k _ _ => k

/-- The `span` field of a token. -/
def Token.span : Token → Span
  | .mk _ s _ => s

/-- The `skipped_newline` field of a token. -/
def Token.skipped_newline : Token → Bool
  | .mk _ _ n => n

/-- Rust `char::is_whitespace`: the Unicode White_Space property,
embedded exactly (the 25 White_Space code points). -/
def rustIsWhitespace (c : Char) : Bool :=
  let n := c.toNat
  (0x09 ≤ n && n ≤ 0x0D) || n == 0x20 || n == 0x85 || n == 0xA0 || n == 0x1680 ||
    (0x2000 ≤ n && n ≤ 0x200A) || n == 0x2028 || n == 0x2029 || n == 0x202F ||
    n == 0x205F || n == 0x3000

/-- Rust `char::is_alphabetic`, modelled on the ASCII range (see header). -/
def rustIsAlphabetic (c : Char) : Bool :=
  ('A' ≤ c && c ≤ 'Z') || ('a' ≤ c && c ≤ 'z')

/-- Rust `char::is_alphanumeric`, modelled on the ASCII range (see header). -/
def rustIsAlphanumeric (c : Char) : Bool :=
  rustIsAlphabetic c || c.isDigit

/-- Total UTF-8 byte length of a character list (Rust `str::len`). -/
def utf8Len (l : List Char) : Nat := (l.map Char.utf8Size).sum

namespace Lexer

/-- The diagnostic returned on fuel exhaustion.  The fuel supplied by
`lex` is proved sufficient, so this value is unreachable from `lex`. -/
def fuelDiag : Diagnostic := Diagnostic.error "out of fuel" (Span.new 0 0)

/-- `Lexer::skip_whitespace`: consumes the leading whitespace run,
returning whether a `\n` was crossed, the new position and the rest. -/
def skip_whitespace : Nat → List Char → Bool × Nat × List Char
  | pos, [] => (false, pos, [])
  | pos, c :: rest =>
    if rustIsWhitespace c then
      let (nl, pos', rest') := skip_whitespace (pos + c.utf8Size) rest
      (nl || c == '\n', pos', rest')
    else
      (false, pos, c :: rest)

/-- `Lexer::skip_comment`: consumes characters up to (excluding) the next
`\n`. -/
def skip_comment : Nat → List Char → Nat × List Char
  | pos, [] => (pos, [])
  | pos, c :: rest =>
    if c == '\n' then (pos, c :: rest) else skip_comment (pos + c.utf8Size) rest

/-- The inner `eat_digits` helper of `Lexer::number`: consumes the leading
ASCII-digit run, returning it together with the new position and rest. -/
def take_digits : Nat → List Char → List Char × Nat × List Char
  | pos, [] => ([], pos, [])
  | pos, c :: rest =>
    if c.isDigit then
      let (ds, pos', rest') := take_digits (pos + c.utf8Size) rest
      (c :: ds, pos', rest')
    else
      ([], pos, c :: rest)

/-- `Lexer::number`, after the first digit `c` has been consumed
(`start` is the byte offset of `c`, `pos` the offset after it). -/
def number (c : Char) (pos : Nat) (rest : List Char) : TokenKind × Nat × List Char :=
  let (ds1, posA, restA) := take_digits pos rest
  match restA with
  | '.' :: restB =>
    let (ds2, posB, restC) := take_digits (posA + 1) restB
    (.Float (c :: ds1 ++ '.' :: ds2), posB, restC)
  | _ => (.Integer (c :: ds1), posA, restA)

/-- `Lexer::identifier`, after the first character `c` has been consumed:
consumes the identifier continuation and reclassifies keywords and HTTP
methods by case-sensitive exact match.  (Faithful to the source: only
`GET`, `POST` and `PUT` are reclassified as HTTP methods.) -/
def identifier (c : Char) (pos : Nat) (rest : List Char) : TokenKind × Nat × List Char :=
  let rec take_ident : Nat → List Char → List Char × Nat × List Char
    | p, [] => ([], p, [])
    | p, ch :: r =>
      if rustIsAlphanumeric ch || ch == '_' then
        let (cs, p', r') := take_ident (p + ch.utf8Size) r
        (ch :: cs, p', r')
      else
        ([], p, ch :: r)
  let (cs, pos', rest') := take_ident pos rest
  let text := c :: cs
  let kind : TokenKind :=
    if text = "entry".toList then .Keyword .Entry
    else if text = "const".toList then .Keyword .Const
    else if text = "null".toList then .Keyword .Null
    else if text = "GET".toList then .HttpMethod .Get
    else if text = "POST".toList then .HttpMethod .Post
    else if text = "PUT".toList then .HttpMethod .Put
    else .Identifier text
  (kind, pos', rest')

mutual
/-- `Lexer::next_token`: skips whitespace and comments, then produces the
next token (`none` at end of input).  Returns the token together with the
position and input rest after it. -/
def next_token : Nat → Nat → List Char → Except Diagnostic (Option Token × Nat × List Char)
  | 0, _, _ => .error fuelDiag
  | fuel + 1, pos, rest =>
    let (skipped_newline, pos1, rest1) := skip_whitespace pos rest
    match rest1 with
    | [] => .ok (none, pos1, [])
    | c :: rest2 =>
      if c == '#' then
        let (pos3, rest3) := skip_comment pos1 (c :: rest2)
        next_token fuel pos3 rest3
      else
        let start := pos1
        let pos2 := pos1 + c.utf8Size
        let result : Except Diagnostic (TokenKind × Nat × List Char) :=
          if c == ':' then .ok (.Colon, pos2, rest2)
          else if c == ',' then .ok (.Comma, pos2, rest2)
          else if c == '=' then .ok (.Eq, pos2, rest2)
          else if c == openBrace then .ok (.Delim .OpenBrace, pos2, rest2)
          else if c == '[' then .ok (.Delim .OpenBrack, pos2, rest2)
          else if c == closeBrace then .ok (.Delim .CloseBrace, pos2, rest2)
          else if c == ']' then .ok (.Delim .CloseBrack, pos2, rest2)
          else if c == '\"' then string fuel pos2 rest2 start [] []
          else if c.isDigit then .ok (number c pos2 rest2)
          else if rustIsAlphabetic c || c == '_' then .ok (identifier c pos2 rest2)
          else
            .error ((Diagnostic.error "Unrecognized character"
              (Span.new start start)).primary_label
              "I don't know what to do with this character" .Error)
        match result with
        | .error d => .error d
        | .ok (kind, pos', rest') =>
          .ok (some (Token.mk kind (Span.new start pos') skipped_newline), pos', rest')

/-- `Lexer::string`, as the loop over the string body: `pos`/`rest` are
just past the opening quote (or past the last processed character),
`start` is the offset of the opening quote, `parts` the template parts
collected so far and `chunk` the pending literal chunk. -/
def string : Nat → Nat → List Char → Nat → List TemplatePart → List Char →
    Except Diagnostic (TokenKind × Nat × List Char)
  | 0, _, _, _, _, _ => .error fuelDiag
  | fuel + 1, pos, rest, start, parts, chunk =>
    match rest with
    | [] =>
      .error ((Diagnostic.error "Unterminated string literal"
        (Span.new start pos)).primary_label
        "I never found the closing quote for this string" .Error)
    | c :: rest1 =>
      if c == '\"' then
        let parts' := if chunk.isEmpty then parts else parts ++ [TemplatePart.Literal chunk]
        .ok (.String parts', pos + 1, rest1)
      else if c == openBrace && rest1.head? == some openBrace then
        let parts' := if chunk.isEmpty then parts else parts ++ [TemplatePart.Literal chunk]
        match template_loop fuel (pos + 2) rest1.tail [] with
        | .error d => .error d
        | .ok (tokens, pos', rest') =>
          string fuel pos' rest' start (parts' ++ [TemplatePart.Code tokens]) []
      else if c == '\\' then
        match rest1 with
        | [] => string fuel (pos + 1) [] start parts (chunk ++ [c])
        | c2 :: rest2 => string fuel (pos + 1 + c2.utf8Size) rest2 start parts (chunk ++ [c, c2])
      else
        string fuel (pos + c.utf8Size) rest1 start parts (chunk ++ [c])

/-- The `{{ … }}` loop inside `Lexer::string`: collects the nested token
run until the matching close delimiter. -/
def template_loop : Nat → Nat → List Char → List Token →
    Except Diagnostic (List Token × Nat × List Char)
  | 0, _, _, _ => .error fuelDiag
  | fuel + 1, pos, rest, tokens =>
    match rest with
    | [] =>
      .error ((Diagnostic.error "Unterminated template"
        (Span.new pos pos)).primary_label "I was expecting `\x7d\x7d` here" .Error)
    | c :: rest1 =>
      if c == '\"' then
        .error ((Diagnostic.error "Unterminated template"
          (Span.new pos pos)).primary_label "I was expecting `\x7d\x7d` here" .Error)
      else if c == closeBrace && rest1.head? == some closeBrace then
        .ok (tokens, pos + 2, rest1.tail)
      else
        match next_token fuel pos rest with
        | .error d => .error d
        | .ok (none, pos', _) =>
          .error ((Diagnostic.error "Unterminated template"
            (Span.new pos' pos')).primary_label "I was expecting `\x7d\x7d` here" .Error)
        | .ok (some token, pos', rest') => template_loop fuel pos' rest' (tokens ++ [token])
termination_by structural fuel => fuel
end

/-- The `while let Some(token)` loop of `Lexer::lex`. -/
def lex_loop : Nat → Nat → List Char → List Token → Except Diagnostic (List Token)
  | 0, _, _, _ => .error fuelDiag
  | fuel + 1, pos, rest, tokens =>
    match next_token fuel pos rest with
    | .error d => .error d
    | .ok (none, _, _) => .ok tokens
    | .ok (some t, pos', rest') => lex_loop fuel pos' rest' (tokens ++ [t])

/-- `lexer.rs::lex`. -/
def lex (input : List Char) : Except Diagnostic (List Token) :=
  lex_loop (input.length + 2) 0 input []

end Lexer

end Aurora

namespace Aurora

mutual
/-- The `PartialEq` impl of `token.rs::TokenKind` (Rust `==`). -/
def TokenKind.beq : TokenKind → TokenKind → Bool
  | .Identifier a, .Identifier b => a == b
  | .HttpMethod a, .HttpMethod b => a == b
  | .Keyword a, .Keyword b => a == b
  | .Float a, .Float b => a == b
  | .Integer a, .Integer b => a == b
  | .String p1, .String p2 => TemplatePart.beqList p1 p2
  | .Colon, .Colon => true
  | .Comma, .Comma => true
  | .Eq, .Eq => true
  | .Delim a, .Delim b => a == b
  | _, _ => false
termination_by structural a _ => a

/-- The `PartialEq` impl of `token.rs::TemplatePart`. -/
def TemplatePart.beq : TemplatePart → TemplatePart → Bool
  | .Literal a, .Literal b => a == b
  | .Code t1, .Code t2 => Token.beqList t1 t2
  | _, _ => false
termination_by structural a _ => a

/-- Elementwise `TemplatePart.beq` (Rust `Vec` `==`). -/
def TemplatePart.beqList : List TemplatePart → List TemplatePart → Bool
  | [], [] => true
  | a :: as, b :: bs => TemplatePart.beq a b && TemplatePart.beqList as bs
  | _, _ => false
termination_by structural a _ => a

/-- The `PartialEq` impl of `token.rs::Token`. -/
def Token.beq : Token → Token → Bool
  | .mk k1 s1 n1, .mk k2 s2 n2 => TokenKind.beq k1 k2 && s1 == s2 && n1 == n2
termination_by structural a _ => a

/-- Elementwise `Token.beq` (Rust `Vec` `==`). -/
def Token.beqList : List Token → List Token → Bool
  | [], [] => true
  | a :: as, b :: bs => Token.beq a b && Token.beqList as bs
  | _, _ => false
termination_by structural a _ => a
end

namespace Ast

/-- `ast.rs::Name`. -/
structure Name where
  text : List Char
  span : Span

mutual
/-- `ast.rs::Expr`. -/
inductive Expr where
  | mk (kind : ExprKind) (span : Span)

/-- `ast.rs::ExprKind`. -/
inductive ExprKind where
  | NameRef (name : List Char)
  | StringLiteral (parts : List TemplatePart)
  | IntegerLiteral (text : List Char)
  | FloatLiteral (text : List Char)
  | NullLiteral
  | Dictionary (fields : List DictionaryField)
  | Array (elements : List Expr)

/-- `ast.rs::TemplatePart`.  (The parser and the validator construct and
consume `Literal` with the text argument only; the extra `Span` argument
declared in `ast.rs` is never supplied by the parser, so it is not part of
this embedding.) -/
inductive TemplatePart where
  | Literal (text : List Char)
  | Expr (e : Expr)

/-- `ast.rs::DictionaryField`. -/
inductive DictionaryField where
  | mk (key : Expr) (value : Expr)
end

/-- The `kind` field of an AST expression. -/
def Expr.kind : Expr → ExprKind
  | .mk k _ => k

/-- The `span` field of an AST expression. -/
def Expr.span : Expr → Span
  | .mk _ s => s

/-- The `key` field of a dictionary field. -/
def DictionaryField.key : DictionaryField → Expr
  | .mk k _ => k

/-- The `value` field of a dictionary field. -/
def DictionaryField.value : DictionaryField → Expr
  | .mk _ v => v

/-- `ast.rs::Request`. -/
structure Request where
  method : HttpMethod
  url : Expr

/-- `ast.rs::EntryItemKind`. -/
inductive EntryItemKind where
  | Request (req : Aurora.Ast.Request)
  | Section (name : Name) (body : Expr)

/-- `ast.rs::EntryItem`. -/
structure EntryItem where
  kind : EntryItemKind
  span : Span

/-- `ast.rs::Entry`. -/
structure Entry where
  name : Name
  body : List EntryItem

/-- `ast.rs::ItemKind`. -/
inductive ItemKind where
  | Entry (e : Aurora.Ast.Entry)
  | Const (name : Name) (expr : Expr)

/-- `ast.rs::Item`. -/
structure Item where
  kind : ItemKind
  span : Span

/-- `ast.rs::SourceFile` (the parser constructs it from the item list
only; it sets no `span` field). -/
structure SourceFile where
  items : List Item

end Ast

namespace Parser

/-- `parser.rs::Parser`: the token buffer and cursor. -/
structure PState where
  tokens : List Token
  pos : Nat

/-- `Parser::new`. -/
def PState.new (tokens : List Token) : PState := ⟨tokens, 0⟩

/-- `Parser::peek`. -/
def peek (s : PState) : Option Token := s.tokens[s.pos]?

/-- `Parser::peek_span`. -/
def peek_span (s : PState) : Span :=
  match peek s with
  | some t => t.span
  | none =>
    match s.tokens.getLast? with
    | some last => last.span
    | none => Span.new 0 0

/-- `Parser::bump`. -/
def bump (s : PState) : PState :=
  if s.pos < s.tokens.length then { s with pos := s.pos + 1 } else s

/-- `Parser::eat`. -/
def eat (s : PState) (kind : TokenKind) : Option Span × PState :=
  match peek s with
  | some t => if TokenKind.beq t.kind kind then (some t.span, bump s) else (none, s)
  | none => (none, s)

/-- `Parser::eat_keyword`. -/
def eat_keyword (s : PState) (kw : Keyword) : Option Span × PState :=
  match peek s with
  | some t =>
    match t.kind with
    | .Keyword kw2 => if kw = kw2 then (some t.span, bump s) else (none, s)
    | _ => (none, s)
  | none => (none, s)

/-- `Parser::expect_delim`. -/
def expect_delim (s : PState) (delim : Delim) : Except Diagnostic (Span × PState) :=
  match peek s with
  | some t =>
    match t.kind with
    | .Delim delim2 =>
      if delim = delim2 then .ok (t.span, bump s)
      else expect_delim_error s delim
    | _ => expect_delim_error s delim
  | none => expect_delim_error s delim
where
  /-- The error branch of `Parser::expect_delim`. -/
  expect_delim_error (s : PState) (delim : Delim) : Except Diagnostic (Span × PState) :=
    let label_message :=
      if delim.is_open then
        "I was expecting an opening delimiter `" ++ delim.display ++ "` here"
      else
        "I was expecting a closing delimiter `" ++ delim.display ++ "` here"
    .error ((Diagnostic.error "Expected delimiter" (peek_span s)).primary_label
      label_message .Error)

/-- `Parser::expect_newline`. -/
def expect_newline (s : PState) : Except Diagnostic Unit :=
  match peek s with
  | none => .ok ()
  | some t =>
    if t.skipped_newline then .ok ()
    else
      .error ((Diagnostic.error "Missing newline" t.span).primary_label
        "I was expecting a newline here" .Error)

/-- `Parser::parse_name`. -/
def parse_name (s : PState) : Option Ast.Name × PState :=
  match peek s with
  | some t =>
    match t.kind with
    | .Identifier text => (some ⟨text, t.span⟩, bump s)
    | _ => (none, s)
  | none => (none, s)

/-- The diagnostic returned on parser fuel exhaustion; unreachable from
`parse`, which supplies sufficient fuel. -/
def fuelDiag : Diagnostic := Diagnostic.error "out of fuel" (Span.new 0 0)

mutual
/-- The `while self.peek().is_some()` loop of `Parser::parse`. -/
def parse_items : Nat → PState → List Ast.Item →
    Except Diagnostic (List Ast.Item × PState)
  | 0, _, _ => .error fuelDiag
  | fuel + 1, s, items =>
    match peek s with
    | none => .ok (items, s)
    | some _ =>
      match parse_item fuel s with
      | .error d => .error d
      | .ok (item, s') => parse_items fuel s' (items ++ [item])

/-- `Parser::parse_item`. -/
def parse_item : Nat → PState → Except Diagnostic (Ast.Item × PState)
  | 0, _ => .error fuelDiag
  | fuel + 1, s =>
    match eat_keyword s .Entry with
    | (some span, s1) => parse_entry fuel span s1
    | (none, s1) =>
      match eat_keyword s1 .Const with
      | (some span, s2) => parse_const fuel span s2
      | (none, s2) =>
        .error ((Diagnostic.error "Expected item" (peek_span s2)).primary_label
          "I was expecting an item here" .Error)

/-- `Parser::parse_entry`. -/
def parse_entry : Nat → Span → PState → Except Diagnostic (Ast.Item × PState)
  | 0, _, _ => .error fuelDiag
  | fuel + 1, entry_span, s =>
    match parse_name s with
    | (none, s1) =>
      .error ((Diagnostic.error "Expected identifier" (peek_span s1)).primary_label
        "I was expecting a name here" .Error)
    | (some name, s1) =>
      match expect_delim s1 .OpenBrace with
      | .error d => .error d
      | .ok (_, s2) =>
        match parse_entry_items fuel s2 [] with
        | .error d => .error d
        | .ok (entry_items, s3) =>
          match expect_delim s3 .CloseBrace with
          | .error d => .error d
          | .ok (close_span, s4) =>
            .ok (⟨.Entry ⟨name, entry_items⟩, entry_span.to close_span⟩, s4)

/-- The `while let Some(item)` loop inside `Parser::parse_entry`. -/
def parse_entry_items : Nat → PState → List Ast.EntryItem →
    Except Diagnostic (List Ast.EntryItem × PState)
  | 0, _, _ => .error fuelDiag
  | fuel + 1, s, acc =>
    match opt_parse_entry_item fuel s with
    | .error d => .error d
    | .ok (none, s') => .ok (acc, s')
    | .ok (some item, s') => parse_entry_items fuel s' (acc ++ [item])

/-- `Parser::parse_const`. -/
def parse_const : Nat → Span → PState → Except Diagnostic (Ast.Item × PState)
  | 0, _, _ => .error fuelDiag
  | fuel + 1, const_span, s =>
    match parse_name s with
    | (none, s1) =>
      .error ((Diagnostic.error "Expected identifier" (peek_span s1)).primary_label
        "I was expecting a variable name here" .Error)
    | (some name, s1) =>
      match eat s1 .Eq with
      | (none, s2) => .error (Diagnostic.error "Expected `=`" (peek_span s2))
      | (some _, s2) =>
        match parse_expr fuel s2 with
        | .error d => .error d
        | .ok (expr, s3) =>
          match expect_newline s3 with
          | .error d => .error d
          | .ok () => .ok (⟨.Const name expr, const_span.to expr.span⟩, s3)

/-- `Parser::opt_parse_entry_item`.  Faithful to the source: only the
`Get` arm calls `expect_newline` after the URL expression. -/
def opt_parse_entry_item : Nat → PState →
    Except Diagnostic (Option Ast.EntryItem × PState)
  | 0, _ => .error fuelDiag
  | fuel + 1, s =>
    match peek s with
    | some ⟨.HttpMethod .Get, method_span, _⟩ =>
      match parse_expr fuel (bump s) with
      | .error d => .error d
      | .ok (url, s1) =>
        match expect_newline s1 with
        | .error d => .error d
        | .ok () =>
          .ok (some ⟨.Request ⟨.Get, url⟩, method_span.to url.span⟩, s1)
    | some ⟨.HttpMethod .Post, method_span, _⟩ =>
      match parse_expr fuel (bump s) with
      | .error d => .error d
      | .ok (url, s1) =>
        .ok (some ⟨.Request ⟨.Post, url⟩, method_span.to url.span⟩, s1)
    | some ⟨.HttpMethod .Put, method_span, _⟩ =>
      match parse_expr fuel (bump s) with
      | .error d => .error d
      | .ok (url, s1) =>
        .ok (some ⟨.Request ⟨.Put, url⟩, method_span.to url.span⟩, s1)
    | some ⟨.HttpMethod .Patch, method_span, _⟩ =>
      match parse_expr fuel (bump s) with
      | .error d => .error d
      | .ok (url, s1) =>
        .ok (some ⟨.Request ⟨.Patch, url⟩, method_span.to url.span⟩, s1)
    | some ⟨.HttpMethod .Delete, method_span, _⟩ =>
      match parse_expr fuel (bump s) with
      | .error d => .error d
      | .ok (url, s1) =>
        .ok (some ⟨.Request ⟨.Delete, url⟩, method_span.to url.span⟩, s1)
    | some ⟨.Delim .OpenBrack, open_span, _⟩ =>
      match parse_name (bump s) with
      | (none, s1) =>
        .error ((Diagnostic.error "Expected identifier" (peek_span s1)).primary_label
          "I was expecting a section name here" .Error)
      | (some name, s1) =>
        match expect_delim s1 .CloseBrack with
        | .error d => .error d
        | .ok (_, s2) =>
          match parse_expr fuel s2 with
          | .error d => .error d
          | .ok (body, s3) =>
            .ok (some ⟨.Section name body, open_span.to body.span⟩, s3)
    | _ => .ok (none, s)

/-- `Parser::parse_expr`. -/
def parse_expr : Nat → PState → Except Diagnostic (Ast.Expr × PState)
  | 0, _ => .error fuelDiag
  | fuel + 1, s =>
    match opt_parse_expr fuel s with
    | .error d => .error d
    | .ok (some expr, s') => .ok (expr, s')
    | .ok (none, s') =>
      .error ((Diagnostic.error "Expected expression" (peek_span s')).primary_label
        "I was expecting an expression here" .Error)

/-- `Parser::opt_parse_expr`. -/
def opt_parse_expr : Nat → PState →
    Except Diagnostic (Option Ast.Expr × PState)
  | 0, _ => .error fuelDiag
  | fuel + 1, s =>
    match peek s with
    | some ⟨.Identifier text, span, _⟩ =>
      .ok (some ⟨.NameRef text, span⟩, bump s)
    | some ⟨.String parts, span, _⟩ =>
      match parse_template_parts fuel parts [] with
      | .error d => .error d
      | .ok ast_parts => .ok (some ⟨.StringLiteral ast_parts, span⟩, bump s)
    | some ⟨.Integer text, span, _⟩ =>
      .ok (some ⟨.IntegerLiteral text, span⟩, bump s)
    | some ⟨.Float text, span, _⟩ =>
      .ok (some ⟨.FloatLiteral text, span⟩, bump s)
    | some ⟨.Keyword .Null, span, _⟩ =>
      .ok (some ⟨.NullLiteral, span⟩, bump s)
    | some ⟨.Delim .OpenBrace, open_span, _⟩ =>
      match parse_dictionary_fields fuel (bump s) [] with
      | .error d => .error d
      | .ok (fields, s1) =>
        match expect_delim s1 .CloseBrace with
        | .error d => .error d
        | .ok (close_span, s2) =>
          .ok (some ⟨.Dictionary fields, open_span.to close_span⟩, s2)
    | some ⟨.Delim .OpenBrack, open_span, _⟩ =>
      match parse_array_elements fuel (bump s) [] with
      | .error d => .error d
      | .ok (elements, s1) =>
        match expect_delim s1 .CloseBrack with
        | .error d => .error d
        | .ok (close_span, s2) =>
          .ok (some ⟨.Array elements, open_span.to close_span⟩, s2)
    | _ => .ok (none, s)

/-- The template-part loop inside the `TokenKind::String` arm of
`Parser::opt_parse_expr`: every `Code` token run is parsed by a fresh
parser instantiated over just that token slice. -/
def parse_template_parts : Nat → List TemplatePart → List Ast.TemplatePart →
    Except Diagnostic (List Ast.TemplatePart)
  | 0, _, _ => .error fuelDiag
  | _ + 1, [], acc => .ok acc
  | fuel + 1, part :: rest, acc =>
    match part with
    | .Literal text => parse_template_parts fuel rest (acc ++ [.Literal text])
    | .Code tokens =>
      match parse_expr fuel (PState.new tokens) with
      | .error d => .error d
      | .ok (expr, _) => parse_template_parts fuel rest (acc ++ [.Expr expr])

/-- The element loop inside the `Delim::OpenBrack` arm of
`Parser::opt_parse_expr`. -/
def parse_array_elements : Nat → PState → List Ast.Expr →
    Except Diagnostic (List Ast.Expr × PState)
  | 0, _, _ => .error fuelDiag
  | fuel + 1, s, acc =>
    match peek s with
    | some ⟨.Delim .CloseBrack, _, _⟩ => .ok (acc, s)
    | none => .ok (acc, s)
    | some _ =>
      match parse_expr fuel s with
      | .error d => .error d
      | .ok (element, s1) =>
        match eat s1 .Comma with
        | (some _, s2) => parse_array_elements fuel s2 (acc ++ [element])
        | (none, s2) =>
          match peek s2 with
          | some ⟨.Delim .CloseBrack, _, _⟩ => .ok (acc ++ [element], s2)
          | some _ =>
            .error ((Diagnostic.error "Unexpected token" (peek_span s2)).primary_label
              "I was expecting a comma here" .Error)
          | none => .ok (acc ++ [element], s2)

/-- `Parser::parse_dictionary_fields`. -/
def parse_dictionary_fields : Nat → PState → List Ast.DictionaryField →
    Except Diagnostic (List Ast.DictionaryField × PState)
  | 0, _, _ => .error fuelDiag
  | fuel + 1, s, acc =>
    match peek s with
    | some ⟨.Delim .CloseBrace, _, _⟩ => .ok (acc, s)
    | none => .ok (acc, s)
    | some _ =>
      match parse_dictionary_field fuel s with
      | .error d => .error d
      | .ok (field, s1) =>
        match eat s1 .Comma with
        | (some _, s2) => parse_dictionary_fields fuel s2 (acc ++ [field])
        | (none, s2) =>
          match peek s2 with
          | some ⟨.Delim .CloseBrace, _, _⟩ => .ok (acc ++ [field], s2)
          | some _ =>
            .error ((Diagnostic.error "Unexpected token" (peek_span s2)).primary_label
              "I was expecting a comma here" .Error)
          | none => .ok (acc ++ [field], s2)

/-- `Parser::parse_dictionary_field`. -/
def parse_dictionary_field : Nat → PState →
    Except Diagnostic (Ast.DictionaryField × PState)
  | 0, _ => .error fuelDiag
  | fuel + 1, s =>
    match parse_expr fuel s with
    | .error d => .error d
    | .ok (key, s1) =>
      match eat s1 .Colon with
      | (none, s2) =>
        .error ((Diagnostic.error "Unexpected token" (peek_span s2)).primary_label
          "I was expecting a colon here" .Error)
      | (some _, s2) =>
        match parse_expr fuel s2 with
        | .error d => .error d
        | .ok (value, s3) => .ok (⟨key, value⟩, s3)
termination_by structural fuel => fuel
end

/-- `parser.rs::parse`: drives the lexer, then parses the token stream.
The fuel supplied is sufficient for any token stream of this length. -/
def parse (input : List Char) : Except Diagnostic Ast.SourceFile :=
  match Lexer.lex input with
  | .error d => .error d
  | .ok tokens =>
    match parse_items (8 * tokens.length + 64) (PState.new tokens) [] with
    | .error d => .error d
    | .ok (items, _) => .ok ⟨items⟩

end Parser

end Aurora

namespace Aurora

namespace Validated

/-- `validated.rs::Ty`.  `validated.rs` declares the first six variants
and `Unknown`; the `Union` variant (a deduplicated set of member types)
is the one constructed and consumed by `validator.rs`
(`make_union_ty` / `infer_array_type`) and described by the spec, so it is
part of the embedded type. -/
inductive Ty where
  | String
  | Integer
  | Float
  | Null
  | Dictionary (memberTys : List Ty)
  | Array (elem : Ty)
  | Union (tys : List Ty)
  | Unknown

mutual
/-- The derived `PartialEq` of `validated.rs::Ty` (Rust `==`):
structural equality; `Vec` payloads compare elementwise in order. -/
def Ty.beq : Ty → Ty → Bool
  | .String, .String => true
  | .Integer, .Integer => true
  | .Float, .Float => true
  | .Null, .Null => true
  | .Dictionary l1, .Dictionary l2 => Ty.beqList l1 l2
  | .Array t1, .Array t2 => Ty.beq t1 t2
  | .Union l1, .Union l2 => Ty.beqList l1 l2
  | .Unknown, .Unknown => true
  | _, _ => false

/-- Elementwise `Ty.beq` (Rust `Vec<Ty>` `==`). -/
def Ty.beqList : List Ty → List Ty → Bool
  | [], [] => true
  | a :: as, b :: bs => Ty.beq a b && Ty.beqList as bs
  | _, _ => false
end

/-- `Ty.beq` decides propositional equality, so Rust `==` on `Ty` is
exactly structural equality. -/
def Ty.decEq : DecidableEq Ty := fun a b =>
  decidable_of_iff (Ty.beq a b = true)
    (@Validated.Ty.rec (fun a => ∀ b, Ty.beq a b = true ↔ a = b)
      (fun l => ∀ l2, Ty.beqList l l2 = true ↔ l = l2)
      (fun b => by cases b <;> simp [Ty.beq])
      (fun b => by cases b <;> simp [Ty.beq])
      (fun b => by cases b <;> simp [Ty.beq])
      (fun b => by cases b <;> simp [Ty.beq])
      (fun memberTys ih => fun b => by cases b <;> simp_all [Ty.beq, Ty.beqList])
      (fun elem ih => fun b => by cases b <;> simp_all [Ty.beq, Ty.beqList])
      (fun tys ih => fun b => by cases b <;> simp_all [Ty.beq, Ty.beqList])
      (fun b => by cases b <;> simp [Ty.beq])
      (fun l2 => by cases l2 <;> simp [Ty.beqList])
      (fun head tail ih1 ih2 => fun l2 => by cases l2 <;> simp_all [Ty.beq, Ty.beqList])
      a b)

attribute [instance] Ty.decEq

/-- `validated.rs::Name` (the shape constructed by `validator.rs`:
text and span). -/
structure Name where
  text : List Char
  span : Span

mutual
/-- `validated.rs::Expr`. -/
inductive Expr where
  | mk (kind : ExprKind) (span : Span) (ty : Ty)

/-- `validated.rs::ExprKind`.  The `f64` payload of `FloatLiteral` is
kept abstract as the source text of the literal (see the header). -/
inductive ExprKind where
  | NameRef (name : List Char)
  | StringLiteral (parts : List TemplatePart)
  | IntegerLiteral (value : Int)
  | FloatLiteral (text : List Char)
  | NullLiteral
  | Dictionary (fields : List DictionaryField)
  | Array (elements : List Expr)

/-- `validated.rs::TemplatePart`. -/
inductive TemplatePart where
  | Literal (text : List Char)
  | Expr (e : Expr)

/-- `validated.rs::DictionaryField`. -/
inductive DictionaryField where
  | mk (key : Expr) (value : Expr)
end

/-- The `kind` field of a validated expression. -/
def Expr.kind : Expr → ExprKind
  | .mk k _ _ => k

/-- The `span` field of a validated expression. -/
def Expr.span : Expr → Span
  | .mk _ s _ => s

/-- The `ty` field of a validated expression. -/
def Expr.ty : Expr → Ty
  | .mk _ _ t => t

/-- The `key` field of a validated dictionary field. -/
def DictionaryField.key : DictionaryField → Expr
  | .mk k _ => k

/-- The `value` field of a validated dictionary field. -/
def DictionaryField.value : DictionaryField → Expr
  | .mk _ v => v

/-- `validated.rs::Request`. -/
structure Request where
  method : HttpMethod
  url : Expr

/-- The `Const` entity stored by the validator in the `globals` map
(`validated::Const` as constructed in `validator.rs`: a `Name` and the
validated expression). -/
structure Konst where
  name : Name
  expr : Expr

/-- `validated.rs::Entry` (the shape constructed by `validator.rs`). -/
structure Entry where
  name : Name
  request : Option Request
  headers : Option Expr
  body : Option Expr

/-- `validated.rs::SourceFile`: two insertion-ordered name → entity maps,
embedded as association lists in insertion order. -/
structure SourceFile where
  entries : List (List Char × Entry)
  globals : List (List Char × Konst)

end Validated

/-- `IndexMap::get` (also modelling `HashMap` lookup): the first (and
only) binding of a key in an association list. -/
def indexMapGet {α : Type} (m : List (List Char × α)) (key : List Char) : Option α :=
  match m with
  | [] => none
  | (k, v) :: rest => if k = key then some v else indexMapGet rest key

/-- `IndexMap::insert`: an existing key keeps its position and gets the
new value; a new key is appended. -/
def indexMapInsert {α : Type} (m : List (List Char × α)) (key : List Char) (value : α) :
    List (List Char × α) :=
  match m with
  | [] => [(key, value)]
  | (k, v) :: rest =>
    if k = key then (k, value) :: rest else (k, v) :: indexMapInsert rest key value

namespace Validator

/-- Rust `str::parse::<i64>`: an optional sign followed by a nonempty
ASCII digit run, in range for a 64-bit signed integer. -/
def parse_i64 (text : List Char) : Option Int :=
  let signDigits : Int × List Char :=
    match text with
    | '+' :: rest => (1, rest)
    | '-' :: rest => (-1, rest)
    | _ => (1, text)
  let sign := signDigits.1
  let digits := signDigits.2
  if digits.isEmpty || !digits.all Char.isDigit then none
  else
    let n : Nat := digits.foldl (fun acc c => 10 * acc + (c.toNat - '0'.toNat)) 0
    let v : Int := sign * n
    if -(2 ^ 63) ≤ v && v ≤ 2 ^ 63 - 1 then some v else none

/-- Rust `str::parse::<f64>` success, restricted to the digits-and-dot
alphabet produced by the lexer: at most one dot and at least one digit.
(The full Rust float grammar — signs, exponents, `inf`, `nan` — is out of
scope; no theorem below depends on it, and on lexer-produced float text —
a digit run, a dot, a possibly empty digit run — both this model and Rust
always succeed.) -/
def parse_f64_ok (text : List Char) : Bool :=
  text.all (fun c => c.isDigit || c == '.') && text.any Char.isDigit &&
    text.count '.' ≤ 1

/-- `validator.rs::unescape_string`, as the loop over `char_indices`:
`i` is the byte index of the current character within `raw`, `escape` the
pending-backslash flag.  (Like the Rust loop, a trailing lone backslash is
dropped; the lexer never produces such a chunk.) -/
def unescape_go (span : Span) : List Char → Nat → Bool → Except Diagnostic (List Char)
  | [], _, _ => .ok []
  | c :: rest, i, escape =>
    if escape then
      let unescaped : Option Char :=
        if c == 'n' then some '\n'
        else if c == '\\' then some '\\'
        else if c == '\"' then some '\"'
        else none
      match unescaped with
      | some u =>
        match unescape_go span rest (i + c.utf8Size) false with
        | .error d => .error d
        | .ok out => .ok (u :: out)
      | none =>
        let absolute_index := span.start + 1 + i
        let errSpan := Span.new absolute_index (absolute_index + c.utf8Size)
        .error ((Diagnostic.error
          ("Unknown character escape `" ++ c.toString ++ "`") errSpan).primary_label
          "I don't know how to handle this character escape" .Error)
    else if c == '\\' then
      unescape_go span rest (i + c.utf8Size) true
    else
      match unescape_go span rest (i + c.utf8Size) false with
      | .error d => .error d
      | .ok out => .ok (c :: out)

/-- `validator.rs::unescape_string`. -/
def unescape_string (raw : List Char) (span : Span) : Except Diagnostic (List Char) :=
  unescape_go span raw 0 false

/-- The `if !contains then push` step used (inline) by both
`Validator::infer_array_type` and `Validator::make_union_ty`. -/
def push_unique (flat : List Validated.Ty) (t : Validated.Ty) : List Validated.Ty :=
  if flat.contains t then flat else flat ++ [t]

/-- The per-type step of the flattening loop in
`Validator::make_union_ty`: a nested `Union` contributes its members, any
other type itself. -/
def flatten_step (flat : List Validated.Ty) (ty : Validated.Ty) : List Validated.Ty :=
  match ty with
  | .Union inner => inner.foldl push_unique flat
  | other => push_unique flat other

/-- `Validator::make_union_ty`: flatten one level of nested unions while
deduplicating, then collapse empty/singleton results. -/
def make_union_ty (tys : List Validated.Ty) : Validated.Ty :=
  match tys.foldl flatten_step [] with
  | [] => .Unknown
  | [t] => t
  | flat => .Union flat

/-- `Validator::infer_array_type`: the set of distinct member types in
discovery order, collapsed to `Unknown` / the single type / a union. -/
def infer_array_type (elements : List Validated.Expr) : Validated.Ty :=
  match elements.foldl (fun unique_types elem => push_unique unique_types elem.ty) [] with
  | [] => .Unknown
  | [t] => t
  | unique_types => make_union_ty unique_types

/-- The distinct-type collapse of `infer_array_type` as a function of the
deduplicated type list (proof-layer name for its `match`). -/
def inferCollapse (u : List Validated.Ty) : Validated.Ty :=
  match u with
  | [] => .Unknown
  | [t] => t
  | unique_types => make_union_ty unique_types

mutual
/-- `Validator::validate_expr`. -/
def validate_expr (globals : List (List Char × Validated.Konst)) :
    Ast.Expr → Except Diagnostic Validated.Expr
  | .mk kind span =>
    match kind with
    | .StringLiteral parts =>
      match validate_template_parts globals span parts with
      | .error d => .error d
      | .ok validated_parts => .ok ⟨.StringLiteral validated_parts, span, .String⟩
    | .IntegerLiteral s =>
      match parse_i64 s with
      | none => .error (Diagnostic.error "Invalid integer literal" span)
      | some value => .ok ⟨.IntegerLiteral value, span, .Integer⟩
    | .FloatLiteral s =>
      if parse_f64_ok s then .ok ⟨.FloatLiteral s, span, .Float⟩
      else .error (Diagnostic.error "Invalid float literal" span)
    | .NullLiteral => .ok ⟨.NullLiteral, span, .Null⟩
    | .Dictionary fields =>
      -- body of `Validator::validate_dictionary_fields` (the field loop is
      -- the mutual function below)
      match validate_dictionary_fields globals fields with
      | .error d => .error d
      | .ok validated_fields =>
        let value_types := validated_fields.map (fun it => it.value.ty)
        .ok ⟨.Dictionary validated_fields, span, .Dictionary value_types⟩
    | .Array elements =>
      -- body of `Validator::validate_array_elements` (the element loop is
      -- the mutual function below)
      match validate_array_elements globals elements with
      | .error d => .error d
      | .ok validated_exprs =>
        let ty := infer_array_type validated_exprs
        .ok ⟨.Array validated_exprs, span, .Array ty⟩
    | .NameRef name =>
      match indexMapGet globals name with
      | some konst => .ok ⟨.NameRef name, konst.expr.span, konst.expr.ty⟩
      | none =>
        .error ((Diagnostic.error "Unknown identifier" span).primary_label
          "I don't know what this name is referring to" .Error)

/-- The template-part loop inside the `StringLiteral` arm of
`Validator::validate_expr`; `span` is the owning literal's span, passed
to `unescape_string`. -/
def validate_template_parts (globals : List (List Char × Validated.Konst)) (span : Span) :
    List Ast.TemplatePart → Except Diagnostic (List Validated.TemplatePart)
  | [] => .ok []
  | part :: rest =>
    match part with
    | .Literal raw =>
      match unescape_string raw span with
      | .error d => .error d
      | .ok unescaped =>
        match validate_template_parts globals span rest with
        | .error d => .error d
        | .ok parts => .ok (.Literal unescaped :: parts)
    | .Expr expr =>
      match validate_expr globals expr with
      | .error d => .error d
      | .ok validated_expr =>
        match validate_template_parts globals span rest with
        | .error d => .error d
        | .ok parts => .ok (.Expr validated_expr :: parts)

/-- The field loop of `Validator::validate_dictionary_fields`: each key
must type to `String`; values are unconstrained.  (No duplicate-key
check.)  The final `Expr` assembly of the Rust function appears at the
call site in `validate_expr` above. -/
def validate_dictionary_fields (globals : List (List Char × Validated.Konst)) :
    List Ast.DictionaryField → Except Diagnostic (List Validated.DictionaryField)
  | [] => .ok []
  | .mk fkey fvalue :: rest =>
    let key_span := fkey.span
    match validate_expr globals fkey with
    | .error d => .error d
    | .ok key =>
      if key.ty ≠ Validated.Ty.String then
        .error ((Diagnostic.error "Mismatched types" key_span).primary_label
          "I was expecting a string as key here" .Error)
      else
        match validate_expr globals fvalue with
        | .error d => .error d
        | .ok value =>
          match validate_dictionary_fields globals rest with
          | .error d => .error d
          | .ok fields => .ok (⟨key, value⟩ :: fields)

/-- The element loop of `Validator::validate_array_elements`; the final
`Expr` assembly of the Rust function appears at the call site in
`validate_expr` above. -/
def validate_array_elements (globals : List (List Char × Validated.Konst)) :
    List Ast.Expr → Except Diagnostic (List Validated.Expr)
  | [] => .ok []
  | elem :: rest =>
    match validate_expr globals elem with
    | .error d => .error d
    | .ok validated_expr =>
      match validate_array_elements globals rest with
      | .error d => .error d
      | .ok exprs => .ok (validated_expr :: exprs)
end

/-- The entry-body loop of `Validator::validate_entry`, with the three
`Option` accumulators for request, headers and body. -/
def validate_entry_items (globals : List (List Char × Validated.Konst))
    (entry_name : Ast.Name) :
    List Ast.EntryItem → Option Validated.Request → Option Validated.Expr →
    Option Validated.Expr →
    Except Diagnostic (Option Validated.Request × Option Validated.Expr ×
      Option Validated.Expr)
  | [], request, headers, body => .ok (request, headers, body)
  | item :: rest, validated_request, validated_headers, validated_body =>
    match item.kind with
    | .Request request =>
      let url_span := request.url.span
      match validate_expr globals request.url with
      | .error d => .error d
      | .ok validated_url =>
        if validated_url.ty ≠ Validated.Ty.String then
          .error ((Diagnostic.error "Mismatched types" url_span).primary_label
            "I was expecting a string here" .Error)
        else
          match validated_request with
          | some _ =>
            .error ((Diagnostic.error
              ("Entry `" ++ String.mk entry_name.text ++ "` contains multiple requests")
              item.span).primary_label
              ("I was expecting to find one request in entry `" ++
                String.mk entry_name.text ++ "`") .Error)
          | none =>
            validate_entry_items globals entry_name rest
              (some ⟨request.method, validated_url⟩) validated_headers validated_body
    | .Section name body =>
      let body_span := body.span
      match validate_expr globals body with
      | .error d => .error d
      | .ok validated_expr =>
        if name.text = "Headers".toList then
          match validated_expr.ty with
          | .Dictionary value_types =>
            if !value_types.all (fun it => it == Validated.Ty.String) then
              .error ((Diagnostic.error "Unexpected types" body_span).primary_label
                "I was expecting all the values to be strings here" .Error)
            else
              match validated_headers with
              | some _ =>
                .error ((Diagnostic.error
                  ("Entry `" ++ String.mk entry_name.text ++
                    "` contains multiple `[Headers]` sections") item.span).primary_label
                  ("I was expecting to find at most one `[Headers]` section in entry `" ++
                    String.mk entry_name.text ++ "`") .Error)
              | none =>
                validate_entry_items globals entry_name rest
                  validated_request (some validated_expr) validated_body
          | _ =>
            .error ((Diagnostic.error "Unexpected type" body_span).primary_label
              "I was expecting a dictionary here" .Error)
        else if name.text = "Body".toList then
          match validated_expr.ty with
          | .Dictionary _ =>
            match validated_body with
            | some _ =>
              .error ((Diagnostic.error
                ("Entry `" ++ String.mk entry_name.text ++
                  "` contains multiple `[Body]` sections") item.span).primary_label
                ("I was expecting to find at most one `[Body]` section in entry `" ++
                  String.mk entry_name.text ++ "`") .Error)
            | none =>
              validate_entry_items globals entry_name rest
                validated_request validated_headers (some validated_expr)
          | _ =>
            .error ((Diagnostic.error "Unexpected type" body_span).primary_label
              "I was expecting a dictionary here" .Error)
        else
          .error ((Diagnostic.error
            ("Unknown section name `" ++ String.mk name.text ++ "`") name.span).primary_label
            "I don't know what to do with this section here" .Error)

/-- `Validator::validate_entry`. -/
def validate_entry (globals : List (List Char × Validated.Konst)) (entry : Ast.Entry) :
    Except Diagnostic Validated.Entry :=
  match validate_entry_items globals entry.name entry.body none none none with
  | .error d => .error d
  | .ok (request, headers, body) =>
    .ok ⟨⟨entry.name.text, entry.name.span⟩, request, headers, body⟩

/-- The item loop of `Validator::validate`, threading the two
insertion-ordered maps.  As in the source, the entry/const is validated
before the duplicate-name check, and validation aborts at the first
diagnostic. -/
def validate_items :
    List Ast.Item → List (List Char × Validated.Entry) →
    List (List Char × Validated.Konst) → Except Diagnostic Validated.SourceFile
  | [], entries, globals => .ok ⟨entries, globals⟩
  | item :: rest, entries, globals =>
    match item.kind with
    | .Entry entry =>
      let entry_name := entry.name
      match validate_entry globals entry with
      | .error d => .error d
      | .ok validated_entry =>
        match indexMapGet entries entry_name.text with
        | some occupied =>
          .error (((Diagnostic.error
            ("The entry `" ++ String.mk entry_name.text ++ "` is defined multiple times")
            entry_name.span).primary_label
            "I have already seen an entry with this name" .Error).label
            "It was first defined here" occupied.name.span .Error)
        | none =>
          validate_items rest (entries ++ [(entry_name.text, validated_entry)]) globals
    | .Const name expr =>
      match validate_expr globals expr with
      | .error d => .error d
      | .ok validated_expr =>
        match indexMapGet globals name.text with
        | some occupied =>
          .error (((Diagnostic.error
            ("The variable `" ++ String.mk name.text ++ "` is defined multiple times")
            name.span).primary_label
            "I have already seen a variable with this name" .Error).label
            "It was first defined here" occupied.name.span .Error)
        | none =>
          validate_items rest entries
            (globals ++ [(name.text, ⟨⟨name.text, name.span⟩, validated_expr⟩)])

/-- `Validator::validate` (the method: items to validated source file). -/
def validate (items : List Ast.Item) : Except Diagnostic Validated.SourceFile :=
  validate_items items [] []

/-- `validator.rs::validate` (the free function: drives the parser, then
validates). -/
def validate_source (input : List Char) : Except Diagnostic Validated.SourceFile :=
  match Parser.parse input with
  | .error d => .error d
  | .ok file => validate file.items

end Validator

end Aurora

namespace Aurora

/-- `value.rs::Value`.  The `Dictionary` payload is the insertion-ordered
entry list as built by the evaluator (`machine.rs` constructs every
dictionary value as an `IndexMap`); `value.rs` itself declares the payload
as the unordered `std::collections::HashMap` — see the C4 analysis.  The
`Float` payload is the source text of the originating literal (see the
header). -/
inductive Value where
  | String (s : List Char)
  | Integer (i : Int)
  | Float (text : List Char)
  | Null
  | Dictionary (entries : List (List Char × Value))
  | Array (values : List Value)

/-- `Value::string` (panics — `none` — on a non-string). -/
def Value.string : Value → Option (List Char)
  | .String s => some s
  | _ => none

/-- `Value::dictionary` (panics — `none` — on a non-dictionary). -/
def Value.dictionary : Value → Option (List (List Char × Value))
  | .Dictionary d => some d
  | _ => none

/-- Byte-lexicographic order on strings (Rust `Ord` on `String`; UTF-8
byte order coincides with code-point order). -/
def charListLe : List Char → List Char → Bool
  | [], _ => true
  | _ :: _, [] => false
  | a :: as, b :: bs =>
    if a.toNat < b.toNat then true
    else if b.toNat < a.toNat then false
    else charListLe as bs

/-- Insert into a key-sorted pair list (helper for `keys.sort()` in the
`Display` impl of `Value`). -/
def insertPairSorted (p : List Char × List Char) :
    List (List Char × List Char) → List (List Char × List Char)
  | [] => [p]
  | q :: rest => if charListLe p.1 q.1 then p :: q :: rest else q :: insertPairSorted p rest

/-- Sort a pair list by key (`keys.sort()`). -/
def sortPairsByKey (l : List (List Char × List Char)) : List (List Char × List Char) :=
  l.foldr insertPairSorted []

/-- `Vec::join` on character lists. -/
def joinSep (sep : List Char) : List (List Char) → List Char
  | [] => []
  | [x] => x
  | x :: rest => x ++ sep ++ joinSep sep rest

mutual
/-- The `Display` impl of `value.rs::Value` (used by the evaluator to
stringify interpolated template values): strings render bare, integers
and floats via decimal formatting, `null` as `null`, dictionaries with
keys sorted lexicographically, arrays elementwise.  (The Rust dictionary
arm sorts the keys and formats `d[k]` for each; since map keys are
unique, that is the entry's value, so the embedding formats the entries
and then sorts by key.) -/
def Value.display : Value → List Char
  | .String s => s
  | .Integer i => (toString i).toList
  | .Float text => text
  | .Null => "null".toList
  | .Dictionary d =>
    let displayed := Value.displayEntries d
    let sorted := sortPairsByKey displayed
    let inner := joinSep ", ".toList
      (sorted.map (fun p => p.1 ++ ": ".toList ++ p.2))
    [openBrace] ++ inner ++ [closeBrace]
  | .Array a =>
    let inner := joinSep ", ".toList (Value.displayList a)
    ['['] ++ inner ++ [']']

/-- Entrywise display of a dictionary payload. -/
def Value.displayEntries : List (List Char × Value) → List (List Char × List Char)
  | [] => []
  | (k, v) :: rest => (k, Value.display v) :: Value.displayEntries rest

/-- Elementwise display of an array payload. -/
def Value.displayList : List Value → List (List Char)
  | [] => []
  | v :: rest => Value.display v :: Value.displayList rest
end

namespace Machine

/-- `machine.rs::RuntimeError`. -/
inductive RuntimeError where
  | EntryNotFound (name : List Char)

/-- The outbound request handed to the abstract transport collaborator
(`client.rs::Request`, as assembled by `Machine::execute_entry`).  The
body is kept as the evaluated `Value`; its JSON encoding by `serde_json`
is outside the embedding (the spec treats the JSON library as an external
collaborator). -/
structure Request where
  method : HttpMethod
  url : List Char
  headers : List (List Char × List Char)
  body : Option Value

mutual
/-- `Machine::eval_expr`.  `names` is the environment; `none` models the
Rust panics (`self.names[name]` on a missing name, `Value::string` on a
non-string key). -/
def eval_expr (names : List (List Char × Value)) : Validated.Expr → Option Value
  | .mk kind _ _ =>
    match kind with
    | .StringLiteral parts =>
      match eval_template_parts names parts with
      | none => none
      | some out => some (.String out)
    | .IntegerLiteral i => some (.Integer i)
    | .FloatLiteral f => some (.Float f)
    | .NullLiteral => some .Null
    | .Dictionary fields => eval_dictionary_fields names fields []
    | .Array elems =>
      match eval_array_elements names elems with
      | none => none
      | some values => some (.Array values)
    | .NameRef name => indexMapGet names name

/-- The part loop of the `StringLiteral` arm of `Machine::eval_expr`:
literal fragments concatenated with the stringified value of each
embedded expression. -/
def eval_template_parts (names : List (List Char × Value)) :
    List Validated.TemplatePart → Option (List Char)
  | [] => some []
  | .Literal s :: rest =>
    match eval_template_parts names rest with
    | none => none
    | some out => some (s ++ out)
  | .Expr e :: rest =>
    match eval_expr names e with
    | none => none
    | some value =>
      match eval_template_parts names rest with
      | none => none
      | some out => some (value.display ++ out)

/-- The field loop of the `Dictionary` arm of `Machine::eval_expr`:
evaluates fields in source order into an `IndexMap` (later duplicate keys
overwrite the value in place). -/
def eval_dictionary_fields (names : List (List Char × Value)) :
    List Validated.DictionaryField → List (List Char × Value) → Option Value
  | [], map => some (.Dictionary map)
  | .mk fkey fvalue :: rest, map =>
    match eval_expr names fkey with
    | none => none
    | some key =>
      match key.string with
      | none => none
      | some keyStr =>
        match eval_expr names fvalue with
        | none => none
        | some value =>
          eval_dictionary_fields names rest (indexMapInsert map keyStr value)

/-- The element loop of the `Array` arm of `Machine::eval_expr`. -/
def eval_array_elements (names : List (List Char × Value)) :
    List Validated.Expr → Option (List Value)
  | [] => some []
  | elem :: rest =>
    match eval_expr names elem with
    | none => none
    | some value =>
      match eval_array_elements names rest with
      | none => none
      | some values => some (value :: values)
end

/-- `Machine::map_headers`: projects a dictionary value into ordered
(name, value-string) header pairs (`none` models the `Value::string`
panic on a non-string value). -/
def map_headers : List (List Char × Value) → Option (List (List Char × List Char))
  | [] => some []
  | (k, v) :: rest =>
    match v.string with
    | none => none
    | some value =>
      match map_headers rest with
      | none => none
      | some pairs => some ((k, value) :: pairs)

/-- `Machine::execute_entry`, with the transport call abstracted as
`send`.  `some none` is the "no request, skipped" outcome; the outer
`none` models a panic. -/
def execute_entry {Resp : Type} (names : List (List Char × Value))
    (send : Request → Resp) (entry : Validated.Entry) : Option (Option Resp) :=
  match entry.request with
  | none => some none
  | some request =>
    match eval_expr names request.url with
    | none => none
    | some url =>
      match url.string with
      | none => none
      | some urlStr =>
        let headers : Option (List (List Char × List Char)) :=
          match entry.headers with
          | none => some []
          | some expr =>
            match eval_expr names expr with
            | none => none
            | some value =>
              match value.dictionary with
              | none => none
              | some d => map_headers d
        match headers with
        | none => none
        | some headerPairs =>
          let body : Option (Option Value) :=
            match entry.body with
            | none => some none
            | some bodyExpr =>
              match eval_expr names bodyExpr with
              | none => none
              | some value => some (some value)
          match body with
          | none => none
          | some bodyOpt =>
            some (some (send ⟨request.method, urlStr, headerPairs, bodyOpt⟩))

/-- The global-constant loop of `Machine::execute`: evaluates and inserts
every global in file declaration order. -/
def eval_globals (names : List (List Char × Value)) :
    List (List Char × Validated.Konst) → Option (List (List Char × Value))
  | [] => some names
  | (_, konst) :: rest =>
    match eval_expr names konst.expr with
    | none => none
    | some value => eval_globals (indexMapInsert names konst.name.text value) rest

/-- The all-entries loop of `Machine::execute` (no entry-name filter). -/
def execute_entries {Resp : Type} (names : List (List Char × Value))
    (send : Request → Resp) :
    List (List Char × Validated.Entry) → List Resp →
    Option (Except RuntimeError (List Resp))
  | [], responses => some (.ok responses)
  | (_, entry) :: rest, responses =>
    match execute_entry names send entry with
    | none => none
    | some none => execute_entries names send rest responses
    | some (some r) => execute_entries names send rest (responses ++ [r])

/-- `Machine::execute`: binds the externally supplied variables as
strings, evaluates the globals in declaration order on top of them, then
executes either the selected entry (absence is the fatal
`EntryNotFound`) or every entry in declaration order. -/
def execute {Resp : Type} (file : Validated.SourceFile)
    (entry_name : Option (List Char))
    (external_vars : List (List Char × List Char))
    (send : Request → Resp) : Option (Except RuntimeError (List Resp)) :=
  let names0 := external_vars.foldl
    (fun m p => indexMapInsert m p.1 (Value.String p.2)) []
  match eval_globals names0 file.globals with
  | none => none
  | some names =>
    match entry_name with
    | some name =>
      match indexMapGet file.entries name with
      | none => some (.error (.EntryNotFound name))
      | some entry =>
        match execute_entry names send entry with
        | none => none
        | some none => some (.ok [])
        | some (some r) => some (.ok [r])
    | none => execute_entries names send file.entries []

/-- `machine.rs::execute` (the free function): validates the input and
runs the machine; a diagnostic aborts before any execution. -/
def execute_source {Resp : Type} (input : List Char)
    (entry_name : Option (List Char))
    (external_vars : List (List Char × List Char))
    (send : Request → Resp) :
    Except Diagnostic (Option (Except RuntimeError (List Resp))) :=
  match Validator.validate_source input with
  | .error d => .error d
  | .ok file => .ok (execute file entry_name external_vars send)

end Machine

end Aurora

namespace Aurora

/-- The message of a diagnostic result (`none` on success). -/
def errMessage {α : Type} : Except Diagnostic α → Option String
  | .error d => some d.message
  | .ok _ => none

/-- The primary span of a diagnostic result (`none` on success). -/
def errSpan {α : Type} : Except Diagnostic α → Option Span
  | .error d => some d.span
  | .ok _ => none

namespace Validated

/-- One-level set equality on types: two `Union`s are set-equal when
their member lists contain the same types; any other pair must be equal.
This is the equality the spec prescribes for `Union`
("set equality, order-independent, one level flat"). -/
def Ty.setEq (a b : Ty) : Prop :=
  match a, b with
  | .Union l1, .Union l2 => l1 ⊆ l2 ∧ l2 ⊆ l1
  | a, b => a = b

/-- Two expression lists exhibit the same set of distinct member types
(each list's type occurs in the other). -/
def sameMemberTySet (es1 es2 : List Expr) : Prop :=
  es1.map Expr.ty ⊆ es2.map Expr.ty ∧ es2.map Expr.ty ⊆ es1.map Expr.ty

/-- Membership in the one-level flattening of a type: a `Union`
contributes its members, any other type itself. -/
def Ty.expandMem (x t : Ty) : Prop :=
  match t with
  | .Union inner => x ∈ inner
  | other => x = other

/-- The final empty/singleton/union collapse shared by
`Validator::make_union_ty` (proof-layer name for its last `match`). -/
def collapseTys (f : List Ty) : Ty :=
  match f with
  | [] => .Unknown
  | [t] => t
  | flat => .Union flat

end Validated

namespace Ast

mutual
/-- All names referenced (as `NameRef`) anywhere in an expression,
including inside template strings. -/
def Expr.refNames : Expr → List (List Char)
  | .mk kind _ => ExprKind.refNames kind

/-- All referenced names in an expression kind. -/
def ExprKind.refNames : ExprKind → List (List Char)
  | .NameRef n => [n]
  | .StringLiteral parts => refNamesParts parts
  | .IntegerLiteral _ => []
  | .FloatLiteral _ => []
  | .NullLiteral => []
  | .Dictionary fields => refNamesFields fields
  | .Array elements => refNamesList elements

/-- All referenced names in a template-part list. -/
def refNamesParts : List TemplatePart → List (List Char)
  | [] => []
  | .Literal _ :: rest => refNamesParts rest
  | .Expr e :: rest => e.refNames ++ refNamesParts rest

/-- All referenced names in a dictionary-field list. -/
def refNamesFields : List DictionaryField → List (List Char)
  | [] => []
  | .mk k v :: rest => k.refNames ++ v.refNames ++ refNamesFields rest

/-- All referenced names in an expression list. -/
def refNamesList : List Expr → List (List Char)
  | [] => []
  | e :: rest => e.refNames ++ refNamesList rest
end

/-- All names referenced in an entry item (the request URL or the
section body). -/
def EntryItem.refNames (item : EntryItem) : List (List Char) :=
  match item.kind with
  | .Request req => req.url.refNames
  | .Section _ body => body.refNames

/-- All names referenced in an entry-item list. -/
def refNamesEntryItems : List EntryItem → List (List Char)
  | [] => []
  | item :: rest => item.refNames ++ refNamesEntryItems rest

/-- All names referenced in a top-level item. -/
def Item.refNames (item : Item) : List (List Char) :=
  match item.kind with
  | .Entry entry => refNamesEntryItems entry.body
  | .Const _ expr => expr.refNames

/-- Whether a top-level item is a `const` declaration of the given
name. -/
def Item.declares_const (item : Item) (n : List Char) : Bool :=
  match item.kind with
  | .Const name _ => name.text = n
  | .Entry _ => false

end Ast

namespace Validator

/-- The string-unescaping relation as the spec words it: `\n`, `\\`,
`\"` map to newline, backslash and double quote; any other escaped
character fails (`none`).  (A trailing lone backslash is dropped, as in
the code's loop; the lexer never produces such a chunk.) -/
def unescape_spec : List Char → Option (List Char)
  | [] => some []
  | ['\\'] => some []
  | '\\' :: c :: rest =>
    if c = 'n' then (unescape_spec rest).map (fun out => '\n' :: out)
    else if c = '\\' then (unescape_spec rest).map (fun out => '\\' :: out)
    else if c = '\"' then (unescape_spec rest).map (fun out => '\"' :: out)
    else none
  | c :: rest => (unescape_spec rest).map (fun out => c :: out)

end Validator

namespace Machine

/-- Pointwise evaluation of dictionary fields: field `i`'s key evaluates
to the string key of `pairs[i]` and its value to the value of
`pairs[i]`. -/
def fields_eval (names : List (List Char × Value)) :
    List Validated.DictionaryField → List (List Char × Value) → Prop
  | [], [] => True
  | .mk fkey fvalue :: rest, (k, v) :: prest =>
    eval_expr names fkey = some (.String k) ∧ eval_expr names fvalue = some v ∧
      fields_eval names rest prest
  | _, _ => False

/-- The value of the last binding of a key in a pair list. -/
def last_binding {α : Type} (pairs : List (List Char × α)) (key : List Char) : Option α :=
  indexMapGet pairs.reverse key

end Machine

mutual
/-- Shift a token's spans (including the spans of tokens nested in
template parts) up by `k` bytes. -/
def Token.shift (k : Nat) : Token → Token
  | .mk kind span nl => .mk (TokenKind.shift k kind) (Span.new (k + span.start) (k + span.stop)) nl

/-- Shift the nested spans of a token kind up by `k` bytes. -/
def TokenKind.shift (k : Nat) : TokenKind → TokenKind
  | .String parts => .String (TemplatePart.shiftList k parts)
  | other => other

/-- Shift the nested spans of a template part up by `k` bytes. -/
def TemplatePart.shift (k : Nat) : TemplatePart → TemplatePart
  | .Literal t => .Literal t
  | .Code tokens => .Code (Token.shiftList k tokens)

/-- Shift a template-part list up by `k` bytes. -/
def TemplatePart.shiftList (k : Nat) : List TemplatePart → List TemplatePart
  | [] => []
  | p :: rest => TemplatePart.shift k p :: TemplatePart.shiftList k rest

/-- Shift a token list up by `k` bytes. -/
def Token.shiftList (k : Nat) : List Token → List Token
  | [] => []
  | t :: rest => Token.shift k t :: Token.shiftList k rest
end

/-- Replace a token's top-level `skipped_newline` flag. -/
def Token.withNewline (t : Token) (nl : Bool) : Token :=
  .mk t.kind t.span nl

mutual
/-- A token together with every token nested inside its template
parts. -/
def Token.allTokens : Token → List Token
  | .mk kind span nl => .mk kind span nl :: TokenKind.allTokens kind

/-- Every token nested inside a token kind. -/
def TokenKind.allTokens : TokenKind → List Token
  | .String parts => TemplatePart.allTokensParts parts
  | _ => []

/-- Every token nested inside a template part. -/
def TemplatePart.allTokens : TemplatePart → List Token
  | .Literal _ => []
  | .Code tokens => Token.allTokensList tokens

/-- Every token nested inside a template-part list. -/
def TemplatePart.allTokensParts : List TemplatePart → List Token
  | [] => []
  | p :: rest => TemplatePart.allTokens p ++ TemplatePart.allTokensParts rest

/-- All tokens of a token list, nested tokens included. -/
def Token.allTokensList : List Token → List Token
  | [] => []
  | t :: rest => Token.allTokens t ++ Token.allTokensList rest
end

namespace Lexer

/-- The span-faithfulness property of a token relative to a piece of
input at base byte position `pos`: the token's span exactly bounds a
nonempty body inside the input, and `next_token` replays on that body
alone (with any sufficient fuel), reproducing the token with its
`skipped_newline` flag cleared. -/
def TokenSub (pos : Nat) (rest : List Char) (t : Token) : Prop :=
  ∃ pre body post, rest = pre ++ body ++ post ∧
    t.span.start = pos + utf8Len pre ∧
    t.span.stop = t.span.start + utf8Len body ∧
    0 < body.length ∧
    ∀ fuel, body.length < fuel →
      Lexer.next_token fuel t.span.start body =
        .ok (some (Token.withNewline t false), t.span.stop, [])

end Lexer

end Aurora

/-! ## Theorems -/

open Aurora

/-- `Except.map` on an error. -/
theorem except_map_error {e a b : Type} (f : a → b) (d : e) :
    (Except.error d : Except e a).map f = .error d := rfl

/-- `Except.map` on a success. -/
theorem except_map_ok {e a b : Type} (f : a → b) (x : a) :
    (Except.ok x : Except e a).map f = .ok (f x) := rfl

/-- Step unfolding: a non-backslash character is copied. -/
theorem unescape_go_plain (span : Span) (c : Char) (rest : List Char) (i : Nat)
    (hc : c ≠ '\\') :
    Validator.unescape_go span (c :: rest) i false =
      (Validator.unescape_go span rest (i + c.utf8Size) false).map
        (fun o => c :: o) := by
  cases h : Validator.unescape_go span rest (i + c.utf8Size) false with
  | error d =>
    rw [Validator.unescape_go]
    simp [show (c == '\\') = false from by simpa using hc, h, Except.map]
  | ok o =>
    rw [Validator.unescape_go]
    simp [show (c == '\\') = false from by simpa using hc, h, Except.map]

/-- Step unfolding: a trailing lone backslash is dropped. -/
theorem unescape_go_trailing (span : Span) (i : Nat) :
    Validator.unescape_go span ['\\'] i false = .ok [] := by
  rw [Validator.unescape_go]
  simp [Validator.unescape_go]

/-- Step unfolding: a backslash switches to the escape state. -/
theorem unescape_go_backslash (span : Span) (rest : List Char) (i : Nat) :
    Validator.unescape_go span ('\\' :: rest) i false =
      Validator.unescape_go span rest (i + 1) true := by
  rw [Validator.unescape_go]
  simp [show ('\\' : Char).utf8Size = 1 from rfl]

/-- Step unfolding: a known escape character is replaced. -/
theorem unescape_go_escape (span : Span) (c u : Char) (rest : List Char) (i : Nat)
    (hgood : (c = 'n' ∧ u = '\n') ∨ (c = '\\' ∧ u = '\\') ∨ (c = '"' ∧ u = '"')) :
    Validator.unescape_go span (c :: rest) i true =
      (Validator.unescape_go span rest (i + c.utf8Size) false).map
        (fun o => u :: o) := by
  cases h : Validator.unescape_go span rest (i + c.utf8Size) false with
  | error d =>
    rw [Validator.unescape_go]
    rcases hgood with ⟨hc, hu⟩ | ⟨hc, hu⟩ | ⟨hc, hu⟩ <;> subst hc <;> subst hu <;>
      simp [h, Except.map]
  | ok o =>
    rw [Validator.unescape_go]
    rcases hgood with ⟨hc, hu⟩ | ⟨hc, hu⟩ | ⟨hc, hu⟩ <;> subst hc <;> subst hu <;>
      simp [h, Except.map]

/-- Step unfolding: an unknown escape character fails with the span
computed from the base span and the character's byte index. -/
theorem unescape_go_bad (span : Span) (c : Char) (rest : List Char) (i : Nat)
    (h1 : c ≠ 'n') (h2 : c ≠ '\\') (h3 : c ≠ '"') :
    Validator.unescape_go span (c :: rest) i true =
      .error ((Diagnostic.error ("Unknown character escape `" ++ c.toString ++ "`")
        (Span.new (span.start + 1 + i) (span.start + 1 + i + c.utf8Size))).primary_label
        "I don't know how to handle this character escape" .Error) := by
  rw [Validator.unescape_go]
  simp [show (c == 'n') = false from by simpa using h1,
    show (c == '\\') = false from by simpa using h2,
    show (c == '"') = false from by simpa using h3]

/-- Spec-side step: a plain character is copied. -/
theorem unescape_spec_plain (c : Char) (rest : List Char) (hc : c ≠ '\\') :
    Validator.unescape_spec (c :: rest) =
      (Validator.unescape_spec rest).map (fun o => c :: o) := by
  cases rest with
  | nil => simp [Validator.unescape_spec, hc]
  | cons c1 r1 => simp [Validator.unescape_spec, hc]

/-- Spec-side step: `\n` becomes a newline. -/
theorem unescape_spec_n (rest : List Char) :
    Validator.unescape_spec ('\\' :: 'n' :: rest) =
      (Validator.unescape_spec rest).map (fun o => '\n' :: o) := by
  simp [Validator.unescape_spec]

/-- Spec-side step: `\\` becomes a backslash. -/
theorem unescape_spec_bs (rest : List Char) :
    Validator.unescape_spec ('\\' :: '\\' :: rest) =
      (Validator.unescape_spec rest).map (fun o => '\\' :: o) := by
  simp [Validator.unescape_spec]

/-- Spec-side step: `\"` becomes a double quote. -/
theorem unescape_spec_quote (rest : List Char) :
    Validator.unescape_spec ('\\' :: '"' :: rest) =
      (Validator.unescape_spec rest).map (fun o => '"' :: o) := by
  simp [Validator.unescape_spec]

/-- Spec-side step: any other escape fails. -/
theorem unescape_spec_bad (c : Char) (rest : List Char)
    (h1 : c ≠ 'n') (h2 : c ≠ '\\') (h3 : c ≠ '"') :
    Validator.unescape_spec ('\\' :: c :: rest) = none := by
  simp [Validator.unescape_spec, h1, h2, h3]

/-- The scan of `unescape_string` (escape flag off) succeeds exactly when
the spec-level unescaping relation does, with the same output, for any
start index. -/
theorem unescape_go_false_ok_iff (span : Span) :
    ∀ raw : List Char, ∀ i out, Validator.unescape_go span raw i false = .ok out ↔
      Validator.unescape_spec raw = some out := by
  intro raw
  induction raw using Validator.unescape_spec.induct with
  | case1 =>
    intro i out
    rw [Validator.unescape_go]
    simp [Validator.unescape_spec]
  | case2 =>
    intro i out
    rw [unescape_go_trailing]
    simp [Validator.unescape_spec]
  | case3 rest ih =>
    intro i out
    rw [unescape_go_backslash, unescape_go_escape span 'n' '\n' rest (i + 1) (Or.inl ⟨rfl, rfl⟩),
      unescape_spec_n]
    cases hg : Validator.unescape_go span rest (i + 1 + Char.utf8Size 'n') false with
    | error d =>
      cases hs : Validator.unescape_spec rest with
      | none => rw [except_map_error]; simp
      | some o =>
        exact absurd ((ih (i + 1 + Char.utf8Size 'n') o).mpr hs) (by simp [hg])
    | ok o =>
      have := (ih _ o).mp hg
      simp [this, except_map_ok]
  | case4 rest _ ih =>
    intro i out
    rw [unescape_go_backslash,
      unescape_go_escape span '\\' '\\' rest (i + 1) (Or.inr (Or.inl ⟨rfl, rfl⟩)),
      unescape_spec_bs]
    cases hg : Validator.unescape_go span rest (i + 1 + Char.utf8Size '\\') false with
    | error d =>
      cases hs : Validator.unescape_spec rest with
      | none => rw [except_map_error]; simp
      | some o =>
        exact absurd ((ih (i + 1 + Char.utf8Size '\\') o).mpr hs) (by simp [hg])
    | ok o =>
      have := (ih _ o).mp hg
      simp [this, except_map_ok]
  | case5 rest _ _ ih =>
    intro i out
    rw [unescape_go_backslash,
      unescape_go_escape span '"' '"' rest (i + 1) (Or.inr (Or.inr ⟨rfl, rfl⟩)),
      unescape_spec_quote]
    cases hg : Validator.unescape_go span rest (i + 1 + Char.utf8Size '"') false with
    | error d =>
      cases hs : Validator.unescape_spec rest with
      | none => rw [except_map_error]; simp
      | some o =>
        exact absurd ((ih (i + 1 + Char.utf8Size '"') o).mpr hs) (by simp [hg])
    | ok o =>
      have := (ih _ o).mp hg
      simp [this, except_map_ok]
  | case6 c rest h1 h2 h3 =>
    intro i out
    rw [unescape_go_backslash, unescape_go_bad span c rest (i + 1) h1 h2 h3,
      unescape_spec_bad c rest h1 h2 h3]
    simp
  | case7 c rest hn hc ih =>
    intro i out
    have hcb : c ≠ '\\' := by
      intro h
      cases rest with
      | nil => exact hn h rfl
      | cons c1 r1 => exact hc c1 r1 h rfl
    rw [unescape_go_plain span c rest i hcb, unescape_spec_plain c rest hcb]
    cases hg : Validator.unescape_go span rest (i + c.utf8Size) false with
    | error d =>
      cases hs : Validator.unescape_spec rest with
      | none => rw [except_map_error]; simp
      | some o =>
        exact absurd ((ih (i + c.utf8Size) o).mpr hs) (by simp [hg])
    | ok o =>
      have := (ih _ o).mp hg
      simp [this, except_map_ok]

/-- When the scan of `unescape_string` fails, the diagnostic's message
names a character of `raw` and the span is computed additively from the
base span and that character's byte index within `raw`. -/
theorem unescape_go_false_err (span : Span) :
    ∀ raw : List Char, ∀ i d, Validator.unescape_go span raw i false = .error d →
      ∃ pre c post, raw = pre ++ c :: post ∧
        d.span = Span.new (span.start + 1 + (i + utf8Len pre))
          (span.start + 1 + (i + utf8Len pre) + c.utf8Size) ∧
        d.message = "Unknown character escape `" ++ c.toString ++ "`" := by
  intro raw
  induction raw using Validator.unescape_spec.induct with
  | case1 =>
    intro i d h
    rw [Validator.unescape_go] at h
    simp at h
  | case2 =>
    intro i d h
    rw [unescape_go_trailing] at h
    simp at h
  | case3 rest ih =>
    intro i d h
    rw [unescape_go_backslash,
      unescape_go_escape span 'n' '\n' rest (i + 1) (Or.inl ⟨rfl, rfl⟩)] at h
    cases hg : Validator.unescape_go span rest (i + 1 + Char.utf8Size 'n') false with
    | ok o => rw [hg] at h; simp [except_map_ok] at h
    | error d2 =>
      rw [hg] at h
      rw [except_map_error] at h
      injection h with h
      subst h
      obtain ⟨pre, c, post, hdec, hspan, hmsg⟩ := ih _ _ hg
      refine ⟨'\\' :: 'n' :: pre, c, post, by simp [hdec], ?_, hmsg⟩
      rw [hspan]
      have e1 : ('\\' : Char).utf8Size = 1 := rfl
      have e2 : ('n' : Char).utf8Size = 1 := rfl
      simp only [utf8Len, List.map_cons, List.sum_cons, e1, e2]
      congr 1 <;> simp [utf8Len] <;> omega
  | case4 rest _ ih =>
    intro i d h
    rw [unescape_go_backslash,
      unescape_go_escape span '\\' '\\' rest (i + 1) (Or.inr (Or.inl ⟨rfl, rfl⟩))] at h
    cases hg : Validator.unescape_go span rest (i + 1 + Char.utf8Size '\\') false with
    | ok o => rw [hg] at h; simp [except_map_ok] at h
    | error d2 =>
      rw [hg] at h
      rw [except_map_error] at h
      injection h with h
      subst h
      obtain ⟨pre, c, post, hdec, hspan, hmsg⟩ := ih _ _ hg
      refine ⟨'\\' :: '\\' :: pre, c, post, by simp [hdec], ?_, hmsg⟩
      rw [hspan]
      have e1 : ('\\' : Char).utf8Size = 1 := rfl
      simp only [utf8Len, List.map_cons, List.sum_cons, e1]
      congr 1 <;> simp [utf8Len] <;> omega
  | case5 rest _ _ ih =>
    intro i d h
    rw [unescape_go_backslash,
      unescape_go_escape span '"' '"' rest (i + 1) (Or.inr (Or.inr ⟨rfl, rfl⟩))] at h
    cases hg : Validator.unescape_go span rest (i + 1 + Char.utf8Size '"') false with
    | ok o => rw [hg] at h; simp [except_map_ok] at h
    | error d2 =>
      rw [hg] at h
      rw [except_map_error] at h
      injection h with h
      subst h
      obtain ⟨pre, c, post, hdec, hspan, hmsg⟩ := ih _ _ hg
      refine ⟨'\\' :: '"' :: pre, c, post, by simp [hdec], ?_, hmsg⟩
      rw [hspan]
      have e1 : ('\\' : Char).utf8Size = 1 := rfl
      have e2 : ('"' : Char).utf8Size = 1 := rfl
      simp only [utf8Len, List.map_cons, List.sum_cons, e1, e2]
      congr 1 <;> simp [utf8Len] <;> omega
  | case6 c rest h1 h2 h3 =>
    intro i d h
    rw [unescape_go_backslash, unescape_go_bad span c rest (i + 1) h1 h2 h3] at h
    injection h with h
    subst h
    refine ⟨['\\'], c, rest, rfl, ?_, rfl⟩
    have e1 : ('\\' : Char).utf8Size = 1 := rfl
    simp only [utf8Len, List.map_cons, List.map_nil, List.sum_cons, List.sum_nil, e1]
    congr 1
  | case7 c rest hn hc ih =>
    intro i d h
    have hcb : c ≠ '\\' := by
      intro hq
      cases rest with
      | nil => exact hn hq rfl
      | cons c1 r1 => exact hc c1 r1 hq rfl
    rw [unescape_go_plain span c rest i hcb] at h
    cases hg : Validator.unescape_go span rest (i + c.utf8Size) false with
    | ok o => rw [hg] at h; simp [except_map_ok] at h
    | error d2 =>
      rw [hg] at h
      rw [except_map_error] at h
      injection h with h
      subst h
      obtain ⟨pre, c2, post, hdec, hspan, hmsg⟩ := ih _ _ hg
      refine ⟨c :: pre, c2, post, by simp [hdec], ?_, hmsg⟩
      rw [hspan]
      simp only [utf8Len, List.map_cons, List.sum_cons]
      congr 1 <;> simp [utf8Len] <;> omega

/-- C1: the lexer's keyword/method reclassification is case-sensitive
exact match, but — against the spec's five-method set — only `GET`,
`POST` and `PUT` are reclassified: the exact texts `PATCH` and `DELETE`
lex as `Identifier` tokens (the failing inputs of the code bug), as does
any other spelling such as `get`. -/
theorem C1_method_reclassification :
    Lexer.lex "GET".toList =
      .ok [Token.mk (.HttpMethod .Get) (Span.new 0 3) false] ∧
    Lexer.lex "POST".toList =
      .ok [Token.mk (.HttpMethod .Post) (Span.new 0 4) false] ∧
    Lexer.lex "PUT".toList =
      .ok [Token.mk (.HttpMethod .Put) (Span.new 0 3) false] ∧
    Lexer.lex "get".toList =
      .ok [Token.mk (.Identifier "get".toList) (Span.new 0 3) false] ∧
    Lexer.lex "PATCH".toList =
      .ok [Token.mk (.Identifier "PATCH".toList) (Span.new 0 5) false] ∧
    Lexer.lex "DELETE".toList =
      .ok [Token.mk (.Identifier "DELETE".toList) (Span.new 0 6) false] :=
  ⟨rfl, rfl, rfl, rfl, rfl, rfl⟩

/-- C5: `const` statements and `GET` requests require a newline boundary
after their expression (`expect_newline`), but — against the claim — the
`POST`/`PUT` request arms do not: a `POST`/`PUT` request followed on the
same line by another token parses successfully, while the same source
with `GET`, and a `const` followed on the same line by another item, fail
with "Missing newline". -/
theorem C5_request_newline_bug :
    (Parser.parse "entry e \x7b POST \"u\" \x7d".toList).isOk = true ∧
    (Parser.parse "entry e \x7b PUT \"u\" \x7d".toList).isOk = true ∧
    errMessage (Parser.parse "entry e \x7b GET \"u\" \x7d".toList) =
      some "Missing newline" ∧
    errMessage (Parser.parse "const a = 1 const b = 2".toList) =
      some "Missing newline" :=
  ⟨rfl, rfl, rfl, rfl⟩

/-- C6 (amended): string-literal unescaping maps `\n`, `\\`, `\"` to
newline, backslash and double quote and fails on any other escaped
character; the failure span is computed additively as the owning
literal's base offset, plus one (for the opening quote), plus the
character's byte index within its chunk — which covers exactly the
character's source position when the chunk is the literal's leading chunk
(e.g. `"foo\qbar"`: the span covers exactly the `q` at byte 15). -/
theorem C6_unescape_amended :
    (∀ raw span out, Validator.unescape_string raw span = .ok out ↔
      Validator.unescape_spec raw = some out) ∧
    (∀ raw span d, Validator.unescape_string raw span = .error d →
      ∃ pre c post, raw = pre ++ c :: post ∧
        d.span = Span.new (span.start + 1 + utf8Len pre)
          (span.start + 1 + utf8Len pre + c.utf8Size) ∧
        d.message = "Unknown character escape `" ++ c.toString ++ "`") ∧
    (errMessage (Validator.validate_source "const y = \"foo\\qbar\"".toList) =
        some "Unknown character escape `q`" ∧
      errSpan (Validator.validate_source "const y = \"foo\\qbar\"".toList) =
        some (Span.new 15 16) ∧
      "const y = \"foo\\qbar\"".toList =
        "const y = \"foo\\".toList ++ 'q' :: "bar\"".toList ∧
      utf8Len "const y = \"foo\\".toList = 15) := by
  refine ⟨?_, ?_, rfl, rfl, rfl, rfl⟩
  · intro raw span out
    exact unescape_go_false_ok_iff span raw 0 out
  · intro raw span d h
    obtain ⟨pre, c, post, hdec, hspan, hmsg⟩ := unescape_go_false_err span raw 0 d h
    exact ⟨pre, c, post, hdec, by simpa using hspan, hmsg⟩

/-- C6 (counterexample to the claim as stated): in
`const x = "a"` + `const y = "{{x}}\qz"`, the invalid escape's `q` sits
at byte 31 of the source, but the diagnostic's span is `26..27` — the
span is computed from the literal's base offset and the index within the
chunk, so it misses the offending character whenever a template part
precedes the chunk. -/
theorem C6_escape_span_counterexample :
    errMessage (Validator.validate_source
        "const x = \"a\"\nconst y = \"\x7b\x7bx\x7d\x7d\\qz\"".toList) =
      some "Unknown character escape `q`" ∧
    errSpan (Validator.validate_source
        "const x = \"a\"\nconst y = \"\x7b\x7bx\x7d\x7d\\qz\"".toList) =
      some (Span.new 26 27) ∧
    "const x = \"a\"\nconst y = \"\x7b\x7bx\x7d\x7d\\qz\"".toList =
      "const x = \"a\"\nconst y = \"\x7b\x7bx\x7d\x7d\\".toList ++
        'q' :: "z\"".toList ∧
    utf8Len "const x = \"a\"\nconst y = \"\x7b\x7bx\x7d\x7d\\".toList = 31 ∧
    ¬(26 ≤ 31 ∧ 31 < 27) :=
  ⟨rfl, rfl, rfl, rfl, by omega⟩

/-- Witness for `C6_unescape_amended`: its parts applied at concrete
inputs — `"foo\nbar"` unescapes per the spec relation, and the failing
`"foo\qbar"` (with literal span `0..10`) yields the diagnostic whose span
is `5..6`, the formula instantiated at chunk index 4. -/
theorem C6_unescape_amended_witness :
    Validator.unescape_spec "foo\\nbar".toList = some "foo\nbar".toList ∧
    (∃ pre c post, "foo\\qbar".toList = pre ++ c :: post ∧
      ((Diagnostic.error ("Unknown character escape `" ++ ('q' : Char).toString ++ "`")
        (Span.new 5 6)).primary_label
        "I don't know how to handle this character escape" .Error).span =
        Span.new ((Span.new 0 10).start + 1 + utf8Len pre)
          ((Span.new 0 10).start + 1 + utf8Len pre + c.utf8Size) ∧
      ((Diagnostic.error ("Unknown character escape `" ++ ('q' : Char).toString ++ "`")
        (Span.new 5 6)).primary_label
        "I don't know how to handle this character escape" .Error).message =
        "Unknown character escape `" ++ c.toString ++ "`") :=
  ⟨(C6_unescape_amended.1 "foo\\nbar".toList (Span.new 0 10) "foo\nbar".toList).mp rfl,
    C6_unescape_amended.2.1 "foo\\qbar".toList (Span.new 0 10) _ rfl⟩

/-- Membership after a single dedup-push. -/
theorem mem_push_unique (acc : List Validated.Ty) (t x : Validated.Ty) :
    x ∈ Validator.push_unique acc t ↔ x ∈ acc ∨ x = t := by
  unfold Validator.push_unique
  split
  · rename_i hc
    have ht : t ∈ acc := by simpa using hc
    constructor
    · exact Or.inl
    · rintro (h | h)
      · exact h
      · exact h ▸ ht
  · simp

/-- A single dedup-push preserves `Nodup`. -/
theorem nodup_push_unique (acc : List Validated.Ty) (t : Validated.Ty)
    (h : acc.Nodup) : (Validator.push_unique acc t).Nodup := by
  unfold Validator.push_unique
  split
  · exact h
  · rename_i hc
    refine List.nodup_append.mpr ⟨h, List.nodup_singleton t, ?_⟩
    intro x hx
    simp only [List.mem_singleton]
    intro he
    subst he
    exact absurd (by simpa using hx) (by simpa using hc)

/-- Membership after the dedup-push fold: exactly the accumulator's and
the list's elements. -/
theorem mem_foldl_push_unique (l : List Validated.Ty) :
    ∀ acc x, x ∈ l.foldl Validator.push_unique acc ↔ x ∈ acc ∨ x ∈ l := by
  induction l with
  | nil => intro acc x; simp
  | cons t rest ih =>
    intro acc x
    rw [List.foldl_cons, ih, mem_push_unique]
    simp [List.mem_cons]
    tauto

/-- The dedup-push fold preserves `Nodup`. -/
theorem nodup_foldl_push_unique (l : List Validated.Ty) :
    ∀ acc : List Validated.Ty, acc.Nodup → (l.foldl Validator.push_unique acc).Nodup := by
  induction l with
  | nil => intro acc h; simpa using h
  | cons t rest ih =>
    intro acc h
    rw [List.foldl_cons]
    exact ih _ (nodup_push_unique acc t h)

/-- Membership after one flattening step. -/
theorem mem_flatten_step (acc : List Validated.Ty) (t x : Validated.Ty) :
    x ∈ Validator.flatten_step acc t ↔ x ∈ acc ∨ Validated.Ty.expandMem x t := by
  cases t <;>
    simp [Validator.flatten_step, Validated.Ty.expandMem, mem_push_unique,
      mem_foldl_push_unique]

/-- One flattening step preserves `Nodup`. -/
theorem nodup_flatten_step (acc : List Validated.Ty) (t : Validated.Ty)
    (h : acc.Nodup) : (Validator.flatten_step acc t).Nodup := by
  cases t <;>
    first
    | exact nodup_foldl_push_unique _ _ h
    | exact nodup_push_unique _ _ h

/-- Membership after the union-flattening fold: the accumulator's
elements plus the one-level expansion of the list's types. -/
theorem mem_foldl_flatten_step (tys : List Validated.Ty) :
    ∀ acc x, x ∈ tys.foldl Validator.flatten_step acc ↔
      x ∈ acc ∨ ∃ t ∈ tys, Validated.Ty.expandMem x t := by
  induction tys with
  | nil => intro acc x; simp
  | cons t rest ih =>
    intro acc x
    rw [List.foldl_cons, ih, mem_flatten_step]
    constructor
    · rintro ((h | h) | ⟨u, hu, hex⟩)
      · exact Or.inl h
      · exact Or.inr ⟨t, List.mem_cons_self t rest, h⟩
      · exact Or.inr ⟨u, List.mem_cons_of_mem t hu, hex⟩
    · rintro (h | ⟨u, hu, hex⟩)
      · exact Or.inl (Or.inl h)
      · rcases List.mem_cons.mp hu with hu | hu
        · exact Or.inl (Or.inr (hu ▸ hex))
        · exact Or.inr ⟨u, hu, hex⟩

/-- The union-flattening fold preserves `Nodup`. -/
theorem nodup_foldl_flatten_step (tys : List Validated.Ty) :
    ∀ acc : List Validated.Ty, acc.Nodup →
      (tys.foldl Validator.flatten_step acc).Nodup := by
  induction tys with
  | nil => intro acc h; simpa using h
  | cons t rest ih =>
    intro acc h
    rw [List.foldl_cons]
    exact ih _ (nodup_flatten_step acc t h)

/-- `Ty.setEq` is reflexive. -/
theorem ty_setEq_refl (a : Validated.Ty) : Validated.Ty.setEq a a := by
  cases a <;> simp [Validated.Ty.setEq]

/-- The empty/singleton/union collapse sends set-equal `Nodup` lists to
set-equal types. -/
theorem collapse_setEq (f1 f2 : List Validated.Ty)
    (nd1 : f1.Nodup) (nd2 : f2.Nodup) (ext : ∀ x, x ∈ f1 ↔ x ∈ f2) :
    Validated.Ty.setEq (Validated.collapseTys f1) (Validated.collapseTys f2) := by
  have hperm : f1.Perm f2 := (List.perm_ext_iff_of_nodup nd1 nd2).mpr ext
  have hlen := hperm.length_eq
  match f1, f2 with
  | [], [] => exact ty_setEq_refl _
  | [a], [b] =>
    have hab : a = b := by
      have := (ext a).mp (List.mem_singleton_self a)
      simpa using this
    subst hab
    exact ty_setEq_refl _
  | [], _ :: _ => simp at hlen
  | _ :: _, [] => simp at hlen
  | [a], _ :: _ :: _ => simp at hlen
  | _ :: _ :: _, [b] => simp at hlen
  | a :: a2 :: arest, b :: b2 :: brest =>
    constructor
    · intro x hx
      exact (ext x).mp hx
    · intro x hx
      exact (ext x).mpr hx

/-- `make_union_ty` as the collapse of the flattening fold. -/
theorem make_union_eq (tys : List Validated.Ty) :
    Validator.make_union_ty tys =
      Validated.collapseTys (tys.foldl Validator.flatten_step []) := by
  unfold Validator.make_union_ty Validated.collapseTys
  rfl

/-- `infer_array_type` as the collapse of the dedup fold over the member
types. -/
theorem infer_array_type_eq (elements : List Validated.Expr) :
    Validator.infer_array_type elements =
      Validator.inferCollapse
        ((elements.map Validated.Expr.ty).foldl Validator.push_unique []) := by
  unfold Validator.infer_array_type Validator.inferCollapse
  rw [List.foldl_map]

/-- Folding dedup-push over elements already in the accumulator changes
nothing. -/
theorem foldl_push_unique_absorb (l : List Validated.Ty) :
    ∀ acc, (∀ x ∈ l, x ∈ acc) → l.foldl Validator.push_unique acc = acc := by
  induction l with
  | nil => intro acc _; rfl
  | cons t rest ih =>
    intro acc h
    rw [List.foldl_cons]
    have ht : t ∈ acc := h t (List.mem_cons_self t rest)
    have : Validator.push_unique acc t = acc := by
      unfold Validator.push_unique
      rw [if_pos (by simpa using ht)]
    rw [this]
    exact ih acc (fun x hx => h x (List.mem_cons_of_mem t hx))

/-- The dedup fold of a nonempty constant list is the singleton. -/
theorem foldl_push_unique_const (t : Validated.Ty) :
    ∀ l : List Validated.Ty, l ≠ [] → (∀ x ∈ l, x = t) →
      l.foldl Validator.push_unique [] = [t] := by
  intro l hne hall
  cases l with
  | nil => exact absurd rfl hne
  | cons t0 rest =>
    have ht0 : t0 = t := hall t0 (List.mem_cons_self t0 rest)
    subst ht0
    rw [List.foldl_cons]
    have : Validator.push_unique [] t0 = [t0] := rfl
    rw [this]
    exact foldl_push_unique_absorb rest [t0] (fun x hx => by
      have := hall x (List.mem_cons_of_mem t0 hx)
      simp [this])

/-- The collapse of set-equal `Nodup` deduplicated type lists yields
set-equal inferred types. -/
theorem inferCollapse_setEq (u1 u2 : List Validated.Ty)
    (nd1 : u1.Nodup) (nd2 : u2.Nodup) (ext : ∀ x, x ∈ u1 ↔ x ∈ u2) :
    Validated.Ty.setEq (Validator.inferCollapse u1) (Validator.inferCollapse u2) := by
  have hperm : u1.Perm u2 := (List.perm_ext_iff_of_nodup nd1 nd2).mpr ext
  have hlen := hperm.length_eq
  match u1, u2 with
  | [], [] => exact ty_setEq_refl _
  | [a], [b] =>
    have hab : a = b := by
      have := (ext a).mp (List.mem_singleton_self a)
      simpa using this
    subst hab
    exact ty_setEq_refl _
  | [], _ :: _ => simp at hlen
  | _ :: _, [] => simp at hlen
  | [a], _ :: _ :: _ => simp at hlen
  | _ :: _ :: _, [b] => simp at hlen
  | a :: a2 :: arest, b :: b2 :: brest =>
    show Validated.Ty.setEq (Validator.make_union_ty (a :: a2 :: arest))
      (Validator.make_union_ty (b :: b2 :: brest))
    rw [make_union_eq, make_union_eq]
    apply collapse_setEq
    · exact nodup_foldl_flatten_step _ [] List.nodup_nil
    · exact nodup_foldl_flatten_step _ [] List.nodup_nil
    · intro x
      rw [mem_foldl_flatten_step, mem_foldl_flatten_step]
      simp only [List.not_mem_nil, false_or]
      constructor
      · rintro ⟨t, ht, hex⟩
        exact ⟨t, (ext t).mp ht, hex⟩
      · rintro ⟨t, ht, hex⟩
        exact ⟨t, (ext t).mpr ht, hex⟩

/-- C3: array member-type inference is set-based and order-independent:
an empty array infers `Unknown`; an array whose elements all have one
type infers that type; and two element lists exhibiting the same set of
distinct member types infer set-equal types (`Union` equality being
one-level set equality). -/
theorem C3_array_type_inference :
    Validator.infer_array_type [] = Validated.Ty.Unknown ∧
    (∀ (es : List Validated.Expr) (t : Validated.Ty), es ≠ [] →
      (∀ e ∈ es, Validated.Expr.ty e = t) →
      Validator.infer_array_type es = t) ∧
    (∀ es1 es2 : List Validated.Expr, Validated.sameMemberTySet es1 es2 →
      Validated.Ty.setEq (Validator.infer_array_type es1)
        (Validator.infer_array_type es2)) := by
  refine ⟨rfl, ?_, ?_⟩
  · intro es t hne hall
    rw [infer_array_type_eq]
    have hmapne : es.map Validated.Expr.ty ≠ [] := by
      cases es with
      | nil => exact absurd rfl hne
      | cons e rest => simp
    have hmapall : ∀ x ∈ es.map Validated.Expr.ty, x = t := by
      intro x hx
      rcases List.mem_map.mp hx with ⟨e, he, hxe⟩
      exact hxe ▸ hall e he
    rw [foldl_push_unique_const t _ hmapne hmapall]
    rfl
  · intro es1 es2 hsame
    rw [infer_array_type_eq, infer_array_type_eq]
    apply inferCollapse_setEq
    · exact nodup_foldl_push_unique _ [] List.nodup_nil
    · exact nodup_foldl_push_unique _ [] List.nodup_nil
    · intro x
      rw [mem_foldl_push_unique, mem_foldl_push_unique]
      simp only [List.not_mem_nil, false_or]
      exact ⟨fun h => hsame.1 h, fun h => hsame.2 h⟩

/-- Witness for `C3_array_type_inference`: `[1, 2, 3]` infers `Integer`,
and `[1, "a", 1]` and `["a", 1]` (which exhibit the same set of member
types) infer set-equal types. -/
theorem C3_array_type_inference_witness :
    Validator.infer_array_type
      [⟨.IntegerLiteral 1, Span.new 0 0, .Integer⟩,
       ⟨.IntegerLiteral 2, Span.new 0 0, .Integer⟩,
       ⟨.IntegerLiteral 3, Span.new 0 0, .Integer⟩] = Validated.Ty.Integer ∧
    Validated.Ty.setEq
      (Validator.infer_array_type
        [⟨.IntegerLiteral 1, Span.new 0 0, .Integer⟩,
         ⟨.StringLiteral [.Literal "a".toList], Span.new 0 0, .String⟩,
         ⟨.IntegerLiteral 1, Span.new 0 0, .Integer⟩])
      (Validator.infer_array_type
        [⟨.StringLiteral [.Literal "a".toList], Span.new 0 0, .String⟩,
         ⟨.IntegerLiteral 1, Span.new 0 0, .Integer⟩]) :=
  ⟨C3_array_type_inference.2.1 _ Validated.Ty.Integer (by simp)
      (by intro e he; fin_cases he <;> rfl),
    C3_array_type_inference.2.2 _ _
      ⟨by intro x hx; fin_cases hx <;> simp [Validated.Expr.ty],
       by intro x hx; fin_cases hx <;> simp [Validated.Expr.ty]⟩⟩

/-- An entry consisting of a single `[Headers]` section validates
exactly when the section expression types to a dictionary whose member
value types are all `String`. -/
theorem headers_section_validates_iff :
    (∀ (globals : List (List Char × Validated.Konst)) (ename : Ast.Name)
        (nspan ispan : Span) (bodyE : Ast.Expr),
      (Validator.validate_entry globals
        ⟨ename, [⟨.Section ⟨"Headers".toList, nspan⟩ bodyE, ispan⟩]⟩).isOk = true ↔
      ∃ ve tys, Validator.validate_expr globals bodyE = .ok ve ∧
        Validated.Expr.ty ve = .Dictionary tys ∧ ∀ t ∈ tys, t = Validated.Ty.String) := by
  intro globals ename nspan ispan bodyE
  simp only [Validator.validate_entry, Validator.validate_entry_items]
  cases hv : Validator.validate_expr globals bodyE with
  | error d =>
    simp [Except.isOk, Except.toBool]
  | ok ve =>
    simp only [if_true, reduceIte]
    cases hty : Validated.Expr.ty ve with
    | Dictionary value_types =>
      simp only []
      by_cases hall : ∀ t ∈ value_types, t = Validated.Ty.String
      · rw [show (!value_types.all fun it => it == Validated.Ty.String) = false from by
          simp only [Bool.not_eq_false', List.all_eq_true]
          intro t ht
          simpa using hall t (by simpa using ht)]
        simp only [Bool.false_eq_true, if_false, reduceIte, Except.isOk, Except.toBool]
        constructor
        · intro _
          exact ⟨ve, value_types, rfl, hty, hall⟩
        · intro _
          trivial
      · rw [show (!value_types.all fun it => it == Validated.Ty.String) = true from by
          simp only [Bool.not_eq_true', List.all_eq_false]
          push_neg at hall
          rcases hall with ⟨t, htmem, htne⟩
          exact ⟨t, htmem, by simpa using htne⟩]
        simp only [if_true, reduceIte, Except.isOk, Except.toBool]
        constructor
        · intro h
          exact absurd h (by simp)
        · rintro ⟨ve2, tys2, hve2, hty2, hall2⟩
          injection hve2 with hve2
          subst hve2
          rw [hty] at hty2
          injection hty2 with hty2
          subst hty2
          push_neg at hall
          rcases hall with ⟨t, htmem, htne⟩
          exact absurd (hall2 t htmem) htne
    | String =>
      simp only [reduceIte, Except.isOk, Except.toBool]
      constructor
      · intro h
        exact absurd h (by simp)
      · rintro ⟨ve2, tys2, hve2, hty2, _⟩
        injection hve2 with hve2
        subst hve2
        rw [hty] at hty2
        cases hty2
    | Integer =>
      simp only [reduceIte, Except.isOk, Except.toBool]
      constructor
      · intro h
        exact absurd h (by simp)
      · rintro ⟨ve2, tys2, hve2, hty2, _⟩
        injection hve2 with hve2
        subst hve2
        rw [hty] at hty2
        cases hty2
    | Float =>
      simp only [reduceIte, Except.isOk, Except.toBool]
      constructor
      · intro h
        exact absurd h (by simp)
      · rintro ⟨ve2, tys2, hve2, hty2, _⟩
        injection hve2 with hve2
        subst hve2
        rw [hty] at hty2
        cases hty2
    | Null =>
      simp only [reduceIte, Except.isOk, Except.toBool]
      constructor
      · intro h
        exact absurd h (by simp)
      · rintro ⟨ve2, tys2, hve2, hty2, _⟩
        injection hve2 with hve2
        subst hve2
        rw [hty] at hty2
        cases hty2
    | Array elem =>
      simp only [reduceIte, Except.isOk, Except.toBool]
      constructor
      · intro h
        exact absurd h (by simp)
      · rintro ⟨ve2, tys2, hve2, hty2, _⟩
        injection hve2 with hve2
        subst hve2
        rw [hty] at hty2
        cases hty2
    | Union tys =>
      simp only [reduceIte, Except.isOk, Except.toBool]
      constructor
      · intro h
        exact absurd h (by simp)
      · rintro ⟨ve2, tys2, hve2, hty2, _⟩
        injection hve2 with hve2
        subst hve2
        rw [hty] at hty2
        cases hty2
    | Unknown =>
      simp only [reduceIte, Except.isOk, Except.toBool]
      constructor
      · intro h
        exact absurd h (by simp)
      · rintro ⟨ve2, tys2, hve2, hty2, _⟩
        injection hve2 with hve2
        subst hve2
        rw [hty] at hty2
        cases hty2

/-- C7: an entry's `[Headers]` section validates exactly when its
expression types to a `Dictionary` all of whose member value types are
`String`; concretely, `[Headers] { "a": 1 }` fails validation with
"Unexpected types" and `[Headers] { "a": "1" }` validates. -/
theorem C7_headers_validation :
    (∀ (globals : List (List Char × Validated.Konst)) (ename : Ast.Name)
        (nspan ispan : Span) (bodyE : Ast.Expr),
      (Validator.validate_entry globals
        ⟨ename, [⟨.Section ⟨"Headers".toList, nspan⟩ bodyE, ispan⟩]⟩).isOk = true ↔
      ∃ ve tys, Validator.validate_expr globals bodyE = .ok ve ∧
        Validated.Expr.ty ve = .Dictionary tys ∧ ∀ t ∈ tys, t = Validated.Ty.String) ∧
    errMessage (Validator.validate_source
      "entry e \x7b\n[Headers] \x7b \"a\": 1 \x7d\n\x7d".toList) =
      some "Unexpected types" ∧
    (Validator.validate_source
      "entry e \x7b\n[Headers] \x7b \"a\": \"1\" \x7d\n\x7d".toList).isOk = true :=
  ⟨headers_section_validates_iff, rfl, rfl⟩

/-- Witness for `C7_headers_validation`: the characterization applied to
a concrete all-string singleton dictionary under empty globals. -/
theorem C7_headers_validation_witness :
    (Validator.validate_entry []
      ⟨⟨"e".toList, Span.new 0 0⟩,
        [⟨.Section ⟨"Headers".toList, Span.new 0 0⟩
          ⟨.Dictionary [⟨⟨.StringLiteral [.Literal "a".toList], Span.new 0 1⟩,
            ⟨.StringLiteral [.Literal "1".toList], Span.new 1 2⟩⟩],
            Span.new 0 2⟩, Span.new 0 2⟩]⟩).isOk = true :=
  (C7_headers_validation.1 [] ⟨"e".toList, Span.new 0 0⟩ (Span.new 0 0) (Span.new 0 0)
    ⟨.Dictionary [⟨⟨.StringLiteral [.Literal "a".toList], Span.new 0 1⟩,
      ⟨.StringLiteral [.Literal "1".toList], Span.new 1 2⟩⟩],
      Span.new 0 2⟩).mpr
    ⟨⟨.Dictionary [⟨⟨.StringLiteral [.Literal "a".toList], Span.new 0 1, .String⟩,
        ⟨.StringLiteral [.Literal "1".toList], Span.new 1 2, .String⟩⟩],
      Span.new 0 2, .Dictionary [.String]⟩, [.String], rfl, rfl, by
        intro t ht
        simpa using ht⟩

/-- If an expression validates, every name it references resolves in the
globals map. -/
theorem validate_expr_ok_refs (globals : List (List Char × Validated.Konst)) :
    ∀ e : Ast.Expr, ∀ v, Validator.validate_expr globals e = .ok v →
      ∀ n ∈ Ast.Expr.refNames e, (indexMapGet globals n).isSome = true := by
  apply @Validator.validate_expr.induct globals
    (fun e => ∀ v, Validator.validate_expr globals e = .ok v →
      ∀ n ∈ Ast.Expr.refNames e, (indexMapGet globals n).isSome = true)
    (fun elements => ∀ out, Validator.validate_array_elements globals elements = .ok out →
      ∀ n ∈ Ast.refNamesList elements, (indexMapGet globals n).isSome = true)
    (fun fields => ∀ out, Validator.validate_dictionary_fields globals fields = .ok out →
      ∀ n ∈ Ast.refNamesFields fields, (indexMapGet globals n).isSome = true)
    (fun span parts => ∀ out, Validator.validate_template_parts globals span parts = .ok out →
      ∀ n ∈ Ast.refNamesParts parts, (indexMapGet globals n).isSome = true)
  all_goals intros
  all_goals simp_all [Validator.validate_expr, Validator.validate_template_parts,
    Validator.validate_dictionary_fields, Validator.validate_array_elements,
    Ast.Expr.refNames, Ast.ExprKind.refNames, Ast.refNamesParts, Ast.refNamesFields,
    Ast.refNamesList]
  all_goals tauto

/-- If an entry-body item list validates, every name referenced by the
items resolves in the globals map. -/
theorem validate_entry_items_ok_refs
    (globals : List (List Char × Validated.Konst)) (ename : Ast.Name) :
    ∀ (items : List Ast.EntryItem) req hdr bod out,
      Validator.validate_entry_items globals ename items req hdr bod = .ok out →
      ∀ n ∈ Ast.refNamesEntryItems items, (indexMapGet globals n).isSome = true := by
  intro items
  induction items with
  | nil => intro req hdr bod out h n hn; simp [Ast.refNamesEntryItems] at hn
  | cons item rest ih =>
    intro req hdr bod out h n hn
    obtain ⟨kind, ispan⟩ := item
    simp only [Ast.refNamesEntryItems, Ast.EntryItem.refNames, List.mem_append] at hn
    cases kind with
    | Request request =>
      simp only [Validator.validate_entry_items] at h
      cases hve : Validator.validate_expr globals request.url with
      | error d => simp [hve] at h
      | ok ve =>
        simp only [hve] at h
        rcases hn with hn | hn
        · exact validate_expr_ok_refs globals request.url ve hve n hn
        · repeat' first
            | exact ih _ _ _ _ h n hn
            | cases h
            | split at h
    | Section name body =>
      simp only [Validator.validate_entry_items] at h
      cases hve : Validator.validate_expr globals body with
      | error d => simp [hve] at h
      | ok ve =>
        simp only [hve] at h
        rcases hn with hn | hn
        · exact validate_expr_ok_refs globals body ve hve n hn
        · repeat' first
            | exact ih _ _ _ _ h n hn
            | cases h
            | split at h

/-- If an entry validates, every name it references resolves in the
globals map. -/
theorem validate_entry_ok_refs (globals : List (List Char × Validated.Konst))
    (entry : Ast.Entry) (ve : Validated.Entry)
    (h : Validator.validate_entry globals entry = .ok ve) :
    ∀ n ∈ Ast.refNamesEntryItems entry.body, (indexMapGet globals n).isSome = true := by
  unfold Validator.validate_entry at h
  cases hei : Validator.validate_entry_items globals entry.name entry.body none none none with
  | error d => simp [hei] at h
  | ok out =>
    exact validate_entry_items_ok_refs globals entry.name entry.body none none none
      out hei

/-- Appending a binding for a different key does not change a lookup. -/
theorem indexMapGet_append_ne {α : Type} (m : List (List Char × α)) (k key : List Char)
    (v : α) (hne : ¬ k = key) :
    indexMapGet (m ++ [(k, v)]) key = indexMapGet m key := by
  induction m with
  | nil => simp [indexMapGet, hne]
  | cons p rest ih =>
    obtain ⟨pk, pv⟩ := p
    simp only [List.cons_append, indexMapGet]
    split <;> simp [ih]

/-- An item that references a name no earlier item declares as a
constant makes the whole item list fail validation. -/
theorem validate_items_forward_ref (n : List Char) (item : Ast.Item)
    (post : List Ast.Item) (hmem : n ∈ Ast.Item.refNames item) :
    ∀ (pre : List Ast.Item) entries globals,
      (∀ it ∈ pre, Ast.Item.declares_const it n = false) →
      indexMapGet globals n = none →
      ∀ v, Validator.validate_items (pre ++ item :: post) entries globals ≠ .ok v := by
  intro pre
  induction pre with
  | nil =>
    intro entries globals _ hg v h
    rw [List.nil_append] at h
    obtain ⟨kind, ispan⟩ := item
    cases kind with
    | Entry entry =>
      simp only [Validator.validate_items] at h
      cases hve : Validator.validate_entry globals entry with
      | error d => simp [hve] at h
      | ok ve =>
        have := validate_entry_ok_refs globals entry ve hve n
          (by simpa [Ast.Item.refNames] using hmem)
        simp [hg] at this
    | Const name expr =>
      simp only [Validator.validate_items] at h
      cases hve : Validator.validate_expr globals expr with
      | error d => simp [hve] at h
      | ok ve =>
        have := validate_expr_ok_refs globals expr ve hve n
          (by simpa [Ast.Item.refNames] using hmem)
        simp [hg] at this
  | cons it pre ih =>
    intro entries globals hpre hg v h
    have hit : Ast.Item.declares_const it n = false := hpre it (by simp)
    have hpre' : ∀ x ∈ pre, Ast.Item.declares_const x n = false :=
      fun x hx => hpre x (by simp [hx])
    rw [List.cons_append] at h
    obtain ⟨kind, ispan⟩ := it
    cases kind with
    | Entry entry =>
      simp only [Validator.validate_items] at h
      cases hve : Validator.validate_entry globals entry with
      | error d => simp [hve] at h
      | ok ve =>
        simp only [hve] at h
        cases hocc : indexMapGet entries entry.name.text with
        | some occ => simp [hocc] at h
        | none =>
          simp only [hocc] at h
          exact ih _ _ hpre' hg v h
    | Const name expr =>
      have hit2 : ¬ name.text = n := by simpa [Ast.Item.declares_const] using hit
      simp only [Validator.validate_items] at h
      cases hve : Validator.validate_expr globals expr with
      | error d => simp [hve] at h
      | ok ve =>
        simp only [hve] at h
        cases hocc : indexMapGet globals name.text with
        | some occ => simp [hocc] at h
        | none =>
          simp only [hocc] at h
          exact ih _ _ hpre' (by rw [indexMapGet_append_ne _ _ _ _ hit2]; exact hg) v h

/-- A `NameRef` to an unresolved name fails validation with the
"Unknown identifier" diagnostic at the reference's span. -/
theorem validate_expr_nameref_unknown (globals : List (List Char × Validated.Konst))
    (n : List Char) (span : Span) (hg : indexMapGet globals n = none) :
    Validator.validate_expr globals ⟨.NameRef n, span⟩ =
      .error ((Diagnostic.error "Unknown identifier" span).primary_label
        "I don't know what this name is referring to" .Error) := by
  simp [Validator.validate_expr, hg]

/-- C2: a NameRef resolves only against constants declared strictly
earlier.  (i) If any item references a name that no earlier item
declares as a `const`, validation of the item list fails; (ii) a
`NameRef` whose name is absent from the globals map yields exactly the
"Unknown identifier" diagnostic at the reference's span; (iii) the
spec's forward-reference example
`entry e { GET "{{later}}" } const later = "x"` fails validation with
"Unknown identifier". -/
theorem C2_forward_reference_rejection :
    (∀ (pre : List Ast.Item) (item : Ast.Item) (post : List Ast.Item) (n : List Char),
      n ∈ Ast.Item.refNames item →
      (∀ it ∈ pre, Ast.Item.declares_const it n = false) →
      ∀ v, Validator.validate (pre ++ item :: post) ≠ .ok v) ∧
    (∀ (globals : List (List Char × Validated.Konst)) (n : List Char) (span : Span),
      indexMapGet globals n = none →
      Validator.validate_expr globals ⟨.NameRef n, span⟩ =
        .error ((Diagnostic.error "Unknown identifier" span).primary_label
          "I don't know what this name is referring to" .Error)) ∧
    errMessage (Validator.validate_source
      "entry e \x7b\nGET \"\x7b\x7blater\x7d\x7d\"\n\x7d\nconst later = \"x\"".toList) =
      some "Unknown identifier" :=
  ⟨fun pre item post n hmem hpre v =>
      validate_items_forward_ref n item post hmem pre [] [] hpre rfl v,
   fun globals n span hg => validate_expr_nameref_unknown globals n span hg,
   rfl⟩

/-- Witness for `C2_forward_reference_rejection`: a lone
`const y = later` item fails validation, and a `NameRef` under empty
globals produces the "Unknown identifier" diagnostic. -/
theorem C2_forward_reference_rejection_witness :
    (Validator.validate [⟨.Const ⟨"y".toList, Span.new 0 1⟩
        ⟨.NameRef "later".toList, Span.new 2 3⟩, Span.new 0 3⟩]).isOk = false ∧
    Validator.validate_expr [] ⟨.NameRef "later".toList, Span.new 2 3⟩ =
      .error ((Diagnostic.error "Unknown identifier" (Span.new 2 3)).primary_label
        "I don't know what this name is referring to" .Error) := by
  constructor
  · cases h : Validator.validate [⟨.Const ⟨"y".toList, Span.new 0 1⟩
        ⟨.NameRef "later".toList, Span.new 2 3⟩, Span.new 0 3⟩] with
    | error d => rfl
    | ok v =>
      exact absurd h (C2_forward_reference_rejection.1 []
        ⟨.Const ⟨"y".toList, Span.new 0 1⟩ ⟨.NameRef "later".toList, Span.new 2 3⟩,
          Span.new 0 3⟩
        [] "later".toList
        (by simp [Ast.Item.refNames, Ast.Expr.refNames, Ast.ExprKind.refNames])
        (by simp) v)
  · exact C2_forward_reference_rejection.2.1 [] "later".toList (Span.new 2 3) rfl

/-- With an entry-name filter that resolves, execution is exactly the
unfiltered execution of the file restricted to that single entry. -/
theorem execute_filter_selects {Resp : Type} (file : Validated.SourceFile)
    (name : List Char) (entry : Validated.Entry)
    (ext : List (List Char × List Char)) (send : Machine.Request → Resp)
    (hget : indexMapGet file.entries name = some entry) :
    Machine.execute file (some name) ext send =
      Machine.execute ⟨[(name, entry)], file.globals⟩ none ext send := by
  simp only [Machine.execute]
  cases hg : Machine.eval_globals
      (ext.foldl (fun m p => indexMapInsert m p.1 (Value.String p.2)) [])
      file.globals with
  | none => rfl
  | some names =>
    simp only [hget]
    cases he : Machine.execute_entry names send entry with
    | none => simp [Machine.execute_entries, he]
    | some r =>
      cases r with
      | none => simp [Machine.execute_entries, he]
      | some resp => simp [Machine.execute_entries, he]

/-- With an entry-name filter that does not resolve, execution fails
with `EntryNotFound` carrying that name, for every transport. -/
theorem execute_entry_not_found {Resp : Type} (file : Validated.SourceFile)
    (name : List Char) (ext : List (List Char × List Char))
    (send : Machine.Request → Resp) (names : List (List Char × Value))
    (hg : Machine.eval_globals
      (ext.foldl (fun m p => indexMapInsert m p.1 (Value.String p.2)) [])
      file.globals = some names)
    (hget : indexMapGet file.entries name = none) :
    Machine.execute file (some name) ext send =
      some (.error (.EntryNotFound name)) := by
  simp [Machine.execute, hg, hget]

/-- C8: with an entry-name filter, execution selects exactly the entry
of that name (it equals the unfiltered run of the file restricted to
that entry); when no entry of that name exists it fails with
`EntryNotFound` carrying the name, for every transport, producing no
responses; concretely, executing `entry e { GET "http://x" }` with
filter `missing` yields `EntryNotFound "missing"`. -/
theorem C8_entry_selection :
    (∀ (Resp : Type) (file : Validated.SourceFile) (name : List Char)
        (entry : Validated.Entry) (ext : List (List Char × List Char))
        (send : Machine.Request → Resp),
      indexMapGet file.entries name = some entry →
      Machine.execute file (some name) ext send =
        Machine.execute ⟨[(name, entry)], file.globals⟩ none ext send) ∧
    (∀ (Resp : Type) (file : Validated.SourceFile) (name : List Char)
        (ext : List (List Char × List Char)) (send : Machine.Request → Resp)
        (names : List (List Char × Value)),
      Machine.eval_globals
        (ext.foldl (fun m p => indexMapInsert m p.1 (Value.String p.2)) [])
        file.globals = some names →
      indexMapGet file.entries name = none →
      Machine.execute file (some name) ext send =
        some (.error (.EntryNotFound name))) ∧
    Machine.execute_source "entry e \x7b\nGET \"http://x\"\n\x7d".toList
        (some "missing".toList) [] (fun _ => (0 : Nat)) =
      .ok (some (.error (.EntryNotFound "missing".toList))) :=
  ⟨fun _ file name entry ext send hget =>
      execute_filter_selects file name entry ext send hget,
   fun _ file name ext send names hg hget =>
      execute_entry_not_found file name ext send names hg hget,
   rfl⟩

/-- Witness for `C8_entry_selection`: both universal parts applied to a
one-entry file under empty externals and a constant transport. -/
theorem C8_entry_selection_witness :
    (Machine.execute
        (⟨[("e".toList, ⟨⟨"e".toList, Span.new 0 1⟩, none, none, none⟩)], []⟩ :
          Validated.SourceFile)
        (some "e".toList) [] (fun _ => (0 : Nat)) =
      Machine.execute
        ⟨[("e".toList, ⟨⟨"e".toList, Span.new 0 1⟩, none, none, none⟩)], []⟩
        none [] (fun _ => (0 : Nat))) ∧
    (Machine.execute
        (⟨[("e".toList, ⟨⟨"e".toList, Span.new 0 1⟩, none, none, none⟩)], []⟩ :
          Validated.SourceFile)
        (some "missing".toList) [] (fun _ => (0 : Nat)) =
      some (.error (.EntryNotFound "missing".toList))) :=
  ⟨C8_entry_selection.1 Nat
      ⟨[("e".toList, ⟨⟨"e".toList, Span.new 0 1⟩, none, none, none⟩)], []⟩
      "e".toList ⟨⟨"e".toList, Span.new 0 1⟩, none, none, none⟩ []
      (fun _ => (0 : Nat)) rfl,
   C8_entry_selection.2.1 Nat
      ⟨[("e".toList, ⟨⟨"e".toList, Span.new 0 1⟩, none, none, none⟩)], []⟩
      "missing".toList [] (fun _ => (0 : Nat)) [] rfl rfl⟩

/-- Lookup after `IndexMap::insert`: the inserted key maps to the new
value; other keys are unchanged. -/
theorem indexMapGet_insert {α : Type} (m : List (List Char × α)) (k key : List Char)
    (v : α) :
    indexMapGet (indexMapInsert m k v) key =
      if k = key then some v else indexMapGet m key := by
  induction m with
  | nil => simp [indexMapInsert, indexMapGet]
  | cons p rest ih =>
    obtain ⟨pk, pv⟩ := p
    simp only [indexMapInsert]
    split_ifs with h1 <;> simp only [indexMapGet, ih] <;> split_ifs <;> simp_all

/-- `IndexMap::insert` keeps the key list of an existing key and appends
a new key. -/
theorem keys_indexMapInsert {α : Type} (m : List (List Char × α)) (k : List Char)
    (v : α) :
    (indexMapInsert m k v).map Prod.fst =
      if k ∈ m.map Prod.fst then m.map Prod.fst else m.map Prod.fst ++ [k] := by
  induction m with
  | nil => simp [indexMapInsert]
  | cons p rest ih =>
    obtain ⟨pk, pv⟩ := p
    by_cases h1 : pk = k
    · subst h1
      have hm : pk ∈ pk :: rest.map Prod.fst := List.mem_cons_self _ _
      simp only [indexMapInsert, List.map_cons]
      rw [if_true, if_pos hm, List.map_cons]
    · have hne : ¬ k = pk := fun hk => h1 hk.symm
      simp only [indexMapInsert, List.map_cons]
      by_cases h2 : k ∈ rest.map Prod.fst
      · have hm : k ∈ pk :: rest.map Prod.fst := List.mem_cons_of_mem _ h2
        rw [if_neg h1, List.map_cons, ih, if_pos h2, if_pos hm]
      · have hm : k ∉ pk :: rest.map Prod.fst := by
          intro hmem
          rcases List.mem_cons.mp hmem with h | h
          · exact hne h
          · exact h2 h
        rw [if_neg h1, List.map_cons, ih, if_neg h2, if_neg hm, List.cons_append]

/-- A key is in the fold of inserts exactly when it is in the base map
or among the inserted keys. -/
theorem keys_foldl_insert_mem {α : Type} :
    ∀ (pairs : List (List Char × α)) (m : List (List Char × α)) (key : List Char),
      key ∈ (pairs.foldl (fun acc p => indexMapInsert acc p.1 p.2) m).map Prod.fst ↔
        key ∈ m.map Prod.fst ∨ key ∈ pairs.map Prod.fst := by
  intro pairs
  induction pairs with
  | nil =>
    intro m key
    simp only [List.foldl_nil, List.map_nil, List.not_mem_nil, or_false]
  | cons p rest ih =>
    intro m key
    simp only [List.foldl_cons, ih, List.map_cons, List.mem_cons]
    rw [keys_indexMapInsert]
    by_cases h : p.1 ∈ m.map Prod.fst
    · rw [if_pos h]
      constructor
      · rintro (hk | hk)
        · exact Or.inl hk
        · exact Or.inr (Or.inr hk)
      · rintro (hk | hk | hk)
        · exact Or.inl hk
        · exact Or.inl (by rw [hk]; exact h)
        · exact Or.inr hk
    · rw [if_neg h]
      simp only [List.mem_append, List.mem_singleton]
      rw [or_assoc]

/-- The fold of inserts preserves distinctness of keys. -/
theorem keys_foldl_insert_nodup {α : Type} :
    ∀ (pairs : List (List Char × α)) (m : List (List Char × α)),
      (m.map Prod.fst).Nodup →
      ((pairs.foldl (fun acc p => indexMapInsert acc p.1 p.2) m).map Prod.fst).Nodup := by
  intro pairs
  induction pairs with
  | nil => intro m h; simpa
  | cons p rest ih =>
    intro m h
    simp only [List.foldl_cons]
    apply ih
    rw [keys_indexMapInsert]
    split_ifs with hk
    · exact h
    · rw [List.nodup_append]
      exact ⟨h, List.nodup_singleton _,
        fun a ha hak => hk ((List.mem_singleton.mp hak) ▸ ha)⟩

/-- Lookup distributes over list append, preferring the left list. -/
theorem indexMapGet_append {α : Type} (a b : List (List Char × α)) (key : List Char) :
    indexMapGet (a ++ b) key =
      match indexMapGet a key with
      | some v => some v
      | none => indexMapGet b key := by
  induction a with
  | nil => simp [indexMapGet]
  | cons p rest ih =>
    obtain ⟨pk, pv⟩ := p
    simp only [List.cons_append, indexMapGet]
    split_ifs <;> simp [ih]

/-- Lookup in a fold of inserts is the last inserted binding of the key,
falling back to the base map. -/
theorem indexMapGet_foldl_insert {α : Type} :
    ∀ (pairs m : List (List Char × α)) (key : List Char),
      indexMapGet (pairs.foldl (fun acc p => indexMapInsert acc p.1 p.2) m) key =
        match Machine.last_binding pairs key with
        | some v => some v
        | none => indexMapGet m key := by
  intro pairs
  induction pairs with
  | nil => simp [Machine.last_binding, indexMapGet]
  | cons p rest ih =>
    intro m key
    simp only [List.foldl_cons, ih, Machine.last_binding, List.reverse_cons,
      indexMapGet_append]
    cases hlb : indexMapGet rest.reverse key with
    | some v => simp
    | none =>
      simp only [hlb, indexMapGet, indexMapGet_insert]
      split_ifs <;> rfl

/-- Dictionary-field evaluation is the fold of `IndexMap::insert` over
the pointwise-evaluated (key, value) pairs. -/
theorem eval_dictionary_fields_foldl (names : List (List Char × Value)) :
    ∀ (fields : List Validated.DictionaryField) (pairs : List (List Char × Value)),
      Machine.fields_eval names fields pairs →
      ∀ m0, Machine.eval_dictionary_fields names fields m0 =
        some (.Dictionary (pairs.foldl (fun acc p => indexMapInsert acc p.1 p.2) m0)) := by
  intro fields
  induction fields with
  | nil =>
    intro pairs h m0
    cases pairs with
    | nil => simp [Machine.eval_dictionary_fields]
    | cons p ps => exact absurd h (by simp [Machine.fields_eval])
  | cons f rest ih =>
    intro pairs h m0
    obtain ⟨fkey, fvalue⟩ := f
    cases pairs with
    | nil => exact absurd h (by simp [Machine.fields_eval])
    | cons p prest =>
      obtain ⟨k, v⟩ := p
      obtain ⟨hk, hv, hrest⟩ := h
      simp [Machine.eval_dictionary_fields, hk, hv, Value.string, ih prest hrest]

/-- Dictionary-field validation succeeds exactly when each field's key
validates to a string-typed expression and its value validates; no
condition relates distinct fields (in particular, duplicate keys are
not rejected). -/
theorem validate_dict_fields_ok_iff (globals : List (List Char × Validated.Konst)) :
    ∀ fields, (∃ out, Validator.validate_dictionary_fields globals fields = .ok out) ↔
      ∀ f ∈ fields, ∃ k v, Validator.validate_expr globals f.key = .ok k ∧
        Validated.Expr.ty k = .String ∧ Validator.validate_expr globals f.value = .ok v := by
  intro fields
  induction fields with
  | nil => simp [Validator.validate_dictionary_fields]
  | cons f rest ih =>
    obtain ⟨fkey, fvalue⟩ := f
    constructor
    · rintro ⟨out, hout⟩
      simp only [Validator.validate_dictionary_fields] at hout
      cases hk : Validator.validate_expr globals fkey with
      | error d => simp [hk] at hout
      | ok key =>
        simp only [hk] at hout
        split at hout
        · cases hout
        · next hcond =>
          cases hv : Validator.validate_expr globals fvalue with
          | error d => simp [hv] at hout
          | ok value =>
            simp only [hv] at hout
            cases hr : Validator.validate_dictionary_fields globals rest with
            | error d => simp [hr] at hout
            | ok outs =>
              intro g hg
              rcases List.mem_cons.mp hg with rfl | hg
              · exact ⟨key, value, hk, not_ne_iff.mp hcond, hv⟩
              · exact (ih.mp ⟨outs, hr⟩) g hg
    · intro hall
      obtain ⟨key, value, hk, hty, hv⟩ := hall ⟨fkey, fvalue⟩ (by simp)
      obtain ⟨outs, hr⟩ := ih.mpr (fun g hg => hall g (by simp [hg]))
      refine ⟨⟨key, value⟩ :: outs, ?_⟩
      simp only [Ast.DictionaryField.key, Ast.DictionaryField.value] at hk hv
      simp [Validator.validate_dictionary_fields, hk, hv, hr, hty]

/-- C10: dictionary-field validation imposes no condition across
distinct fields (duplicate keys pass: success is exactly per-field
key-string/value success); evaluating a dictionary folds
`IndexMap::insert` over the evaluated fields, so each key appears
exactly once (keys are distinct) and is bound to the value of the last
field with that key; concretely, the body `{ "a": "1", "a": "2" }`
validates and evaluates to the single binding `a = "2"`. -/
theorem C10_duplicate_dictionary_keys :
    (∀ (globals : List (List Char × Validated.Konst)) (fields : List Ast.DictionaryField),
      (∃ out, Validator.validate_dictionary_fields globals fields = .ok out) ↔
        ∀ f ∈ fields, ∃ k v, Validator.validate_expr globals f.key = .ok k ∧
          Validated.Expr.ty k = .String ∧ Validator.validate_expr globals f.value = .ok v) ∧
    (∀ (names : List (List Char × Value)) (fields : List Validated.DictionaryField)
        (pairs : List (List Char × Value)) (span : Span) (ty : Validated.Ty),
      Machine.fields_eval names fields pairs →
      ∃ m, Machine.eval_expr names ⟨.Dictionary fields, span, ty⟩ = some (.Dictionary m) ∧
        (m.map Prod.fst).Nodup ∧
        (∀ key, key ∈ m.map Prod.fst ↔ key ∈ pairs.map Prod.fst) ∧
        (∀ key, indexMapGet m key = Machine.last_binding pairs key)) ∧
    Machine.execute_source
      "entry e \x7b\nGET \"u\"\n[Body] \x7b \"a\": \"1\", \"a\": \"2\" \x7d\n\x7d".toList
      none [] (fun r => r.body) =
      .ok (some (.ok [some (.Dictionary [("a".toList, Value.String "2".toList)])])) := by
  refine ⟨validate_dict_fields_ok_iff, ?_, rfl⟩
  intro names fields pairs span ty h
  refine ⟨pairs.foldl (fun acc p => indexMapInsert acc p.1 p.2) [], ?_, ?_, ?_, ?_⟩
  · simp only [Machine.eval_expr]
    exact eval_dictionary_fields_foldl names fields pairs h []
  · exact keys_foldl_insert_nodup pairs []
      (by simp only [List.map_nil]; exact List.nodup_nil)
  · intro key
    rw [keys_foldl_insert_mem]
    simp only [List.map_nil, List.not_mem_nil, false_or]
  · intro key
    rw [indexMapGet_foldl_insert]
    cases hlb : Machine.last_binding pairs key with
    | some v => simp
    | none => simp [indexMapGet]

/-- Witness for `C10_duplicate_dictionary_keys`: the duplicate-key field
list `"a": 1, "a": 2` validates, and its validated form evaluates. -/
theorem C10_duplicate_dictionary_keys_witness :
    (Validator.validate_dictionary_fields []
      [⟨⟨.StringLiteral [.Literal "a".toList], Span.new 1 2⟩,
         ⟨.IntegerLiteral "1".toList, Span.new 3 4⟩⟩,
       ⟨⟨.StringLiteral [.Literal "a".toList], Span.new 5 6⟩,
         ⟨.IntegerLiteral "2".toList, Span.new 7 8⟩⟩]).isOk = true ∧
    (Machine.eval_expr []
      ⟨.Dictionary
        [⟨⟨.StringLiteral [.Literal "a".toList], Span.new 1 2, .String⟩,
           ⟨.IntegerLiteral 1, Span.new 3 4, .Integer⟩⟩,
         ⟨⟨.StringLiteral [.Literal "a".toList], Span.new 5 6, .String⟩,
           ⟨.IntegerLiteral 2, Span.new 7 8, .Integer⟩⟩],
        Span.new 0 9, .Dictionary [.Integer, .Integer]⟩).isSome = true := by
  constructor
  · obtain ⟨out, hout⟩ := (C10_duplicate_dictionary_keys.1 []
      [⟨⟨.StringLiteral [.Literal "a".toList], Span.new 1 2⟩,
         ⟨.IntegerLiteral "1".toList, Span.new 3 4⟩⟩,
       ⟨⟨.StringLiteral [.Literal "a".toList], Span.new 5 6⟩,
         ⟨.IntegerLiteral "2".toList, Span.new 7 8⟩⟩]).mpr (by
        intro f hf
        rcases List.mem_cons.mp hf with rfl | hf
        · exact ⟨_, _, rfl, rfl, rfl⟩
        · rcases List.mem_cons.mp hf with rfl | hf
          · exact ⟨_, _, rfl, rfl, rfl⟩
          · cases hf)
    rw [hout]
    rfl
  · obtain ⟨m, hm, -, -, -⟩ := C10_duplicate_dictionary_keys.2.1 []
      [⟨⟨.StringLiteral [.Literal "a".toList], Span.new 1 2, .String⟩,
         ⟨.IntegerLiteral 1, Span.new 3 4, .Integer⟩⟩,
       ⟨⟨.StringLiteral [.Literal "a".toList], Span.new 5 6, .String⟩,
         ⟨.IntegerLiteral 2, Span.new 7 8, .Integer⟩⟩]
      [("a".toList, Value.Integer 1), ("a".toList, Value.Integer 2)]
      (Span.new 0 9) (.Dictionary [.Integer, .Integer])
      ⟨rfl, rfl, rfl, rfl, trivial⟩
    rw [hm]
    rfl

/-- `utf8Len` of the empty list. -/
theorem utf8Len_nil : utf8Len [] = 0 := rfl

/-- `utf8Len` of a cons. -/
theorem utf8Len_cons (c : Char) (l : List Char) :
    utf8Len (c :: l) = c.utf8Size + utf8Len l := by
  simp [utf8Len]

/-- `utf8Len` distributes over append. -/
theorem utf8Len_append (a b : List Char) :
    utf8Len (a ++ b) = utf8Len a + utf8Len b := by
  simp [utf8Len]

/-- Shifting distributes over template-part list append. -/
theorem templatePart_shiftList_append (k : Nat) (a b : List TemplatePart) :
    TemplatePart.shiftList k (a ++ b) =
      TemplatePart.shiftList k a ++ TemplatePart.shiftList k b := by
  induction a with
  | nil => simp [TemplatePart.shiftList]
  | cons p rest ih => simp [TemplatePart.shiftList, ih]

/-- Shifting distributes over token list append. -/
theorem token_shiftList_append (k : Nat) (a b : List Token) :
    Token.shiftList k (a ++ b) = Token.shiftList k a ++ Token.shiftList k b := by
  induction a with
  | nil => simp [Token.shiftList]
  | cons t rest ih => simp [Token.shiftList, ih]

/-- `skip_whitespace` consumes a whitespace prefix: decomposition,
byte accounting, the boundary character is not whitespace, and the run
replays at any position before any non-whitespace continuation. -/
theorem skip_whitespace_spec :
    ∀ (rest : List Char) (pos : Nat) nl pos' rest',
      Lexer.skip_whitespace pos rest = (nl, pos', rest') →
      ∃ ws, rest = ws ++ rest' ∧ pos' = pos + utf8Len ws ∧
        (∀ c cs, rest' = c :: cs → rustIsWhitespace c = false) ∧
        (∀ p z, (z = [] ∨ ∃ c cs, z = c :: cs ∧ rustIsWhitespace c = false) →
          Lexer.skip_whitespace p (ws ++ z) = (nl, p + utf8Len ws, z)) := by
  intro rest
  induction rest with
  | nil =>
    intro pos nl pos' rest' h
    simp only [Lexer.skip_whitespace, Prod.mk.injEq] at h
    obtain ⟨rfl, rfl, rfl⟩ := h
    refine ⟨[], by simp, by simp [utf8Len_nil], ?_, ?_⟩
    · intro c cs h
      cases h
    · intro p z hz
      rcases hz with rfl | ⟨c, cs, rfl, hc⟩
      · simp [Lexer.skip_whitespace, utf8Len_nil]
      · simp [Lexer.skip_whitespace, hc, utf8Len_nil]
  | cons c cs ih =>
    intro pos nl pos' rest' h
    by_cases hc : rustIsWhitespace c
    · rw [show Lexer.skip_whitespace pos (c :: cs) =
          (let (nl, pos', rest') := Lexer.skip_whitespace (pos + c.utf8Size) cs
           (nl || c == '\n', pos', rest')) from by
            simp [Lexer.skip_whitespace, hc]] at h
      cases hsw : Lexer.skip_whitespace (pos + c.utf8Size) cs with
      | mk nl2 pr =>
        obtain ⟨p2, r2⟩ := pr
        rw [hsw] at h
        simp only [Prod.mk.injEq] at h
        obtain ⟨rfl, rfl, rfl⟩ := h
        obtain ⟨ws2, rfl, rfl, hbound, hreplay⟩ := ih (pos + c.utf8Size) nl2 p2 r2 hsw
        refine ⟨c :: ws2, by simp, by rw [utf8Len_cons]; omega, hbound, ?_⟩
        intro p z hz
        rw [show (c :: ws2) ++ z = c :: (ws2 ++ z) from rfl,
          show Lexer.skip_whitespace p (c :: (ws2 ++ z)) =
            (let (nl, pos', rest') := Lexer.skip_whitespace (p + c.utf8Size) (ws2 ++ z)
             (nl || c == '\n', pos', rest')) from by
              simp [Lexer.skip_whitespace, hc],
          hreplay (p + c.utf8Size) z hz]
        rw [show p + c.utf8Size + utf8Len ws2 = p + utf8Len (c :: ws2) from by
          rw [utf8Len_cons]; omega]
    · rw [show Lexer.skip_whitespace pos (c :: cs) = (false, pos, c :: cs) from by
          simp [Lexer.skip_whitespace, hc]] at h
      simp only [Prod.mk.injEq] at h
      obtain ⟨rfl, rfl, rfl⟩ := h
      refine ⟨[], by simp, by simp [utf8Len_nil], ?_, ?_⟩
      · intro c' cs' he
        cases he
        exact eq_false_of_ne_true (by simpa using hc)
      · intro p z hz
        rcases hz with rfl | ⟨c', cs', rfl, hc'⟩
        · simp [Lexer.skip_whitespace, utf8Len_nil]
        · simp [Lexer.skip_whitespace, hc', utf8Len_nil]

/-- `skip_comment` consumes up to the next newline: decomposition, byte
accounting, and replay before any continuation that is empty or starts
with a newline. -/
theorem skip_comment_spec :
    ∀ (rest : List Char) (pos : Nat) pos' rest',
      Lexer.skip_comment pos rest = (pos', rest') →
      ∃ cm, rest = cm ++ rest' ∧ pos' = pos + utf8Len cm ∧
        (∀ c cs, rest' = c :: cs → c = '\n') ∧
        (∀ p z, (z = [] ∨ ∃ cs, z = '\n' :: cs) →
          Lexer.skip_comment p (cm ++ z) = (p + utf8Len cm, z)) := by
  intro rest
  induction rest with
  | nil =>
    intro pos pos' rest' h
    simp only [Lexer.skip_comment, Prod.mk.injEq] at h
    obtain ⟨rfl, rfl⟩ := h
    refine ⟨[], by simp, by simp [utf8Len_nil], ?_, ?_⟩
    · intro c cs h; cases h
    · intro p z hz
      rcases hz with rfl | ⟨cs, rfl⟩
      · simp [Lexer.skip_comment, utf8Len_nil]
      · simp [Lexer.skip_comment, utf8Len_nil]
  | cons c cs ih =>
    intro pos pos' rest' h
    by_cases hc : c = '\n'
    · subst hc
      rw [show Lexer.skip_comment pos ('\n' :: cs) = (pos, '\n' :: cs) from by
          simp [Lexer.skip_comment]] at h
      simp only [Prod.mk.injEq] at h
      obtain ⟨rfl, rfl⟩ := h
      refine ⟨[], by simp, by simp [utf8Len_nil], ?_, ?_⟩
      · intro c' cs' he
        cases he
        rfl
      · intro p z hz
        rcases hz with rfl | ⟨cs', rfl⟩
        · simp [Lexer.skip_comment, utf8Len_nil]
        · simp [Lexer.skip_comment, utf8Len_nil]
    · rw [show Lexer.skip_comment pos (c :: cs) =
          Lexer.skip_comment (pos + c.utf8Size) cs from by
            simp [Lexer.skip_comment, hc]] at h
      obtain ⟨cm2, rfl, rfl, hbound, hreplay⟩ := ih (pos + c.utf8Size) pos' rest' h
      refine ⟨c :: cm2, by simp, by rw [utf8Len_cons]; omega, hbound, ?_⟩
      intro p z hz
      rw [show (c :: cm2) ++ z = c :: (cm2 ++ z) from rfl,
        show Lexer.skip_comment p (c :: (cm2 ++ z)) =
          Lexer.skip_comment (p + c.utf8Size) (cm2 ++ z) from by
            simp [Lexer.skip_comment, hc],
        hreplay (p + c.utf8Size) z hz]
      rw [show p + c.utf8Size + utf8Len cm2 = p + utf8Len (c :: cm2) from by
        rw [utf8Len_cons]; omega]

/-- `take_digits` consumes the leading digit run: decomposition, byte
accounting, non-digit boundary, and replay before any non-digit
continuation. -/
theorem take_digits_spec :
    ∀ (rest : List Char) (pos : Nat) ds pos' rest',
      Lexer.take_digits pos rest = (ds, pos', rest') →
      rest = ds ++ rest' ∧ pos' = pos + utf8Len ds ∧
        (∀ c cs, rest' = c :: cs → c.isDigit = false) ∧
        (∀ p z, (z = [] ∨ ∃ c cs, z = c :: cs ∧ c.isDigit = false) →
          Lexer.take_digits p (ds ++ z) = (ds, p + utf8Len ds, z)) := by
  intro rest
  induction rest with
  | nil =>
    intro pos ds pos' rest' h
    simp only [Lexer.take_digits, Prod.mk.injEq] at h
    obtain ⟨rfl, rfl, rfl⟩ := h
    refine ⟨by simp, by simp [utf8Len_nil], ?_, ?_⟩
    · intro c cs h; cases h
    · intro p z hz
      rcases hz with rfl | ⟨c, cs, rfl, hc⟩
      · simp [Lexer.take_digits, utf8Len_nil]
      · simp [Lexer.take_digits, hc, utf8Len_nil]
  | cons c cs ih =>
    intro pos ds pos' rest' h
    by_cases hc : c.isDigit
    · rw [show Lexer.take_digits pos (c :: cs) =
          (let (ds, pos', rest') := Lexer.take_digits (pos + c.utf8Size) cs
           (c :: ds, pos', rest')) from by simp [Lexer.take_digits, hc]] at h
      cases htd : Lexer.take_digits (pos + c.utf8Size) cs with
      | mk ds2 pr =>
        obtain ⟨p2, r2⟩ := pr
        rw [htd] at h
        simp only [Prod.mk.injEq] at h
        obtain ⟨rfl, rfl, rfl⟩ := h
        obtain ⟨rfl, rfl, hbound, hreplay⟩ := ih (pos + c.utf8Size) ds2 p2 r2 htd
        refine ⟨by simp, by rw [utf8Len_cons]; omega, hbound, ?_⟩
        intro p z hz
        rw [show (c :: ds2) ++ z = c :: (ds2 ++ z) from rfl,
          show Lexer.take_digits p (c :: (ds2 ++ z)) =
            (let (ds, pos', rest') := Lexer.take_digits (p + c.utf8Size) (ds2 ++ z)
             (c :: ds, pos', rest')) from by simp [Lexer.take_digits, hc],
          hreplay (p + c.utf8Size) z hz]
        rw [show p + c.utf8Size + utf8Len ds2 = p + utf8Len (c :: ds2) from by
          rw [utf8Len_cons]; omega]
    · rw [show Lexer.take_digits pos (c :: cs) = ([], pos, c :: cs) from by
          simp [Lexer.take_digits, hc]] at h
      simp only [Prod.mk.injEq] at h
      obtain ⟨rfl, rfl, rfl⟩ := h
      refine ⟨by simp, by simp [utf8Len_nil], ?_, ?_⟩
      · intro c' cs' he
        cases he
        exact eq_false_of_ne_true (by simpa using hc)
      · intro p z hz
        rcases hz with rfl | ⟨c', cs', rfl, hc'⟩
        · simp [Lexer.take_digits, utf8Len_nil]
        · simp [Lexer.take_digits, hc', utf8Len_nil]

/-- `identifier`'s inner `take_ident` consumes the identifier
continuation: decomposition, byte accounting, boundary, replay. -/
theorem take_ident_spec :
    ∀ (rest : List Char) (pos : Nat) cs pos' rest',
      Lexer.identifier.take_ident pos rest = (cs, pos', rest') →
      rest = cs ++ rest' ∧ pos' = pos + utf8Len cs ∧
        (∀ c cs2, rest' = c :: cs2 → (rustIsAlphanumeric c || c == '_') = false) ∧
        (∀ p z, (z = [] ∨ ∃ c cs2, z = c :: cs2 ∧ (rustIsAlphanumeric c || c == '_') = false) →
          Lexer.identifier.take_ident p (cs ++ z) = (cs, p + utf8Len cs, z)) := by
  intro rest
  induction rest with
  | nil =>
    intro pos cs pos' rest' h
    simp only [Lexer.identifier.take_ident, Prod.mk.injEq] at h
    obtain ⟨rfl, rfl, rfl⟩ := h
    refine ⟨by simp, by simp [utf8Len_nil], ?_, ?_⟩
    · intro c cs2 h; cases h
    · intro p z hz
      rcases hz with rfl | ⟨c, cs2, rfl, hc⟩
      · simp [Lexer.identifier.take_ident, utf8Len_nil]
      · simp [Lexer.identifier.take_ident, hc, utf8Len_nil]
  | cons c rest0 ih =>
    intro pos cs pos' rest' h
    by_cases hc : (rustIsAlphanumeric c || c == '_') = true
    · rw [show Lexer.identifier.take_ident pos (c :: rest0) =
          (let (cs, p', r') := Lexer.identifier.take_ident (pos + c.utf8Size) rest0
           (c :: cs, p', r')) from by simp [Lexer.identifier.take_ident, hc]] at h
      cases hti : Lexer.identifier.take_ident (pos + c.utf8Size) rest0 with
      | mk cs2 pr =>
        obtain ⟨p2, r2⟩ := pr
        rw [hti] at h
        simp only [Prod.mk.injEq] at h
        obtain ⟨rfl, rfl, rfl⟩ := h
        obtain ⟨rfl, rfl, hbound, hreplay⟩ := ih (pos + c.utf8Size) cs2 p2 r2 hti
        refine ⟨by simp, by rw [utf8Len_cons]; omega, hbound, ?_⟩
        intro p z hz
        rw [show (c :: cs2) ++ z = c :: (cs2 ++ z) from rfl,
          show Lexer.identifier.take_ident p (c :: (cs2 ++ z)) =
            (let (cs, p', r') := Lexer.identifier.take_ident (p + c.utf8Size) (cs2 ++ z)
             (c :: cs, p', r')) from by simp [Lexer.identifier.take_ident, hc],
          hreplay (p + c.utf8Size) z hz]
        rw [show p + c.utf8Size + utf8Len cs2 = p + utf8Len (c :: cs2) from by
          rw [utf8Len_cons]; omega]
    · rw [show Lexer.identifier.take_ident pos (c :: rest0) = ([], pos, c :: rest0) from by
          simp only [Lexer.identifier.take_ident]
          rw [if_neg (by simpa using hc)]] at h
      simp only [Prod.mk.injEq] at h
      obtain ⟨rfl, rfl, rfl⟩ := h
      refine ⟨by simp, by simp [utf8Len_nil], ?_, ?_⟩
      · intro c' cs' he
        cases he
        exact eq_false_of_ne_true hc
      · intro p z hz
        rcases hz with rfl | ⟨c', cs', rfl, hc'⟩
        · simp [Lexer.identifier.take_ident, utf8Len_nil]
        · simp only [List.nil_append, Lexer.identifier.take_ident]
          rw [if_neg (by simp [hc']), utf8Len_nil]
          simp

/-- `number` consumes the rest of the numeric literal: decomposition,
byte accounting, and replay before any continuation with the same first
character as the original rest (or none). -/
theorem number_spec (c : Char) (pos : Nat) (rest : List Char) (k : TokenKind)
    (pos' : Nat) (rest' : List Char)
    (h : Lexer.number c pos rest = (k, pos', rest')) :
    ∃ consumed, rest = consumed ++ rest' ∧ pos' = pos + utf8Len consumed ∧
      ∀ p z, (z = [] ∨ z.head? = rest'.head?) →
        Lexer.number c p (consumed ++ z) = (k, p + utf8Len consumed, z) := by
  cases htd1 : Lexer.take_digits pos rest with
  | mk ds1 pr1 =>
    obtain ⟨posA, restA⟩ := pr1
    obtain ⟨rfl, rfl, hbound1, hreplay1⟩ := take_digits_spec rest pos ds1 posA restA htd1
    cases restA with
    | nil =>
      simp only [Lexer.number, htd1] at h
      simp only [Prod.mk.injEq] at h
      obtain ⟨rfl, rfl, rfl⟩ := h
      refine ⟨ds1, rfl, rfl, ?_⟩
      intro p z hz
      have hz' : z = [] := by
        rcases hz with rfl | hz
        · rfl
        · cases z with
          | nil => rfl
          | cons zc zs => cases hz
      subst hz'
      simp only [Lexer.number, hreplay1 p [] (Or.inl rfl)]
    | cons c0 restB =>
      by_cases hdot : c0 = '.'
      · subst hdot
        simp only [Lexer.number, htd1] at h
        cases htd2 : Lexer.take_digits (pos + utf8Len ds1 + 1) restB with
        | mk ds2 pr2 =>
          obtain ⟨posB, restC⟩ := pr2
          rw [htd2] at h
          simp only [Prod.mk.injEq] at h
          obtain ⟨rfl, rfl, rfl⟩ := h
          obtain ⟨rfl, rfl, hbound2, hreplay2⟩ :=
            take_digits_spec restB (pos + utf8Len ds1 + 1) ds2 posB restC htd2
          refine ⟨ds1 ++ '.' :: ds2, by simp, ?_, ?_⟩
          · rw [utf8Len_append, utf8Len_cons]
            have h1 : ('.' : Char).utf8Size = 1 := rfl
            omega
          · intro p z hz
            rw [show (ds1 ++ '.' :: ds2) ++ z = ds1 ++ '.' :: (ds2 ++ z) from by simp]
            simp only [Lexer.number,
              hreplay1 p ('.' :: (ds2 ++ z)) (Or.inr ⟨'.', ds2 ++ z, rfl, by decide⟩)]
            rw [hreplay2 (p + utf8Len ds1 + 1) z (by
              rcases hz with rfl | hz
              · exact Or.inl rfl
              · cases z with
                | nil => exact Or.inl rfl
                | cons zc zs =>
                  cases restC with
                  | nil => cases hz
                  | cons rc rs =>
                    refine Or.inr ⟨zc, zs, rfl, ?_⟩
                    have hzc : zc = rc := by simpa using hz
                    exact hzc ▸ hbound2 rc rs rfl)]
            rw [show p + utf8Len ds1 + 1 + utf8Len ds2 = p + utf8Len (ds1 ++ '.' :: ds2)
              from by
                rw [utf8Len_append, utf8Len_cons]
                have h1 : ('.' : Char).utf8Size = 1 := rfl
                omega]
      · simp only [Lexer.number, htd1] at h
        split at h
        · next restB' heq =>
            exact absurd (List.cons.injEq .. ▸ heq).1 hdot
        · simp only [Prod.mk.injEq] at h
          obtain ⟨rfl, rfl, rfl⟩ := h
          refine ⟨ds1, rfl, rfl, ?_⟩
          intro p z hz
          rcases hz with rfl | hz
          · simp only [Lexer.number, hreplay1 p [] (Or.inl rfl)]
          · cases z with
            | nil => simp only [Lexer.number, hreplay1 p [] (Or.inl rfl)]
            | cons zc zs =>
              have hzc : zc = c0 := by simpa using hz
              subst hzc
              simp only [Lexer.number,
                hreplay1 p (zc :: zs) (Or.inr ⟨zc, zs, rfl, hbound1 zc restB rfl⟩)]
              split
              · next restB' heq =>
                  exact absurd (List.cons.injEq .. ▸ heq).1 hdot
              · rfl

/-- `identifier` consumes the rest of the identifier and classifies the
text: decomposition, byte accounting, and replay before any continuation
that is empty or starts with a non-identifier character. -/
theorem identifier_spec (c : Char) (pos : Nat) (rest : List Char) (k : TokenKind)
    (pos' : Nat) (rest' : List Char)
    (h : Lexer.identifier c pos rest = (k, pos', rest')) :
    ∃ consumed, rest = consumed ++ rest' ∧ pos' = pos + utf8Len consumed ∧
      (∀ ch cs2, rest' = ch :: cs2 → (rustIsAlphanumeric ch || ch == '_') = false) ∧
      ∀ p z, (z = [] ∨ ∃ ch cs2, z = ch :: cs2 ∧ (rustIsAlphanumeric ch || ch == '_') = false) →
        Lexer.identifier c p (consumed ++ z) = (k, p + utf8Len consumed, z) := by
  cases hti : Lexer.identifier.take_ident pos rest with
  | mk cs pr =>
    obtain ⟨p2, r2⟩ := pr
    obtain ⟨rfl, rfl, hbound, hreplay⟩ := take_ident_spec rest pos cs p2 r2 hti
    simp only [Lexer.identifier, hti] at h
    simp only [Prod.mk.injEq] at h
    obtain ⟨rfl, rfl, rfl⟩ := h
    refine ⟨cs, rfl, rfl, hbound, ?_⟩
    intro p z hz
    simp only [Lexer.identifier, hreplay p z hz]

/-- `skip_whitespace` at a shifted base position. -/
theorem skip_whitespace_shift (k : Nat) :
    ∀ (rest : List Char) (pos : Nat),
      Lexer.skip_whitespace (k + pos) rest =
        ((Lexer.skip_whitespace pos rest).1,
          k + (Lexer.skip_whitespace pos rest).2.1,
          (Lexer.skip_whitespace pos rest).2.2) := by
  intro rest
  induction rest with
  | nil => intro pos; simp [Lexer.skip_whitespace]
  | cons c cs ih =>
    intro pos
    by_cases hc : rustIsWhitespace c
    · have h1 := ih (pos + c.utf8Size)
      simp only [Lexer.skip_whitespace, hc, if_true]
      rw [show k + pos + c.utf8Size = k + (pos + c.utf8Size) from by omega, h1]
    · simp [Lexer.skip_whitespace, hc]

/-- `skip_comment` at a shifted base position. -/
theorem skip_comment_shift (k : Nat) :
    ∀ (rest : List Char) (pos : Nat),
      Lexer.skip_comment (k + pos) rest =
        (k + (Lexer.skip_comment pos rest).1, (Lexer.skip_comment pos rest).2) := by
  intro rest
  induction rest with
  | nil => intro pos; simp [Lexer.skip_comment]
  | cons c cs ih =>
    intro pos
    by_cases hc : c = '\n'
    · subst hc; simp [Lexer.skip_comment]
    · have h1 := ih (pos + c.utf8Size)
      simp only [Lexer.skip_comment, hc, if_false]
      rw [show (c == '\n') = false from by simpa using hc]
      simp only [Bool.false_eq_true, if_false]
      rw [show k + pos + c.utf8Size = k + (pos + c.utf8Size) from by omega, h1]

/-- `take_digits` at a shifted base position. -/
theorem take_digits_shift (k : Nat) :
    ∀ (rest : List Char) (pos : Nat),
      Lexer.take_digits (k + pos) rest =
        ((Lexer.take_digits pos rest).1, k + (Lexer.take_digits pos rest).2.1,
          (Lexer.take_digits pos rest).2.2) := by
  intro rest
  induction rest with
  | nil => intro pos; simp [Lexer.take_digits]
  | cons c cs ih =>
    intro pos
    by_cases hc : c.isDigit
    · have h1 := ih (pos + c.utf8Size)
      simp only [Lexer.take_digits, hc, if_true]
      rw [show k + pos + c.utf8Size = k + (pos + c.utf8Size) from by omega, h1]
    · simp [Lexer.take_digits, hc]

/-- `take_ident` at a shifted base position. -/
theorem take_ident_shift (k : Nat) :
    ∀ (rest : List Char) (pos : Nat),
      Lexer.identifier.take_ident (k + pos) rest =
        ((Lexer.identifier.take_ident pos rest).1,
          k + (Lexer.identifier.take_ident pos rest).2.1,
          (Lexer.identifier.take_ident pos rest).2.2) := by
  intro rest
  induction rest with
  | nil => intro pos; simp [Lexer.identifier.take_ident]
  | cons c cs ih =>
    intro pos
    by_cases hc : (rustIsAlphanumeric c || c == '_') = true
    · have h1 := ih (pos + c.utf8Size)
      simp only [Lexer.identifier.take_ident, hc, if_true]
      rw [show k + pos + c.utf8Size = k + (pos + c.utf8Size) from by omega, h1]
    · simp only [Lexer.identifier.take_ident]
      rw [if_neg (by simpa using hc), if_neg (by simpa using hc)]

/-- `number` at a shifted base position. -/
theorem number_shift (k : Nat) (c : Char) (pos : Nat) (rest : List Char) :
    Lexer.number c (k + pos) rest =
      ((Lexer.number c pos rest).1, k + (Lexer.number c pos rest).2.1,
        (Lexer.number c pos rest).2.2) := by
  cases htd1 : Lexer.take_digits pos rest with
  | mk ds1 pr1 =>
    obtain ⟨posA, restA⟩ := pr1
    have h1 := take_digits_shift k rest pos
    rw [htd1] at h1
    simp only at h1
    cases restA with
    | nil => simp only [Lexer.number, htd1, h1]
    | cons c0 restB =>
      by_cases hdot : c0 = '.'
      · subst hdot
        cases htd2 : Lexer.take_digits (posA + 1) restB with
        | mk ds2 pr2 =>
          obtain ⟨posB, restC⟩ := pr2
          have h2 := take_digits_shift k restB (posA + 1)
          rw [htd2] at h2
          simp only at h2
          simp only [Lexer.number, htd1, h1, htd2]
          rw [show k + posA + 1 = k + (posA + 1) from by omega, h2]
      · simp only [Lexer.number, htd1, h1]
        split
        · next restB' heq =>
            exact absurd (List.cons.injEq .. ▸ heq).1 hdot
        · rfl

/-- `identifier` at a shifted base position. -/
theorem identifier_shift (k : Nat) (c : Char) (pos : Nat) (rest : List Char) :
    Lexer.identifier c (k + pos) rest =
      ((Lexer.identifier c pos rest).1, k + (Lexer.identifier c pos rest).2.1,
        (Lexer.identifier c pos rest).2.2) := by
  cases hti : Lexer.identifier.take_ident pos rest with
  | mk cs pr =>
    obtain ⟨p2, r2⟩ := pr
    have h1 := take_ident_shift k rest pos
    rw [hti] at h1
    simp only at h1
    simp only [Lexer.identifier, hti, h1]

/-- `next_token` step: end of input after whitespace. -/
theorem next_token_eq_none (fuel pos : Nat) (rest : List Char) (nl : Bool) (p1 : Nat)
    (hsw : Lexer.skip_whitespace pos rest = (nl, p1, [])) :
    Lexer.next_token (fuel + 1) pos rest = .ok (none, p1, []) := by
  simp only [Lexer.next_token, hsw]

/-- `next_token` step: a comment is skipped and the loop continues. -/
theorem next_token_eq_comment (fuel pos : Nat) (rest : List Char) (nl : Bool) (p1 : Nat)
    (c : Char) (r2 : List Char) (p3 : Nat) (r3 : List Char)
    (hsw : Lexer.skip_whitespace pos rest = (nl, p1, c :: r2))
    (hc : (c == '#') = true)
    (hsc : Lexer.skip_comment p1 (c :: r2) = (p3, r3)) :
    Lexer.next_token (fuel + 1) pos rest = Lexer.next_token fuel p3 r3 := by
  simp only [Lexer.next_token, hsw, hc, if_true, hsc]

/-- `next_token` step: the `colon` punctuation branch. -/
theorem next_token_eq_colon (fuel pos : Nat) (rest : List Char) (nl : Bool) (p1 : Nat)
    (c : Char) (r2 : List Char)
    (hsw : Lexer.skip_whitespace pos rest = (nl, p1, c :: r2))
    (hsh : (c == '#') = false)

    (hc : (c == ':') = true) :
    Lexer.next_token (fuel + 1) pos rest =
      .ok (some (.mk .Colon (Span.new p1 (p1 + c.utf8Size)) nl), p1 + c.utf8Size, r2) := by
  simp only [Lexer.next_token, hsw, hsh, hc, if_true, Bool.false_eq_true, if_false]

/-- `next_token` step: the `comma` punctuation branch. -/
theorem next_token_eq_comma (fuel pos : Nat) (rest : List Char) (nl : Bool) (p1 : Nat)
    (c : Char) (r2 : List Char)
    (hsw : Lexer.skip_whitespace pos rest = (nl, p1, c :: r2))
    (hsh : (c == '#') = false)
    (hf0 : (c == ':') = false)
    (hc : (c == ',') = true) :
    Lexer.next_token (fuel + 1) pos rest =
      .ok (some (.mk .Comma (Span.new p1 (p1 + c.utf8Size)) nl), p1 + c.utf8Size, r2) := by
  simp only [Lexer.next_token, hsw, hsh, hf0, hc, if_true, Bool.false_eq_true, if_false]

/-- `next_token` step: the `eq` punctuation branch. -/
theorem next_token_eq_eq (fuel pos : Nat) (rest : List Char) (nl : Bool) (p1 : Nat)
    (c : Char) (r2 : List Char)
    (hsw : Lexer.skip_whitespace pos rest = (nl, p1, c :: r2))
    (hsh : (c == '#') = false)
    (hf0 : (c == ':') = false)
    (hf1 : (c == ',') = false)
    (hc : (c == '=') = true) :
    Lexer.next_token (fuel + 1) pos rest =
      .ok (some (.mk .Eq (Span.new p1 (p1 + c.utf8Size)) nl), p1 + c.utf8Size, r2) := by
  simp only [Lexer.next_token, hsw, hsh, hf0, hf1, hc, if_true, Bool.false_eq_true, if_false]

/-- `next_token` step: the `obrace` punctuation branch. -/
theorem next_token_eq_obrace (fuel pos : Nat) (rest : List Char) (nl : Bool) (p1 : Nat)
    (c : Char) (r2 : List Char)
    (hsw : Lexer.skip_whitespace pos rest = (nl, p1, c :: r2))
    (hsh : (c == '#') = false)
    (hf0 : (c == ':') = false)
    (hf1 : (c == ',') = false)
    (hf2 : (c == '=') = false)
    (hc : (c == openBrace) = true) :
    Lexer.next_token (fuel + 1) pos rest =
      .ok (some (.mk (.Delim .OpenBrace) (Span.new p1 (p1 + c.utf8Size)) nl), p1 + c.utf8Size, r2) := by
  simp only [Lexer.next_token, hsw, hsh, hf0, hf1, hf2, hc, if_true, Bool.false_eq_true, if_false]

/-- `next_token` step: the `obrack` punctuation branch. -/
theorem next_token_eq_obrack (fuel pos : Nat) (rest : List Char) (nl : Bool) (p1 : Nat)
    (c : Char) (r2 : List Char)
    (hsw : Lexer.skip_whitespace pos rest = (nl, p1, c :: r2))
    (hsh : (c == '#') = false)
    (hf0 : (c == ':') = false)
    (hf1 : (c == ',') = false)
    (hf2 : (c == '=') = false)
    (hf3 : (c == openBrace) = false)
    (hc : (c == '[') = true) :
    Lexer.next_token (fuel + 1) pos rest =
      .ok (some (.mk (.Delim .OpenBrack) (Span.new p1 (p1 + c.utf8Size)) nl), p1 + c.utf8Size, r2) := by
  simp only [Lexer.next_token, hsw, hsh, hf0, hf1, hf2, hf3, hc, if_true, Bool.false_eq_true, if_false]

/-- `next_token` step: the `cbrace` punctuation branch. -/
theorem next_token_eq_cbrace (fuel pos : Nat) (rest : List Char) (nl : Bool) (p1 : Nat)
    (c : Char) (r2 : List Char)
    (hsw : Lexer.skip_whitespace pos rest = (nl, p1, c :: r2))
    (hsh : (c == '#') = false)
    (hf0 : (c == ':') = false)
    (hf1 : (c == ',') = false)
    (hf2 : (c == '=') = false)
    (hf3 : (c == openBrace) = false)
    (hf4 : (c == '[') = false)
    (hc : (c == closeBrace) = true) :
    Lexer.next_token (fuel + 1) pos rest =
      .ok (some (.mk (.Delim .CloseBrace) (Span.new p1 (p1 + c.utf8Size)) nl), p1 + c.utf8Size, r2) := by
  simp only [Lexer.next_token, hsw, hsh, hf0, hf1, hf2, hf3, hf4, hc, if_true, Bool.false_eq_true, if_false]

/-- `next_token` step: the `cbrack` punctuation branch. -/
theorem next_token_eq_cbrack (fuel pos : Nat) (rest : List Char) (nl : Bool) (p1 : Nat)
    (c : Char) (r2 : List Char)
    (hsw : Lexer.skip_whitespace pos rest = (nl, p1, c :: r2))
    (hsh : (c == '#') = false)
    (hf0 : (c == ':') = false)
    (hf1 : (c == ',') = false)
    (hf2 : (c == '=') = false)
    (hf3 : (c == openBrace) = false)
    (hf4 : (c == '[') = false)
    (hf5 : (c == closeBrace) = false)
    (hc : (c == ']') = true) :
    Lexer.next_token (fuel + 1) pos rest =
      .ok (some (.mk (.Delim .CloseBrack) (Span.new p1 (p1 + c.utf8Size)) nl), p1 + c.utf8Size, r2) := by
  simp only [Lexer.next_token, hsw, hsh, hf0, hf1, hf2, hf3, hf4, hf5, hc, if_true, Bool.false_eq_true, if_false]

/-- `next_token` step: the string-literal branch. -/
theorem next_token_eq_string (fuel pos : Nat) (rest : List Char) (nl : Bool) (p1 : Nat)
    (c : Char) (r2 : List Char)
    (hsw : Lexer.skip_whitespace pos rest = (nl, p1, c :: r2))
    (hsh : (c == '#') = false)
    (hf0 : (c == ':') = false)
    (hf1 : (c == ',') = false)
    (hf2 : (c == '=') = false)
    (hf3 : (c == openBrace) = false)
    (hf4 : (c == '[') = false)
    (hf5 : (c == closeBrace) = false)
    (hf6 : (c == ']') = false)
    (hc : (c == '\"') = true) :
    Lexer.next_token (fuel + 1) pos rest =
      match Lexer.string fuel (p1 + c.utf8Size) r2 p1 [] [] with
      | .error d => .error d
      | .ok (kind, pp, rr) =>
        .ok (some (.mk kind (Span.new p1 pp) nl), pp, rr) := by
  simp only [Lexer.next_token, hsw, hsh, hf0, hf1, hf2, hf3, hf4, hf5, hf6, hc, if_true, Bool.false_eq_true, if_false]

/-- `next_token` step: the number branch. -/
theorem next_token_eq_number (fuel pos : Nat) (rest : List Char) (nl : Bool) (p1 : Nat)
    (c : Char) (r2 : List Char) (kind : TokenKind) (pp : Nat) (rr : List Char)
    (hsw : Lexer.skip_whitespace pos rest = (nl, p1, c :: r2))
    (hsh : (c == '#') = false)
    (hf0 : (c == ':') = false)
    (hf1 : (c == ',') = false)
    (hf2 : (c == '=') = false)
    (hf3 : (c == openBrace) = false)
    (hf4 : (c == '[') = false)
    (hf5 : (c == closeBrace) = false)
    (hf6 : (c == ']') = false)
    (hstr : (c == '\"') = false)
    (hc : c.isDigit = true)
    (hnum : Lexer.number c (p1 + c.utf8Size) r2 = (kind, pp, rr)) :
    Lexer.next_token (fuel + 1) pos rest =
      .ok (some (.mk kind (Span.new p1 pp) nl), pp, rr) := by
  simp only [Lexer.next_token, hsw, hsh, hf0, hf1, hf2, hf3, hf4, hf5, hf6, hstr, hc, if_true, Bool.false_eq_true,
    if_false, hnum]

/-- `next_token` step: the identifier branch. -/
theorem next_token_eq_ident (fuel pos : Nat) (rest : List Char) (nl : Bool) (p1 : Nat)
    (c : Char) (r2 : List Char) (kind : TokenKind) (pp : Nat) (rr : List Char)
    (hsw : Lexer.skip_whitespace pos rest = (nl, p1, c :: r2))
    (hsh : (c == '#') = false)
    (hf0 : (c == ':') = false)
    (hf1 : (c == ',') = false)
    (hf2 : (c == '=') = false)
    (hf3 : (c == openBrace) = false)
    (hf4 : (c == '[') = false)
    (hf5 : (c == closeBrace) = false)
    (hf6 : (c == ']') = false)
    (hstr : (c == '\"') = false)
    (hdig : c.isDigit = false)
    (hc : (rustIsAlphabetic c || c == '_') = true)
    (hid : Lexer.identifier c (p1 + c.utf8Size) r2 = (kind, pp, rr)) :
    Lexer.next_token (fuel + 1) pos rest =
      .ok (some (.mk kind (Span.new p1 pp) nl), pp, rr) := by
  simp only [Lexer.next_token, hsw, hsh, hf0, hf1, hf2, hf3, hf4, hf5, hf6, hstr, hdig, hc, if_true,
    Bool.false_eq_true, if_false, hid]

/-- Exhaustive case analysis matching the dispatch order of
`next_token`'s token branch. -/
theorem next_token_dispatch_cases (c : Char) :
    ((c == ':') = true) ∨
    ((c == ':') = false ∧ (c == ',') = true) ∨
    ((c == ':') = false ∧ (c == ',') = false ∧ (c == '=') = true) ∨
    ((c == ':') = false ∧ (c == ',') = false ∧ (c == '=') = false ∧ (c == openBrace) = true) ∨
    ((c == ':') = false ∧ (c == ',') = false ∧ (c == '=') = false ∧ (c == openBrace) = false ∧ (c == '[') = true) ∨
    ((c == ':') = false ∧ (c == ',') = false ∧ (c == '=') = false ∧ (c == openBrace) = false ∧ (c == '[') = false ∧ (c == closeBrace) = true) ∨
    ((c == ':') = false ∧ (c == ',') = false ∧ (c == '=') = false ∧ (c == openBrace) = false ∧ (c == '[') = false ∧ (c == closeBrace) = false ∧ (c == ']') = true) ∨
    ((c == ':') = false ∧ (c == ',') = false ∧ (c == '=') = false ∧ (c == openBrace) = false ∧ (c == '[') = false ∧ (c == closeBrace) = false ∧ (c == ']') = false ∧ (c == '\"') = true) ∨
    ((c == ':') = false ∧ (c == ',') = false ∧ (c == '=') = false ∧ (c == openBrace) = false ∧ (c == '[') = false ∧ (c == closeBrace) = false ∧ (c == ']') = false ∧ (c == '\"') = false ∧ (c.isDigit) = true) ∨
    ((c == ':') = false ∧ (c == ',') = false ∧ (c == '=') = false ∧ (c == openBrace) = false ∧ (c == '[') = false ∧ (c == closeBrace) = false ∧ (c == ']') = false ∧ (c == '\"') = false ∧ (c.isDigit) = false ∧ (rustIsAlphabetic c || c == '_') = true) ∨
    ((c == ':') = false ∧ (c == ',') = false ∧ (c == '=') = false ∧ (c == openBrace) = false ∧ (c == '[') = false ∧ (c == closeBrace) = false ∧ (c == ']') = false ∧ (c == '\"') = false ∧ (c.isDigit) = false ∧ (rustIsAlphabetic c || c == '_') = false) := by
  by_cases h0 : (c == ':') = true
  · exact Or.inl h0
  · have h0f : (c == ':') = false := eq_false_of_ne_true h0
    by_cases h1 : (c == ',') = true
    · exact Or.inr (Or.inl (⟨h0f, h1⟩))
    · have h1f : (c == ',') = false := eq_false_of_ne_true h1
      by_cases h2 : (c == '=') = true
      · exact Or.inr (Or.inr (Or.inl (⟨h0f, h1f, h2⟩)))
      · have h2f : (c == '=') = false := eq_false_of_ne_true h2
        by_cases h3 : (c == openBrace) = true
        · exact Or.inr (Or.inr (Or.inr (Or.inl (⟨h0f, h1f, h2f, h3⟩))))
        · have h3f : (c == openBrace) = false := eq_false_of_ne_true h3
          by_cases h4 : (c == '[') = true
          · exact Or.inr (Or.inr (Or.inr (Or.inr (Or.inl (⟨h0f, h1f, h2f, h3f, h4⟩)))))
          · have h4f : (c == '[') = false := eq_false_of_ne_true h4
            by_cases h5 : (c == closeBrace) = true
            · exact Or.inr (Or.inr (Or.inr (Or.inr (Or.inr (Or.inl (⟨h0f, h1f, h2f, h3f, h4f, h5⟩))))))
            · have h5f : (c == closeBrace) = false := eq_false_of_ne_true h5
              by_cases h6 : (c == ']') = true
              · exact Or.inr (Or.inr (Or.inr (Or.inr (Or.inr (Or.inr (Or.inl (⟨h0f, h1f, h2f, h3f, h4f, h5f, h6⟩)))))))
              · have h6f : (c == ']') = false := eq_false_of_ne_true h6
                by_cases h7 : (c == '\"') = true
                · exact Or.inr (Or.inr (Or.inr (Or.inr (Or.inr (Or.inr (Or.inr (Or.inl (⟨h0f, h1f, h2f, h3f, h4f, h5f, h6f, h7⟩))))))))
                · have h7f : (c == '\"') = false := eq_false_of_ne_true h7
                  by_cases h8 : (c.isDigit) = true
                  · exact Or.inr (Or.inr (Or.inr (Or.inr (Or.inr (Or.inr (Or.inr (Or.inr (Or.inl (⟨h0f, h1f, h2f, h3f, h4f, h5f, h6f, h7f, h8⟩)))))))))
                  · have h8f : (c.isDigit) = false := eq_false_of_ne_true h8
                    by_cases h9 : (rustIsAlphabetic c || c == '_') = true
                    · exact Or.inr (Or.inr (Or.inr (Or.inr (Or.inr (Or.inr (Or.inr (Or.inr (Or.inr (Or.inl (⟨h0f, h1f, h2f, h3f, h4f, h5f, h6f, h7f, h8f, h9⟩))))))))))
                    · have h9f : (rustIsAlphabetic c || c == '_') = false := eq_false_of_ne_true h9
                      exact Or.inr (Or.inr (Or.inr (Or.inr (Or.inr (Or.inr (Or.inr (Or.inr (Or.inr (Or.inr (⟨h0f, h1f, h2f, h3f, h4f, h5f, h6f, h7f, h8f, h9f⟩))))))))))

/-- `next_token` step: the unrecognized-character branch. -/
theorem next_token_eq_err (fuel pos : Nat) (rest : List Char) (nl : Bool) (p1 : Nat)
    (c : Char) (r2 : List Char)
    (hsw : Lexer.skip_whitespace pos rest = (nl, p1, c :: r2))
    (hsh : (c == '#') = false)
    (hf0 : (c == ':') = false)
    (hf1 : (c == ',') = false)
    (hf2 : (c == '=') = false)
    (hf3 : (c == openBrace) = false)
    (hf4 : (c == '[') = false)
    (hf5 : (c == closeBrace) = false)
    (hf6 : (c == ']') = false)
    (hf7 : (c == '\"') = false)
    (hf8 : (c.isDigit) = false)
    (hf9 : (rustIsAlphabetic c || c == '_') = false) :
    Lexer.next_token (fuel + 1) pos rest =
      .error ((Diagnostic.error "Unrecognized character"
        (Span.new p1 p1)).primary_label
        "I don\'t know what to do with this character" .Error) := by
  simp only [Lexer.next_token, hsw, hsh, hf0, hf1, hf2, hf3, hf4, hf5, hf6, hf7, hf8, hf9, if_true, Bool.false_eq_true, if_false]

/-- `string` step: the closing-quote branch. -/
theorem string_eq_quote (fuel pos : Nat) (c : Char) (rest1 : List Char) (start : Nat)
    (parts : List TemplatePart) (chunk : List Char)
    (hc : (c == '\"') = true) :
    Lexer.string (fuel + 1) pos (c :: rest1) start parts chunk =
      .ok (.String (if chunk.isEmpty then parts else parts ++ [TemplatePart.Literal chunk]),
        pos + 1, rest1) := by
  simp only [Lexer.string, hc, if_true]

/-- `string` step: the `\x7b\x7b` template branch. -/
theorem string_eq_tmpl (fuel pos : Nat) (c : Char) (rest1 : List Char) (start : Nat)
    (parts : List TemplatePart) (chunk : List Char)
    (hq : (c == '\"') = false)
    (hc : (c == openBrace && rest1.head? == some openBrace) = true) :
    Lexer.string (fuel + 1) pos (c :: rest1) start parts chunk =
      match Lexer.template_loop fuel (pos + 2) rest1.tail [] with
      | .error d => .error d
      | .ok (tokens, p2, r2) =>
        Lexer.string fuel p2 r2 start
          ((if chunk.isEmpty then parts else parts ++ [TemplatePart.Literal chunk]) ++
            [TemplatePart.Code tokens]) [] := by
  simp only [Lexer.string, hq, hc, if_true, Bool.false_eq_true, if_false]

/-- `string` step: the escape branch at end of input. -/
theorem string_eq_esc_nil (fuel pos : Nat) (c : Char) (start : Nat)
    (parts : List TemplatePart) (chunk : List Char)
    (hq : (c == '\"') = false)
    (ht : (c == openBrace && ([] : List Char).head? == some openBrace) = false)
    (hc : (c == '\\') = true) :
    Lexer.string (fuel + 1) pos [c] start parts chunk =
      Lexer.string fuel (pos + 1) [] start parts (chunk ++ [c]) := by
  simp only [Lexer.string, hq, ht, hc, if_true, Bool.false_eq_true, if_false]

/-- `string` step: the escape branch with an escaped character. -/
theorem string_eq_esc (fuel pos : Nat) (c c2 : Char) (rest2 : List Char) (start : Nat)
    (parts : List TemplatePart) (chunk : List Char)
    (hq : (c == '\"') = false)
    (ht : (c == openBrace && (c2 :: rest2).head? == some openBrace) = false)
    (hc : (c == '\\') = true) :
    Lexer.string (fuel + 1) pos (c :: c2 :: rest2) start parts chunk =
      Lexer.string fuel (pos + 1 + c2.utf8Size) rest2 start parts (chunk ++ [c, c2]) := by
  simp only [Lexer.string, hq, ht, hc, if_true, Bool.false_eq_true, if_false]

/-- `string` step: the ordinary-character branch. -/
theorem string_eq_other (fuel pos : Nat) (c : Char) (rest1 : List Char) (start : Nat)
    (parts : List TemplatePart) (chunk : List Char)
    (hq : (c == '\"') = false)
    (ht : (c == openBrace && rest1.head? == some openBrace) = false)
    (hc : (c == '\\') = false) :
    Lexer.string (fuel + 1) pos (c :: rest1) start parts chunk =
      Lexer.string fuel (pos + c.utf8Size) rest1 start parts (chunk ++ [c]) := by
  simp only [Lexer.string, hq, ht, hc, if_true, Bool.false_eq_true, if_false]

/-- `template_loop` step: the `\x7d\x7d` closing branch. -/
theorem template_eq_close (fuel pos : Nat) (c : Char) (rest1 : List Char)
    (tokens : List Token)
    (hq : (c == '\"') = false)
    (hc : (c == closeBrace && rest1.head? == some closeBrace) = true) :
    Lexer.template_loop (fuel + 1) pos (c :: rest1) tokens =
      .ok (tokens, pos + 2, rest1.tail) := by
  simp only [Lexer.template_loop, hq, hc, if_true, Bool.false_eq_true, if_false]

/-- `template_loop` step: the nested-token branch. -/
theorem template_eq_tok (fuel pos : Nat) (c : Char) (rest1 : List Char)
    (tokens : List Token)
    (hq : (c == '\"') = false)
    (hc : (c == closeBrace && rest1.head? == some closeBrace) = false) :
    Lexer.template_loop (fuel + 1) pos (c :: rest1) tokens =
      match Lexer.next_token fuel pos (c :: rest1) with
      | .error d => .error d
      | .ok (none, p2, _) =>
        .error ((Diagnostic.error "Unterminated template"
          (Span.new p2 p2)).primary_label "I was expecting `\x7d\x7d` here" .Error)
      | .ok (some token, p2, r2) => Lexer.template_loop fuel p2 r2 (tokens ++ [token]) := by
  simp only [Lexer.template_loop, hq, hc, if_true, Bool.false_eq_true, if_false]

/-- Case analysis matching the dispatch order of `string`'s loop. -/
theorem string_dispatch_cases (c : Char) (rest1 : List Char) :
    ((c == '\"') = true) ∨
    ((c == '\"') = false ∧ (c == openBrace && rest1.head? == some openBrace) = true) ∨
    ((c == '\"') = false ∧ (c == openBrace && rest1.head? == some openBrace) = false ∧
      (c == '\\') = true) ∨
    ((c == '\"') = false ∧ (c == openBrace && rest1.head? == some openBrace) = false ∧
      (c == '\\') = false) := by
  by_cases h0 : (c == '\"') = true
  · exact Or.inl h0
  · have h0f := eq_false_of_ne_true h0
    by_cases h1 : (c == openBrace && rest1.head? == some openBrace) = true
    · exact Or.inr (Or.inl ⟨h0f, h1⟩)
    · have h1f := eq_false_of_ne_true h1
      by_cases h2 : (c == '\\') = true
      · exact Or.inr (Or.inr (Or.inl ⟨h0f, h1f, h2⟩))
      · exact Or.inr (Or.inr (Or.inr ⟨h0f, h1f, eq_false_of_ne_true h2⟩))

/-- Case analysis matching the dispatch order of `template_loop`. -/
theorem template_dispatch_cases (c : Char) (rest1 : List Char) :
    ((c == '\"') = true) ∨
    ((c == '\"') = false ∧ (c == closeBrace && rest1.head? == some closeBrace) = true) ∨
    ((c == '\"') = false ∧ (c == closeBrace && rest1.head? == some closeBrace) = false) := by
  by_cases h0 : (c == '\"') = true
  · exact Or.inl h0
  · have h0f := eq_false_of_ne_true h0
    by_cases h1 : (c == closeBrace && rest1.head? == some closeBrace) = true
    · exact Or.inr (Or.inl ⟨h0f, h1⟩)
    · exact Or.inr (Or.inr ⟨h0f, eq_false_of_ne_true h1⟩)

/-- `template_loop` step: a stray quote fails. -/
theorem template_eq_quote (fuel pos : Nat) (c : Char) (rest1 : List Char)
    (tokens : List Token) (hq : (c == '\"') = true) :
    Lexer.template_loop (fuel + 1) pos (c :: rest1) tokens =
      .error ((Diagnostic.error "Unterminated template"
        (Span.new pos pos)).primary_label "I was expecting `\x7d\x7d` here" .Error) := by
  simp only [Lexer.template_loop, hq, if_true]

/-- `Token.shift` on an assembled token. -/
theorem token_shift_eq (k : Nat) (kind : TokenKind) (a b : Nat) (nl : Bool) :
    Token.shift k (.mk kind (Span.new a b) nl) =
      .mk (TokenKind.shift k kind) (Span.new (k + a) (k + b)) nl := rfl

/-- `number` produces a kind without nested spans, so shifting fixes it. -/
theorem number_shift_kind (k : Nat) (c : Char) (pos : Nat) (rest : List Char) :
    TokenKind.shift k (Lexer.number c pos rest).1 = (Lexer.number c pos rest).1 := by
  cases htd1 : Lexer.take_digits pos rest with
  | mk ds1 pr1 =>
    obtain ⟨posA, restA⟩ := pr1
    simp only [Lexer.number, htd1]
    split
    · simp [TokenKind.shift]
    · simp [TokenKind.shift]

/-- `identifier` produces a kind without nested spans, so shifting fixes
it. -/
theorem identifier_shift_kind (k : Nat) (c : Char) (pos : Nat) (rest : List Char) :
    TokenKind.shift k (Lexer.identifier c pos rest).1 = (Lexer.identifier c pos rest).1 := by
  cases hti : Lexer.identifier.take_ident pos rest with
  | mk cs pr =>
    obtain ⟨p2, r2⟩ := pr
    simp only [Lexer.identifier, hti]
    split_ifs <;> simp [TokenKind.shift]

/-- Shifting commutes with closing the pending literal chunk. -/
theorem shiftList_chunk_if (k : Nat) (parts : List TemplatePart) (chunk : List Char) :
    (if chunk.isEmpty then TemplatePart.shiftList k parts
     else TemplatePart.shiftList k parts ++ [.Literal chunk]) =
      TemplatePart.shiftList k
        (if chunk.isEmpty then parts else parts ++ [.Literal chunk]) := by
  by_cases hch : chunk.isEmpty
  · simp [hch]
  · simp [hch, templatePart_shiftList_append, TemplatePart.shift, TemplatePart.shiftList]

/-- Running the lexer at a base position shifted up by `k` is the
original run with every produced span shifted up by `k` (backward
direction: a successful shifted run comes from a successful base
run). -/
theorem lexer_shift_back (k : Nat) : ∀ fuel,
    (∀ pos rest ot2 p2 r2,
      Lexer.next_token fuel (k + pos) rest = .ok (ot2, p2, r2) →
      ∃ ot p, Lexer.next_token fuel pos rest = .ok (ot, p, r2) ∧
        ot2 = ot.map (Token.shift k) ∧ p2 = k + p) ∧
    (∀ pos rest start parts chunk kk2 p2 r2,
      Lexer.string fuel (k + pos) rest (k + start) (TemplatePart.shiftList k parts) chunk =
        .ok (kk2, p2, r2) →
      ∃ kk p, Lexer.string fuel pos rest start parts chunk = .ok (kk, p, r2) ∧
        kk2 = TokenKind.shift k kk ∧ p2 = k + p) ∧
    (∀ pos rest acc out2 p2 r2,
      Lexer.template_loop fuel (k + pos) rest (Token.shiftList k acc) = .ok (out2, p2, r2) →
      ∃ out p, Lexer.template_loop fuel pos rest acc = .ok (out, p, r2) ∧
        out2 = Token.shiftList k out ∧ p2 = k + p) := by
  intro fuel
  induction fuel with
  | zero =>
    refine ⟨?_, ?_, ?_⟩
    · intro pos rest ot2 p2 r2 h
      simp [Lexer.next_token] at h
    · intro pos rest start parts chunk kk2 p2 r2 h
      simp [Lexer.string] at h
    · intro pos rest acc out2 p2 r2 h
      simp [Lexer.template_loop] at h
  | succ fuel ih =>
    obtain ⟨ihN, ihS, ihT⟩ := ih
    refine ⟨?_, ?_, ?_⟩
    · -- next_token
      intro pos rest ot2 p2 r2 h
      cases hsw : Lexer.skip_whitespace pos rest with
      | mk nl pr =>
      obtain ⟨p1, rest1⟩ := pr
      have hsw2 : Lexer.skip_whitespace (k + pos) rest = (nl, k + p1, rest1) := by
        rw [skip_whitespace_shift k rest pos, hsw]
      cases rest1 with
      | nil =>
        rw [next_token_eq_none fuel (k + pos) rest nl (k + p1) hsw2] at h
        simp only [Except.ok.injEq, Prod.mk.injEq] at h
        obtain ⟨rfl, rfl, rfl⟩ := h
        exact ⟨none, p1, next_token_eq_none fuel pos rest nl p1 hsw, rfl, rfl⟩
      | cons c rest2 =>
      by_cases hsh : (c == '#') = true
      · cases hsc : Lexer.skip_comment p1 (c :: rest2) with
        | mk p3 r3 =>
        have hsc2 : Lexer.skip_comment (k + p1) (c :: rest2) = (k + p3, r3) := by
          rw [skip_comment_shift k (c :: rest2) p1, hsc]
        rw [next_token_eq_comment fuel (k + pos) rest nl (k + p1) c rest2 (k + p3) r3
          hsw2 hsh hsc2] at h
        obtain ⟨ot, p, hbase, hmap, hp⟩ := ihN p3 r3 ot2 p2 r2 h
        exact ⟨ot, p, by
          rw [next_token_eq_comment fuel pos rest nl p1 c rest2 p3 r3 hsw hsh hsc]
          exact hbase, hmap, hp⟩
      · have hshf := eq_false_of_ne_true hsh
        rcases next_token_dispatch_cases c with hd | ⟨f0, hd⟩ | ⟨f0, f1, hd⟩ | ⟨f0, f1, f2, hd⟩ | ⟨f0, f1, f2, f3, hd⟩ | ⟨f0, f1, f2, f3, f4, hd⟩ | ⟨f0, f1, f2, f3, f4, f5, hd⟩ | ⟨f0, f1, f2, f3, f4, f5, f6, hd⟩ | ⟨f0, f1, f2, f3, f4, f5, f6, f7, hd⟩ | ⟨f0, f1, f2, f3, f4, f5, f6, f7, f8, hd⟩ | ⟨f0, f1, f2, f3, f4, f5, f6, f7, f8, f9⟩
        · -- colon
          rw [next_token_eq_colon fuel (k + pos) rest nl (k + p1) c rest2 hsw2 hshf
            hd] at h
          simp only [Except.ok.injEq, Prod.mk.injEq] at h
          obtain ⟨rfl, rfl, rfl⟩ := h
          refine ⟨some (.mk .Colon (Span.new p1 (p1 + c.utf8Size)) nl), p1 + c.utf8Size,
            by rw [next_token_eq_colon fuel pos rest nl p1 c rest2 hsw hshf hd], ?_,
            by omega⟩
          simp only [Option.map_some', token_shift_eq, TokenKind.shift]
          rw [show k + p1 + c.utf8Size = k + (p1 + c.utf8Size) from by omega]
        · -- comma
          rw [next_token_eq_comma fuel (k + pos) rest nl (k + p1) c rest2 hsw2 hshf
            f0 hd] at h
          simp only [Except.ok.injEq, Prod.mk.injEq] at h
          obtain ⟨rfl, rfl, rfl⟩ := h
          refine ⟨some (.mk .Comma (Span.new p1 (p1 + c.utf8Size)) nl), p1 + c.utf8Size,
            by rw [next_token_eq_comma fuel pos rest nl p1 c rest2 hsw hshf f0 hd], ?_,
            by omega⟩
          simp only [Option.map_some', token_shift_eq, TokenKind.shift]
          rw [show k + p1 + c.utf8Size = k + (p1 + c.utf8Size) from by omega]
        · -- eq
          rw [next_token_eq_eq fuel (k + pos) rest nl (k + p1) c rest2 hsw2 hshf
            f0 f1 hd] at h
          simp only [Except.ok.injEq, Prod.mk.injEq] at h
          obtain ⟨rfl, rfl, rfl⟩ := h
          refine ⟨some (.mk .Eq (Span.new p1 (p1 + c.utf8Size)) nl), p1 + c.utf8Size,
            by rw [next_token_eq_eq fuel pos rest nl p1 c rest2 hsw hshf f0 f1 hd], ?_,
            by omega⟩
          simp only [Option.map_some', token_shift_eq, TokenKind.shift]
          rw [show k + p1 + c.utf8Size = k + (p1 + c.utf8Size) from by omega]
        · -- obrace
          rw [next_token_eq_obrace fuel (k + pos) rest nl (k + p1) c rest2 hsw2 hshf
            f0 f1 f2 hd] at h
          simp only [Except.ok.injEq, Prod.mk.injEq] at h
          obtain ⟨rfl, rfl, rfl⟩ := h
          refine ⟨some (.mk (.Delim .OpenBrace) (Span.new p1 (p1 + c.utf8Size)) nl), p1 + c.utf8Size,
            by rw [next_token_eq_obrace fuel pos rest nl p1 c rest2 hsw hshf f0 f1 f2 hd], ?_,
            by omega⟩
          simp only [Option.map_some', token_shift_eq, TokenKind.shift]
          rw [show k + p1 + c.utf8Size = k + (p1 + c.utf8Size) from by omega]
        · -- obrack
          rw [next_token_eq_obrack fuel (k + pos) rest nl (k + p1) c rest2 hsw2 hshf
            f0 f1 f2 f3 hd] at h
          simp only [Except.ok.injEq, Prod.mk.injEq] at h
          obtain ⟨rfl, rfl, rfl⟩ := h
          refine ⟨some (.mk (.Delim .OpenBrack) (Span.new p1 (p1 + c.utf8Size)) nl), p1 + c.utf8Size,
            by rw [next_token_eq_obrack fuel pos rest nl p1 c rest2 hsw hshf f0 f1 f2 f3 hd], ?_,
            by omega⟩
          simp only [Option.map_some', token_shift_eq, TokenKind.shift]
          rw [show k + p1 + c.utf8Size = k + (p1 + c.utf8Size) from by omega]
        · -- cbrace
          rw [next_token_eq_cbrace fuel (k + pos) rest nl (k + p1) c rest2 hsw2 hshf
            f0 f1 f2 f3 f4 hd] at h
          simp only [Except.ok.injEq, Prod.mk.injEq] at h
          obtain ⟨rfl, rfl, rfl⟩ := h
          refine ⟨some (.mk (.Delim .CloseBrace) (Span.new p1 (p1 + c.utf8Size)) nl), p1 + c.utf8Size,
            by rw [next_token_eq_cbrace fuel pos rest nl p1 c rest2 hsw hshf f0 f1 f2 f3 f4 hd], ?_,
            by omega⟩
          simp only [Option.map_some', token_shift_eq, TokenKind.shift]
          rw [show k + p1 + c.utf8Size = k + (p1 + c.utf8Size) from by omega]
        · -- cbrack
          rw [next_token_eq_cbrack fuel (k + pos) rest nl (k + p1) c rest2 hsw2 hshf
            f0 f1 f2 f3 f4 f5 hd] at h
          simp only [Except.ok.injEq, Prod.mk.injEq] at h
          obtain ⟨rfl, rfl, rfl⟩ := h
          refine ⟨some (.mk (.Delim .CloseBrack) (Span.new p1 (p1 + c.utf8Size)) nl), p1 + c.utf8Size,
            by rw [next_token_eq_cbrack fuel pos rest nl p1 c rest2 hsw hshf f0 f1 f2 f3 f4 f5 hd], ?_,
            by omega⟩
          simp only [Option.map_some', token_shift_eq, TokenKind.shift]
          rw [show k + p1 + c.utf8Size = k + (p1 + c.utf8Size) from by omega]
        · -- string literal
          rw [next_token_eq_string fuel (k + pos) rest nl (k + p1) c rest2 hsw2 hshf
            f0 f1 f2 f3 f4 f5 f6 hd] at h
          cases hstr2 : Lexer.string fuel (k + p1 + c.utf8Size) rest2 (k + p1) [] [] with
          | error d =>
            rw [hstr2] at h
            cases h
          | ok trip =>
            obtain ⟨kk2, pp2, rr2⟩ := trip
            rw [hstr2] at h
            simp only [Except.ok.injEq, Prod.mk.injEq] at h
            obtain ⟨rfl, rfl, rfl⟩ := h
            have hstr2' : Lexer.string fuel (k + (p1 + c.utf8Size)) rest2 (k + p1)
                (TemplatePart.shiftList k []) [] = .ok (kk2, pp2, rr2) := by
              rw [show k + (p1 + c.utf8Size) = k + p1 + c.utf8Size from by omega]
              exact hstr2
            obtain ⟨kk, p, hbase, hkk, hp⟩ := ihS (p1 + c.utf8Size) rest2 p1 [] [] kk2 pp2 rr2
              hstr2'
            refine ⟨some (.mk kk (Span.new p1 p) nl), p, by
              rw [next_token_eq_string fuel pos rest nl p1 c rest2 hsw hshf f0 f1 f2 f3 f4 f5 f6 hd, hbase],
              ?_, by omega⟩
            subst hkk hp
            simp only [Option.map_some', token_shift_eq]
        · -- number
          cases hnum : Lexer.number c (p1 + c.utf8Size) rest2 with
          | mk kind pr2 =>
          obtain ⟨pp, rr⟩ := pr2
          have hnum2 : Lexer.number c (k + p1 + c.utf8Size) rest2 = (kind, k + pp, rr) := by
            rw [show k + p1 + c.utf8Size = k + (p1 + c.utf8Size) from by omega,
              number_shift k c (p1 + c.utf8Size) rest2, hnum]
          rw [next_token_eq_number fuel (k + pos) rest nl (k + p1) c rest2 kind (k + pp) rr
            hsw2 hshf f0 f1 f2 f3 f4 f5 f6 f7 hd hnum2] at h
          simp only [Except.ok.injEq, Prod.mk.injEq] at h
          obtain ⟨rfl, rfl, rfl⟩ := h
          refine ⟨some (.mk kind (Span.new p1 pp) nl), pp, by
            rw [next_token_eq_number fuel pos rest nl p1 c rest2 kind pp rr hsw hshf
              f0 f1 f2 f3 f4 f5 f6 f7 hd hnum], ?_, rfl⟩
          have hks : TokenKind.shift k kind = kind := by
            have := number_shift_kind k c (p1 + c.utf8Size) rest2
            rw [hnum] at this
            exact this
          simp only [Option.map_some', token_shift_eq, hks]
        · -- identifier
          cases hid : Lexer.identifier c (p1 + c.utf8Size) rest2 with
          | mk kind pr2 =>
          obtain ⟨pp, rr⟩ := pr2
          have hid2 : Lexer.identifier c (k + p1 + c.utf8Size) rest2 = (kind, k + pp, rr) := by
            rw [show k + p1 + c.utf8Size = k + (p1 + c.utf8Size) from by omega,
              identifier_shift k c (p1 + c.utf8Size) rest2, hid]
          rw [next_token_eq_ident fuel (k + pos) rest nl (k + p1) c rest2 kind (k + pp) rr
            hsw2 hshf f0 f1 f2 f3 f4 f5 f6 f7 f8 hd hid2] at h
          simp only [Except.ok.injEq, Prod.mk.injEq] at h
          obtain ⟨rfl, rfl, rfl⟩ := h
          refine ⟨some (.mk kind (Span.new p1 pp) nl), pp, by
            rw [next_token_eq_ident fuel pos rest nl p1 c rest2 kind pp rr hsw hshf
              f0 f1 f2 f3 f4 f5 f6 f7 f8 hd hid], ?_, rfl⟩
          have hks : TokenKind.shift k kind = kind := by
            have := identifier_shift_kind k c (p1 + c.utf8Size) rest2
            rw [hid] at this
            exact this
          simp only [Option.map_some', token_shift_eq, hks]
        · -- unrecognized character
          rw [next_token_eq_err fuel (k + pos) rest nl (k + p1) c rest2 hsw2 hshf
            f0 f1 f2 f3 f4 f5 f6 f7 f8 f9] at h
          cases h
    · -- string
      intro pos rest start parts chunk kk2 p2 r2 h
      cases rest with
      | nil =>
        simp only [Lexer.string] at h
        cases h
      | cons c rest1 =>
      rcases string_dispatch_cases c rest1 with hq | ⟨hq, ht⟩ | ⟨hq, ht, he⟩ | ⟨hq, ht, he⟩
      · rw [string_eq_quote fuel (k + pos) c rest1 (k + start)
          (TemplatePart.shiftList k parts) chunk hq] at h
        simp only [Except.ok.injEq, Prod.mk.injEq] at h
        obtain ⟨rfl, rfl, rfl⟩ := h
        refine ⟨.String (if chunk.isEmpty then parts else parts ++ [.Literal chunk]),
          pos + 1, by rw [string_eq_quote fuel pos c rest1 start parts chunk hq], ?_,
          by omega⟩
        simp only [TokenKind.shift, shiftList_chunk_if]
      · rw [string_eq_tmpl fuel (k + pos) c rest1 (k + start)
          (TemplatePart.shiftList k parts) chunk hq ht] at h
        cases hT2 : Lexer.template_loop fuel (k + pos + 2) rest1.tail [] with
        | error d =>
          rw [hT2] at h
          cases h
        | ok trip =>
          obtain ⟨tokens2, pT2, rT2⟩ := trip
          rw [hT2] at h
          have hT2' : Lexer.template_loop fuel (k + (pos + 2)) rest1.tail
              (Token.shiftList k []) = .ok (tokens2, pT2, rT2) := by
            rw [show k + (pos + 2) = k + pos + 2 from by omega]
            exact hT2
          obtain ⟨tokens, pT, hTbase, hTk, hTp⟩ := ihT (pos + 2) rest1.tail [] tokens2 pT2
            rT2 hT2'
          subst hTk hTp
          simp only [] at h
          obtain ⟨kk, p, hbase, hkk, hp⟩ := ihS pT rT2 start
            ((if chunk.isEmpty then parts else parts ++ [.Literal chunk]) ++ [.Code tokens])
            [] kk2 p2 r2 (by
              rw [templatePart_shiftList_append, ← shiftList_chunk_if]
              exact h)
          refine ⟨kk, p, ?_, hkk, hp⟩
          rw [string_eq_tmpl fuel pos c rest1 start parts chunk hq ht, hTbase]
          exact hbase
      · cases rest1 with
        | nil =>
          rw [string_eq_esc_nil fuel (k + pos) c (k + start)
            (TemplatePart.shiftList k parts) chunk hq ht he] at h
          have h2 : Lexer.string fuel (k + (pos + 1)) [] (k + start)
              (TemplatePart.shiftList k parts) (chunk ++ [c]) = .ok (kk2, p2, r2) := by
            rw [show k + (pos + 1) = k + pos + 1 from by omega]
            exact h
          obtain ⟨kk, p, hbase, hkk, hp⟩ := ihS (pos + 1) [] start parts (chunk ++ [c])
            kk2 p2 r2 h2
          refine ⟨kk, p, ?_, hkk, hp⟩
          rw [string_eq_esc_nil fuel pos c start parts chunk hq ht he]
          exact hbase
        | cons c2 rest2 =>
          rw [string_eq_esc fuel (k + pos) c c2 rest2 (k + start)
            (TemplatePart.shiftList k parts) chunk hq ht he] at h
          have h2 : Lexer.string fuel (k + (pos + 1 + c2.utf8Size)) rest2 (k + start)
              (TemplatePart.shiftList k parts) (chunk ++ [c, c2]) = .ok (kk2, p2, r2) := by
            rw [show k + (pos + 1 + c2.utf8Size) = k + pos + 1 + c2.utf8Size from by omega]
            exact h
          obtain ⟨kk, p, hbase, hkk, hp⟩ := ihS (pos + 1 + c2.utf8Size) rest2 start parts
            (chunk ++ [c, c2]) kk2 p2 r2 h2
          refine ⟨kk, p, ?_, hkk, hp⟩
          rw [string_eq_esc fuel pos c c2 rest2 start parts chunk hq ht he]
          exact hbase
      · rw [string_eq_other fuel (k + pos) c rest1 (k + start)
          (TemplatePart.shiftList k parts) chunk hq ht he] at h
        have h2 : Lexer.string fuel (k + (pos + c.utf8Size)) rest1 (k + start)
            (TemplatePart.shiftList k parts) (chunk ++ [c]) = .ok (kk2, p2, r2) := by
          rw [show k + (pos + c.utf8Size) = k + pos + c.utf8Size from by omega]
          exact h
        obtain ⟨kk, p, hbase, hkk, hp⟩ := ihS (pos + c.utf8Size) rest1 start parts
          (chunk ++ [c]) kk2 p2 r2 h2
        refine ⟨kk, p, ?_, hkk, hp⟩
        rw [string_eq_other fuel pos c rest1 start parts chunk hq ht he]
        exact hbase
    · -- template_loop
      intro pos rest acc out2 p2 r2 h
      cases rest with
      | nil =>
        simp only [Lexer.template_loop] at h
        cases h
      | cons c rest1 =>
      rcases template_dispatch_cases c rest1 with hq | ⟨hq, hcl⟩ | ⟨hq, hcl⟩
      · rw [template_eq_quote fuel (k + pos) c rest1 (Token.shiftList k acc) hq] at h
        cases h
      · rw [template_eq_close fuel (k + pos) c rest1 (Token.shiftList k acc) hq hcl] at h
        simp only [Except.ok.injEq, Prod.mk.injEq] at h
        obtain ⟨rfl, rfl, rfl⟩ := h
        exact ⟨acc, pos + 2,
          by rw [template_eq_close fuel pos c rest1 acc hq hcl], rfl, by omega⟩
      · rw [template_eq_tok fuel (k + pos) c rest1 (Token.shiftList k acc) hq hcl] at h
        cases hN2 : Lexer.next_token fuel (k + pos) (c :: rest1) with
        | error d =>
          rw [hN2] at h
          cases h
        | ok trip =>
          obtain ⟨ot2, pN2, rN2⟩ := trip
          rw [hN2] at h
          obtain ⟨ot, pN, hNbase, hNmap, hNp⟩ := ihN pos (c :: rest1) ot2 pN2 rN2 hN2
          subst hNmap hNp
          cases ot with
          | none =>
            simp only [Option.map_none'] at h
            cases h
          | some token =>
            simp only [Option.map_some'] at h
            have harg : Token.shiftList k acc ++ [Token.shift k token] =
                Token.shiftList k (acc ++ [token]) := by
              rw [token_shiftList_append]
              rfl
            rw [harg] at h
            obtain ⟨out, p, hTbase, hTk, hTp⟩ := ihT pN rN2 (acc ++ [token]) out2 p2 r2 h
            refine ⟨out, p, ?_, hTk, hTp⟩
            rw [template_eq_tok fuel pos c rest1 acc hq hcl, hNbase]
            exact hTbase

/-- `skip_whitespace` is the identity before a non-whitespace
character. -/
theorem skip_whitespace_nows (p : Nat) (c : Char) (r : List Char)
    (hc : rustIsWhitespace c = false) :
    Lexer.skip_whitespace p (c :: r) = (false, p, c :: r) := by
  simp [Lexer.skip_whitespace, hc]

/-- `string` never succeeds on empty input. -/
theorem string_nil_not_ok (fuel pos start : Nat) (parts : List TemplatePart)
    (chunk : List Char) (r : TokenKind × Nat × List Char) :
    Lexer.string fuel pos [] start parts chunk ≠ .ok r := by
  cases fuel with
  | zero => simp [Lexer.string]
  | succ f => simp [Lexer.string]

/-- `head?` of an append with a nonempty left list. -/
theorem head?_append_left {α : Type} (a b : List α) (ha : a ≠ []) :
    (a ++ b).head? = a.head? := by
  cases a with
  | nil => exact absurd rfl ha
  | cons x xs => rfl

/-- `head?` of a double append is independent of the tail when the
middle list is nonempty. -/
theorem head?_append_stable {α : Type} (a b s s2 : List α) (hb : b ≠ []) :
    (a ++ b ++ s).head? = (a ++ b ++ s2).head? := by
  cases a with
  | nil =>
    simp only [List.nil_append]
    rw [head?_append_left b s hb, head?_append_left b s2 hb]
  | cons x xs => rfl

/-- `head?` of the tail of a double append is independent of the tail
list when the middle is nonempty and the tails have equal heads. -/
theorem head?_tail_append_stable {α : Type} (a b s s2 : List α) (hb : b ≠ [])
    (hhd : s.head? = s2.head?) :
    (a ++ b ++ s).tail.head? = (a ++ b ++ s2).tail.head? := by
  cases a with
  | nil =>
    cases b with
    | nil => exact absurd rfl hb
    | cons x bs =>
      cases bs with
      | nil => simpa using hhd
      | cons y bs2 => rfl
  | cons x as =>
    simp only [List.cons_append, List.tail_cons]
    exact head?_append_stable as b s s2 hb

/-- Consumption and replay for the lexer: a successful `next_token`
identifies a whitespace/comment prefix and a token body inside the
input, with byte-exact spans, and the run replays on the token body
alone (optionally keeping the skipped prefix, optionally followed by any
continuation with the original boundary character); similarly `string`
and `template_loop` replay on exactly the consumed text before any
continuation. -/
theorem lexer_ct : ∀ fuel,
    (∀ pos rest t pos' rest',
      Lexer.next_token fuel pos rest = .ok (some t, pos', rest') →
      ∃ ws body, rest = ws ++ body ++ rest' ∧
        t.span.start = pos + utf8Len ws ∧
        pos' = t.span.start + utf8Len body ∧
        t.span.stop = pos' ∧
        0 < body.length ∧
        (∀ fuel2 s, ws.length + body.length < fuel2 → (s = [] ∨ s.head? = rest'.head?) →
          Lexer.next_token fuel2 pos (ws ++ body ++ s) = .ok (some t, pos', s)) ∧
        (∀ fuel2 s, body.length < fuel2 → (s = [] ∨ s.head? = rest'.head?) →
          Lexer.next_token fuel2 t.span.start (body ++ s) =
            .ok (some (Token.withNewline t false), pos', s))) ∧
    (∀ pos rest start parts chunk kk pos' rest',
      Lexer.string fuel pos rest start parts chunk = .ok (kk, pos', rest') →
      ∃ consumed, rest = consumed ++ rest' ∧ pos' = pos + utf8Len consumed ∧
        0 < consumed.length ∧
        (∀ fuel2 s, consumed.length < fuel2 →
          Lexer.string fuel2 pos (consumed ++ s) start parts chunk = .ok (kk, pos', s))) ∧
    (∀ pos rest acc out pos' rest',
      Lexer.template_loop fuel pos rest acc = .ok (out, pos', rest') →
      ∃ consumed, rest = consumed ++ rest' ∧ pos' = pos + utf8Len consumed ∧
        0 < consumed.length ∧
        (∀ fuel2 s, consumed.length < fuel2 →
          Lexer.template_loop fuel2 pos (consumed ++ s) acc = .ok (out, pos', s))) := by
  intro fuel
  induction fuel with
  | zero =>
    refine ⟨?_, ?_, ?_⟩
    · intro pos rest t pos' rest' h
      simp [Lexer.next_token] at h
    · intro pos rest start parts chunk kk pos' rest' h
      simp [Lexer.string] at h
    · intro pos rest acc out pos' rest' h
      simp [Lexer.template_loop] at h
  | succ fuel ih =>
    obtain ⟨ihN, ihS, ihT⟩ := ih
    refine ⟨?_, ?_, ?_⟩
    · -- next_token
      intro pos rest t pos' rest' h
      cases hsw : Lexer.skip_whitespace pos rest with
      | mk nl pr =>
      obtain ⟨p1, rest1⟩ := pr
      obtain ⟨ws0, hweq, hwpos, hwbound, hwreplay⟩ :=
        skip_whitespace_spec rest pos nl p1 rest1 hsw
      subst hweq hwpos
      cases rest1 with
      | nil =>
        rw [next_token_eq_none fuel pos (ws0 ++ []) nl (pos + utf8Len ws0) hsw] at h
        cases h
      | cons c rest2 =>
      by_cases hsh : (c == '#') = true
      · -- comment: skip and continue
        cases hsc : Lexer.skip_comment (pos + utf8Len ws0) (c :: rest2) with
        | mk p3 r3 =>
        obtain ⟨cm, hceq, hcpos, hcbound, hcreplay⟩ :=
          skip_comment_spec (c :: rest2) (pos + utf8Len ws0) p3 r3 hsc
        subst hcpos
        rw [next_token_eq_comment fuel pos (ws0 ++ c :: rest2) nl (pos + utf8Len ws0) c
          rest2 (pos + utf8Len ws0 + utf8Len cm) r3 hsw hsh hsc] at h
        obtain ⟨ws1, body, hdec, hstart, hpos, hstop, hblen, hrep1, hrep2⟩ :=
          ihN (pos + utf8Len ws0 + utf8Len cm) r3 t pos' rest' h
        have hbody_ne : body ≠ [] := by
          intro hb
          rw [hb] at hblen
          simp at hblen
        have hcws : rustIsWhitespace c = false := hwbound c rest2 rfl
        cases cm with
        | nil =>
          have hr3 : r3 = c :: rest2 := by simpa using hceq.symm
          have hcn : c = '\n' := hcbound c rest2 hr3
          exact absurd hsh (by rw [hcn]; decide)
        | cons c0 cm1 =>
          have hc0 : c = c0 ∧ rest2 = cm1 ++ r3 := by
            have := hceq
            simp only [List.cons_append, List.cons.injEq] at this
            exact this
          obtain ⟨rfl, hrest2⟩ := hc0
          have hr3cons : ∃ rt, r3 = '\n' :: rt := by
            cases hr : r3 with
            | nil =>
              have h0 := hdec.symm
              rw [hr] at h0
              have hb : body = [] := by
                simp only [List.append_eq_nil] at h0
                tauto
              exact absurd hb hbody_ne
            | cons a b =>
              refine ⟨b, ?_⟩
              rw [hcbound a b hr]
          have hr3head : ∀ z : List Char, (ws1 ++ body ++ z).head? = r3.head? := by
            intro z
            rw [hdec]
            exact head?_append_stable ws1 body z rest' hbody_ne
          have hr3nl : ∀ z : List Char, ∃ cs, ws1 ++ body ++ z = '\n' :: cs := by
            intro z
            obtain ⟨rt, hr⟩ := hr3cons
            have h1 : (ws1 ++ body ++ z).head? = some '\n' := by
              rw [hr3head z, hr]
              rfl
            cases hz : ws1 ++ body ++ z with
            | nil => rw [hz] at h1; cases h1
            | cons a b =>
              rw [hz] at h1
              simp only [List.head?_cons, Option.some.injEq] at h1
              exact ⟨b, by rw [h1]⟩
          refine ⟨ws0 ++ (c :: cm1) ++ ws1, body, ?_, ?_, hpos, hstop, hblen, ?_, hrep2⟩
          · rw [hrest2, hdec]
            simp [List.append_assoc]
          · rw [hstart, utf8Len_append, utf8Len_append]
            omega
          · intro fuel2 s hf hs
            cases fuel2 with
            | zero => omega
            | succ g2 =>
              rw [show (ws0 ++ (c :: cm1) ++ ws1) ++ body ++ s =
                ws0 ++ (c :: (cm1 ++ (ws1 ++ body ++ s))) from by simp]
              rw [next_token_eq_comment g2 pos
                (ws0 ++ (c :: (cm1 ++ (ws1 ++ body ++ s)))) nl (pos + utf8Len ws0) c
                (cm1 ++ (ws1 ++ body ++ s)) (pos + utf8Len ws0 + utf8Len (c :: cm1))
                (ws1 ++ body ++ s)
                (hwreplay pos (c :: (cm1 ++ (ws1 ++ body ++ s)))
                  (Or.inr ⟨c, cm1 ++ (ws1 ++ body ++ s), rfl, hcws⟩))
                hsh
                (by
                  have := hcreplay (pos + utf8Len ws0) (ws1 ++ body ++ s)
                    (Or.inr (hr3nl s))
                  simpa using this)]
              exact hrep1 g2 s
                (by simp only [List.length_append, List.length_cons] at hf ⊢; omega) hs
      · have hshf := eq_false_of_ne_true hsh
        have hcws : rustIsWhitespace c = false := hwbound c rest2 rfl
        rcases next_token_dispatch_cases c with hd | ⟨f0, hd⟩ | ⟨f0, f1, hd⟩ |
          ⟨f0, f1, f2, hd⟩ | ⟨f0, f1, f2, f3, hd⟩ | ⟨f0, f1, f2, f3, f4, hd⟩ |
          ⟨f0, f1, f2, f3, f4, f5, hd⟩ | ⟨f0, f1, f2, f3, f4, f5, f6, hd⟩ |
          ⟨f0, f1, f2, f3, f4, f5, f6, f7, hd⟩ |
          ⟨f0, f1, f2, f3, f4, f5, f6, f7, f8, hd⟩ |
          ⟨f0, f1, f2, f3, f4, f5, f6, f7, f8, f9⟩
        · rw [next_token_eq_colon fuel pos (ws0 ++ c :: rest2) nl (pos + utf8Len ws0) c
            rest2 hsw hshf hd] at h
          simp only [Except.ok.injEq, Prod.mk.injEq, Option.some.injEq] at h
          obtain ⟨rfl, rfl, rfl⟩ := h
          refine ⟨ws0, [c], by simp, rfl, rfl, rfl, by simp, ?_, ?_⟩
          · intro fuel2 s hf hs
            cases fuel2 with
            | zero => omega
            | succ g2 =>
              rw [List.append_assoc]
              rw [next_token_eq_colon g2 pos (ws0 ++ ([c] ++ s)) nl (pos + utf8Len ws0) c s
                (hwreplay pos ([c] ++ s) (Or.inr ⟨c, s, rfl, hcws⟩)) hshf hd]
          · intro fuel2 s hf hs
            cases fuel2 with
            | zero => omega
            | succ g2 =>
              simp only [Token.span, Span.new]
              rw [show ([c] ++ s : List Char) = c :: s from rfl]
              rw [next_token_eq_colon g2 (pos + utf8Len ws0) (c :: s) false
                (pos + utf8Len ws0) c s
                (skip_whitespace_nows (pos + utf8Len ws0) c s hcws) hshf hd]
              rfl
        · rw [next_token_eq_comma fuel pos (ws0 ++ c :: rest2) nl (pos + utf8Len ws0) c
            rest2 hsw hshf f0 hd] at h
          simp only [Except.ok.injEq, Prod.mk.injEq, Option.some.injEq] at h
          obtain ⟨rfl, rfl, rfl⟩ := h
          refine ⟨ws0, [c], by simp, rfl, rfl, rfl, by simp, ?_, ?_⟩
          · intro fuel2 s hf hs
            cases fuel2 with
            | zero => omega
            | succ g2 =>
              rw [List.append_assoc]
              rw [next_token_eq_comma g2 pos (ws0 ++ ([c] ++ s)) nl (pos + utf8Len ws0) c s
                (hwreplay pos ([c] ++ s) (Or.inr ⟨c, s, rfl, hcws⟩)) hshf f0 hd]
          · intro fuel2 s hf hs
            cases fuel2 with
            | zero => omega
            | succ g2 =>
              simp only [Token.span, Span.new]
              rw [show ([c] ++ s : List Char) = c :: s from rfl]
              rw [next_token_eq_comma g2 (pos + utf8Len ws0) (c :: s) false
                (pos + utf8Len ws0) c s
                (skip_whitespace_nows (pos + utf8Len ws0) c s hcws) hshf f0 hd]
              rfl
        · rw [next_token_eq_eq fuel pos (ws0 ++ c :: rest2) nl (pos + utf8Len ws0) c
            rest2 hsw hshf f0 f1 hd] at h
          simp only [Except.ok.injEq, Prod.mk.injEq, Option.some.injEq] at h
          obtain ⟨rfl, rfl, rfl⟩ := h
          refine ⟨ws0, [c], by simp, rfl, rfl, rfl, by simp, ?_, ?_⟩
          · intro fuel2 s hf hs
            cases fuel2 with
            | zero => omega
            | succ g2 =>
              rw [List.append_assoc]
              rw [next_token_eq_eq g2 pos (ws0 ++ ([c] ++ s)) nl (pos + utf8Len ws0) c s
                (hwreplay pos ([c] ++ s) (Or.inr ⟨c, s, rfl, hcws⟩)) hshf f0 f1 hd]
          · intro fuel2 s hf hs
            cases fuel2 with
            | zero => omega
            | succ g2 =>
              simp only [Token.span, Span.new]
              rw [show ([c] ++ s : List Char) = c :: s from rfl]
              rw [next_token_eq_eq g2 (pos + utf8Len ws0) (c :: s) false
                (pos + utf8Len ws0) c s
                (skip_whitespace_nows (pos + utf8Len ws0) c s hcws) hshf f0 f1 hd]
              rfl
        · rw [next_token_eq_obrace fuel pos (ws0 ++ c :: rest2) nl (pos + utf8Len ws0) c
            rest2 hsw hshf f0 f1 f2 hd] at h
          simp only [Except.ok.injEq, Prod.mk.injEq, Option.some.injEq] at h
          obtain ⟨rfl, rfl, rfl⟩ := h
          refine ⟨ws0, [c], by simp, rfl, rfl, rfl, by simp, ?_, ?_⟩
          · intro fuel2 s hf hs
            cases fuel2 with
            | zero => omega
            | succ g2 =>
              rw [List.append_assoc]
              rw [next_token_eq_obrace g2 pos (ws0 ++ ([c] ++ s)) nl (pos + utf8Len ws0) c s
                (hwreplay pos ([c] ++ s) (Or.inr ⟨c, s, rfl, hcws⟩)) hshf f0 f1 f2 hd]
          · intro fuel2 s hf hs
            cases fuel2 with
            | zero => omega
            | succ g2 =>
              simp only [Token.span, Span.new]
              rw [show ([c] ++ s : List Char) = c :: s from rfl]
              rw [next_token_eq_obrace g2 (pos + utf8Len ws0) (c :: s) false
                (pos + utf8Len ws0) c s
                (skip_whitespace_nows (pos + utf8Len ws0) c s hcws) hshf f0 f1 f2 hd]
              rfl
        · rw [next_token_eq_obrack fuel pos (ws0 ++ c :: rest2) nl (pos + utf8Len ws0) c
            rest2 hsw hshf f0 f1 f2 f3 hd] at h
          simp only [Except.ok.injEq, Prod.mk.injEq, Option.some.injEq] at h
          obtain ⟨rfl, rfl, rfl⟩ := h
          refine ⟨ws0, [c], by simp, rfl, rfl, rfl, by simp, ?_, ?_⟩
          · intro fuel2 s hf hs
            cases fuel2 with
            | zero => omega
            | succ g2 =>
              rw [List.append_assoc]
              rw [next_token_eq_obrack g2 pos (ws0 ++ ([c] ++ s)) nl (pos + utf8Len ws0) c s
                (hwreplay pos ([c] ++ s) (Or.inr ⟨c, s, rfl, hcws⟩)) hshf f0 f1 f2 f3 hd]
          · intro fuel2 s hf hs
            cases fuel2 with
            | zero => omega
            | succ g2 =>
              simp only [Token.span, Span.new]
              rw [show ([c] ++ s : List Char) = c :: s from rfl]
              rw [next_token_eq_obrack g2 (pos + utf8Len ws0) (c :: s) false
                (pos + utf8Len ws0) c s
                (skip_whitespace_nows (pos + utf8Len ws0) c s hcws) hshf f0 f1 f2 f3 hd]
              rfl
        · rw [next_token_eq_cbrace fuel pos (ws0 ++ c :: rest2) nl (pos + utf8Len ws0) c
            rest2 hsw hshf f0 f1 f2 f3 f4 hd] at h
          simp only [Except.ok.injEq, Prod.mk.injEq, Option.some.injEq] at h
          obtain ⟨rfl, rfl, rfl⟩ := h
          refine ⟨ws0, [c], by simp, rfl, rfl, rfl, by simp, ?_, ?_⟩
          · intro fuel2 s hf hs
            cases fuel2 with
            | zero => omega
            | succ g2 =>
              rw [List.append_assoc]
              rw [next_token_eq_cbrace g2 pos (ws0 ++ ([c] ++ s)) nl (pos + utf8Len ws0) c s
                (hwreplay pos ([c] ++ s) (Or.inr ⟨c, s, rfl, hcws⟩)) hshf f0 f1 f2 f3 f4 hd]
          · intro fuel2 s hf hs
            cases fuel2 with
            | zero => omega
            | succ g2 =>
              simp only [Token.span, Span.new]
              rw [show ([c] ++ s : List Char) = c :: s from rfl]
              rw [next_token_eq_cbrace g2 (pos + utf8Len ws0) (c :: s) false
                (pos + utf8Len ws0) c s
                (skip_whitespace_nows (pos + utf8Len ws0) c s hcws) hshf f0 f1 f2 f3 f4 hd]
              rfl
        · rw [next_token_eq_cbrack fuel pos (ws0 ++ c :: rest2) nl (pos + utf8Len ws0) c
            rest2 hsw hshf f0 f1 f2 f3 f4 f5 hd] at h
          simp only [Except.ok.injEq, Prod.mk.injEq, Option.some.injEq] at h
          obtain ⟨rfl, rfl, rfl⟩ := h
          refine ⟨ws0, [c], by simp, rfl, rfl, rfl, by simp, ?_, ?_⟩
          · intro fuel2 s hf hs
            cases fuel2 with
            | zero => omega
            | succ g2 =>
              rw [List.append_assoc]
              rw [next_token_eq_cbrack g2 pos (ws0 ++ ([c] ++ s)) nl (pos + utf8Len ws0) c s
                (hwreplay pos ([c] ++ s) (Or.inr ⟨c, s, rfl, hcws⟩)) hshf f0 f1 f2 f3 f4 f5 hd]
          · intro fuel2 s hf hs
            cases fuel2 with
            | zero => omega
            | succ g2 =>
              simp only [Token.span, Span.new]
              rw [show ([c] ++ s : List Char) = c :: s from rfl]
              rw [next_token_eq_cbrack g2 (pos + utf8Len ws0) (c :: s) false
                (pos + utf8Len ws0) c s
                (skip_whitespace_nows (pos + utf8Len ws0) c s hcws) hshf f0 f1 f2 f3 f4 f5 hd]
              rfl
        · -- string-literal token
          rw [next_token_eq_string fuel pos (ws0 ++ c :: rest2) nl (pos + utf8Len ws0) c
            rest2 hsw hshf f0 f1 f2 f3 f4 f5 f6 hd] at h
          cases hstr : Lexer.string fuel (pos + utf8Len ws0 + c.utf8Size) rest2
              (pos + utf8Len ws0) [] [] with
          | error d =>
            rw [hstr] at h
            cases h
          | ok trip =>
            obtain ⟨kk, pS, rS⟩ := trip
            rw [hstr] at h
            simp only [Except.ok.injEq, Prod.mk.injEq, Option.some.injEq] at h
            obtain ⟨rfl, rfl, rfl⟩ := h
            obtain ⟨consumed, rfl, rfl, hclen, hreplayS⟩ :=
              ihS (pos + utf8Len ws0 + c.utf8Size) rest2 (pos + utf8Len ws0) [] [] kk pS rS
                hstr
            refine ⟨ws0, c :: consumed, by simp, rfl,
              by simp only [Token.span, Span.new, utf8Len_cons]; omega, rfl, by simp,
              ?_, ?_⟩
            · intro fuel2 s hf hs
              cases fuel2 with
              | zero => omega
              | succ g2 =>
                rw [List.append_assoc]
                rw [next_token_eq_string g2 pos (ws0 ++ ((c :: consumed) ++ s)) nl
                  (pos + utf8Len ws0) c (consumed ++ s)
                  (hwreplay pos ((c :: consumed) ++ s) (Or.inr ⟨c, consumed ++ s, rfl, hcws⟩))
                  hshf f0 f1 f2 f3 f4 f5 f6 hd]
                rw [hreplayS g2 s (by simp only [List.length_cons] at hf; omega)]
            · intro fuel2 s hf hs
              cases fuel2 with
              | zero => omega
              | succ g2 =>
                simp only [Token.span, Span.new]
                rw [show ((c :: consumed) ++ s : List Char) = c :: (consumed ++ s) from rfl]
                rw [next_token_eq_string g2 (pos + utf8Len ws0) (c :: (consumed ++ s)) false
                  (pos + utf8Len ws0) c (consumed ++ s)
                  (skip_whitespace_nows (pos + utf8Len ws0) c (consumed ++ s) hcws)
                  hshf f0 f1 f2 f3 f4 f5 f6 hd]
                rw [hreplayS g2 s (by simp only [List.length_cons] at hf; omega)]
                rfl
        · -- number token
          cases hnum : Lexer.number c (pos + utf8Len ws0 + c.utf8Size) rest2 with
          | mk kind pr2 =>
          obtain ⟨pp, rr⟩ := pr2
          rw [next_token_eq_number fuel pos (ws0 ++ c :: rest2) nl (pos + utf8Len ws0) c
            rest2 kind pp rr hsw hshf f0 f1 f2 f3 f4 f5 f6 f7 hd hnum] at h
          simp only [Except.ok.injEq, Prod.mk.injEq, Option.some.injEq] at h
          obtain ⟨rfl, rfl, rfl⟩ := h
          obtain ⟨consumedN, rfl, rfl, hreplayN⟩ :=
            number_spec c (pos + utf8Len ws0 + c.utf8Size) rest2 kind pp rr hnum
          refine ⟨ws0, c :: consumedN, by simp, rfl,
            by simp only [Token.span, Span.new, utf8Len_cons]; omega, rfl, by simp,
            ?_, ?_⟩
          · intro fuel2 s hf hs
            cases fuel2 with
            | zero => omega
            | succ g2 =>
              rw [List.append_assoc]
              rw [next_token_eq_number g2 pos (ws0 ++ ((c :: consumedN) ++ s)) nl
                (pos + utf8Len ws0) c (consumedN ++ s) kind
                (pos + utf8Len ws0 + c.utf8Size + utf8Len consumedN) s
                (hwreplay pos ((c :: consumedN) ++ s) (Or.inr ⟨c, consumedN ++ s, rfl, hcws⟩))
                hshf f0 f1 f2 f3 f4 f5 f6 f7 hd
                (hreplayN (pos + utf8Len ws0 + c.utf8Size) s hs)]
          · intro fuel2 s hf hs
            cases fuel2 with
            | zero => omega
            | succ g2 =>
              simp only [Token.span, Span.new]
              rw [show ((c :: consumedN) ++ s : List Char) = c :: (consumedN ++ s) from rfl]
              rw [next_token_eq_number g2 (pos + utf8Len ws0) (c :: (consumedN ++ s)) false
                (pos + utf8Len ws0) c (consumedN ++ s) kind
                (pos + utf8Len ws0 + c.utf8Size + utf8Len consumedN) s
                (skip_whitespace_nows (pos + utf8Len ws0) c (consumedN ++ s) hcws)
                hshf f0 f1 f2 f3 f4 f5 f6 f7 hd
                (hreplayN (pos + utf8Len ws0 + c.utf8Size) s hs)]
              rfl
        · -- identifier token
          cases hid : Lexer.identifier c (pos + utf8Len ws0 + c.utf8Size) rest2 with
          | mk kind pr2 =>
          obtain ⟨pp, rr⟩ := pr2
          rw [next_token_eq_ident fuel pos (ws0 ++ c :: rest2) nl (pos + utf8Len ws0) c
            rest2 kind pp rr hsw hshf f0 f1 f2 f3 f4 f5 f6 f7 f8 hd hid] at h
          simp only [Except.ok.injEq, Prod.mk.injEq, Option.some.injEq] at h
          obtain ⟨rfl, rfl, rfl⟩ := h
          obtain ⟨consumedI, rfl, rfl, hboundI, hreplayI⟩ :=
            identifier_spec c (pos + utf8Len ws0 + c.utf8Size) rest2 kind pp rr hid
          have hcond : ∀ (s : List Char), (s = [] ∨ s.head? = rr.head?) →
              (s = [] ∨ ∃ ch cs2, s = ch :: cs2 ∧
                (rustIsAlphanumeric ch || ch == '_') = false) := by
            intro s hs
            rcases hs with rfl | hs
            · exact Or.inl rfl
            · cases s with
              | nil => exact Or.inl rfl
              | cons sc ss =>
                cases rr with
                | nil => simp at hs
                | cons rc rcs =>
                  have hsc : sc = rc := by simpa using hs
                  exact Or.inr ⟨sc, ss, rfl, hsc ▸ hboundI rc rcs rfl⟩
          refine ⟨ws0, c :: consumedI, by simp, rfl,
            by simp only [Token.span, Span.new, utf8Len_cons]; omega, rfl, by simp,
            ?_, ?_⟩
          · intro fuel2 s hf hs
            cases fuel2 with
            | zero => omega
            | succ g2 =>
              rw [List.append_assoc]
              rw [next_token_eq_ident g2 pos (ws0 ++ ((c :: consumedI) ++ s)) nl
                (pos + utf8Len ws0) c (consumedI ++ s) kind
                (pos + utf8Len ws0 + c.utf8Size + utf8Len consumedI) s
                (hwreplay pos ((c :: consumedI) ++ s) (Or.inr ⟨c, consumedI ++ s, rfl, hcws⟩))
                hshf f0 f1 f2 f3 f4 f5 f6 f7 f8 hd
                (hreplayI (pos + utf8Len ws0 + c.utf8Size) s (hcond s hs))]
          · intro fuel2 s hf hs
            cases fuel2 with
            | zero => omega
            | succ g2 =>
              simp only [Token.span, Span.new]
              rw [show ((c :: consumedI) ++ s : List Char) = c :: (consumedI ++ s) from rfl]
              rw [next_token_eq_ident g2 (pos + utf8Len ws0) (c :: (consumedI ++ s)) false
                (pos + utf8Len ws0) c (consumedI ++ s) kind
                (pos + utf8Len ws0 + c.utf8Size + utf8Len consumedI) s
                (skip_whitespace_nows (pos + utf8Len ws0) c (consumedI ++ s) hcws)
                hshf f0 f1 f2 f3 f4 f5 f6 f7 f8 hd
                (hreplayI (pos + utf8Len ws0 + c.utf8Size) s (hcond s hs))]
              rfl
        · rw [next_token_eq_err fuel pos (ws0 ++ c :: rest2) nl (pos + utf8Len ws0) c rest2
            hsw hshf f0 f1 f2 f3 f4 f5 f6 f7 f8 f9] at h
          cases h
    · -- string
      intro pos rest start parts chunk kk pos' rest' h
      cases rest with
      | nil => exact absurd h (string_nil_not_ok (fuel + 1) pos start parts chunk _)
      | cons c rest1 =>
      rcases string_dispatch_cases c rest1 with hq | ⟨hq, ht⟩ | ⟨hq, ht, he⟩ | ⟨hq, ht, he⟩
      · -- closing quote
        rw [string_eq_quote fuel pos c rest1 start parts chunk hq] at h
        simp only [Except.ok.injEq, Prod.mk.injEq] at h
        obtain ⟨rfl, rfl, rfl⟩ := h
        have hc : c = '\"' := eq_of_beq hq
        refine ⟨[c], rfl, ?_, by simp, ?_⟩
        · subst hc
          have h1 : ('\"' : Char).utf8Size = 1 := rfl
          simp only [utf8Len_cons, utf8Len_nil, h1]
        · intro fuel2 s hf
          cases fuel2 with
          | zero => simp only [List.length_cons, List.length_nil] at hf; omega
          | succ g2 =>
            rw [show ([c] ++ s : List Char) = c :: s from rfl]
            rw [string_eq_quote g2 pos c s start parts chunk hq]
      · -- template part
        have htx := ht
        simp only [Bool.and_eq_true] at htx
        obtain ⟨hcB, hhd⟩ := htx
        have hhd2 : rest1.head? = some openBrace := eq_of_beq hhd
        cases rest1 with
        | nil => simp at hhd2
        | cons c1 rest1x =>
          have hc1 : c1 = openBrace := by simpa using hhd2
          rw [string_eq_tmpl fuel pos c (c1 :: rest1x) start parts chunk hq ht] at h
          simp only [List.tail_cons] at h
          cases hT : Lexer.template_loop fuel (pos + 2) rest1x [] with
          | error d =>
            rw [hT] at h
            cases h
          | ok trip =>
            obtain ⟨tokens, pT, rT⟩ := trip
            rw [hT] at h
            obtain ⟨consumedT, rfl, rfl, hlenT, hreplayT⟩ :=
              ihT (pos + 2) rest1x [] tokens pT rT hT
            obtain ⟨consumedS, rfl, rfl, hlenS, hreplayS⟩ :=
              ihS (pos + 2 + utf8Len consumedT) rT start
                ((if chunk.isEmpty then parts else parts ++ [TemplatePart.Literal chunk]) ++
                  [TemplatePart.Code tokens]) [] kk pos' rest' h
            have hcEq : c = openBrace := eq_of_beq hcB
            refine ⟨c :: c1 :: (consumedT ++ consumedS), by simp, ?_, by simp, ?_⟩
            · subst hcEq hc1
              have h1 : openBrace.utf8Size = 1 := rfl
              simp only [utf8Len_cons, utf8Len_append, h1]
              omega
            · intro fuel2 s hf
              cases fuel2 with
              | zero => simp only [List.length_cons] at hf; omega
              | succ g2 =>
                rw [show ((c :: c1 :: (consumedT ++ consumedS)) ++ s : List Char) =
                  c :: c1 :: (consumedT ++ (consumedS ++ s)) from by simp]
                have ht2 : (c == openBrace &&
                    (c1 :: (consumedT ++ (consumedS ++ s))).head? == some openBrace) =
                    true := by
                  rw [Bool.and_eq_true]
                  exact ⟨hcB, by simp [hc1]⟩
                rw [string_eq_tmpl g2 pos c (c1 :: (consumedT ++ (consumedS ++ s))) start
                  parts chunk hq ht2]
                simp only [List.tail_cons]
                rw [hreplayT g2 (consumedS ++ s)
                  (by simp only [List.length_cons, List.length_append] at hf; omega)]
                exact hreplayS g2 s
                  (by simp only [List.length_cons, List.length_append] at hf; omega)
      · -- escape
        cases rest1 with
        | nil =>
          rw [string_eq_esc_nil fuel pos c start parts chunk hq ht he] at h
          exact absurd h (string_nil_not_ok fuel (pos + 1) start parts (chunk ++ [c]) _)
        | cons c2 rest2 =>
          rw [string_eq_esc fuel pos c c2 rest2 start parts chunk hq ht he] at h
          obtain ⟨consumedE, rfl, rfl, hlenE, hreplayE⟩ :=
            ihS (pos + 1 + c2.utf8Size) rest2 start parts (chunk ++ [c, c2]) kk pos' rest' h
          have hc : c = '\\' := eq_of_beq he
          refine ⟨c :: c2 :: consumedE, by simp, ?_, by simp, ?_⟩
          · subst hc
            have h1 : ('\\' : Char).utf8Size = 1 := rfl
            simp only [utf8Len_cons, h1]
            omega
          · intro fuel2 s hf
            cases fuel2 with
            | zero => simp only [List.length_cons] at hf; omega
            | succ g2 =>
              have hob : (c == openBrace) = false := by
                rw [hc]
                decide
              have ht2 : (c == openBrace &&
                  (c2 :: (consumedE ++ s)).head? == some openBrace) = false := by
                rw [hob, Bool.false_and]
              rw [show ((c :: c2 :: consumedE) ++ s : List Char) =
                c :: c2 :: (consumedE ++ s) from by simp]
              rw [string_eq_esc g2 pos c c2 (consumedE ++ s) start parts chunk hq ht2 he]
              exact hreplayE g2 s
                (by simp only [List.length_cons] at hf; omega)
      · -- ordinary character
        rw [string_eq_other fuel pos c rest1 start parts chunk hq ht he] at h
        obtain ⟨consumedO, rfl, rfl, hlenO, hreplayO⟩ :=
          ihS (pos + c.utf8Size) rest1 start parts (chunk ++ [c]) kk pos' rest' h
        have hOne : consumedO ≠ [] := by
          intro hnil
          rw [hnil] at hlenO
          simp at hlenO
        refine ⟨c :: consumedO, by simp, by rw [utf8Len_cons]; omega, by simp, ?_⟩
        intro fuel2 s hf
        cases fuel2 with
        | zero => simp only [List.length_cons] at hf; omega
        | succ g2 =>
          have hhead : (consumedO ++ s).head? = (consumedO ++ rest').head? := by
            rw [head?_append_left consumedO s hOne, head?_append_left consumedO rest' hOne]
          have ht2 : (c == openBrace && (consumedO ++ s).head? == some openBrace) =
              false := by
            rw [hhead]
            exact ht
          rw [show ((c :: consumedO) ++ s : List Char) = c :: (consumedO ++ s) from rfl]
          rw [string_eq_other g2 pos c (consumedO ++ s) start parts chunk hq ht2 he]
          exact hreplayO g2 s (by simp only [List.length_cons] at hf; omega)
    · -- template_loop
      intro pos rest acc out pos' rest' h
      cases rest with
      | nil =>
        simp only [Lexer.template_loop] at h
        cases h
      | cons c rest1 =>
      rcases template_dispatch_cases c rest1 with hq | ⟨hq, hcl⟩ | ⟨hq, hcl⟩
      · rw [template_eq_quote fuel pos c rest1 acc hq] at h
        cases h
      · -- closing braces
        have hclx := hcl
        simp only [Bool.and_eq_true] at hclx
        obtain ⟨hcB, hhd⟩ := hclx
        have hhd2 : rest1.head? = some closeBrace := eq_of_beq hhd
        cases rest1 with
        | nil => simp at hhd2
        | cons c1 rest1x =>
          have hc1 : c1 = closeBrace := by simpa using hhd2
          rw [template_eq_close fuel pos c (c1 :: rest1x) acc hq hcl] at h
          simp only [List.tail_cons, Except.ok.injEq, Prod.mk.injEq] at h
          obtain ⟨rfl, rfl, rfl⟩ := h
          have hcEq : c = closeBrace := eq_of_beq hcB
          refine ⟨[c, c1], rfl, ?_, by simp, ?_⟩
          · subst hcEq hc1
            have h1 : closeBrace.utf8Size = 1 := rfl
            simp only [utf8Len_cons, utf8Len_nil, h1]
          · intro fuel2 s hf
            cases fuel2 with
            | zero => simp only [List.length_cons, List.length_nil] at hf; omega
            | succ g2 =>
              have hcl2 : (c == closeBrace && (c1 :: s).head? == some closeBrace) =
                  true := by
                rw [Bool.and_eq_true]
                exact ⟨hcB, by simp [hc1]⟩
              rw [show ([c, c1] ++ s : List Char) = c :: c1 :: s from rfl]
              rw [template_eq_close g2 pos c (c1 :: s) acc hq hcl2]
              rfl
      · -- nested token
        rw [template_eq_tok fuel pos c rest1 acc hq hcl] at h
        cases hN : Lexer.next_token fuel pos (c :: rest1) with
        | error d =>
          rw [hN] at h
          cases h
        | ok trip =>
          obtain ⟨ot, pN, rN⟩ := trip
          rw [hN] at h
          cases ot with
          | none =>
            simp only [] at h
            cases h
          | some token =>
            simp only [] at h
            obtain ⟨wsN, bodyN, hdecN, hstartN, hposN, hstopN, hblenN, hrepN1, hrepN2⟩ :=
              ihN pos (c :: rest1) token pN rN hN
            obtain ⟨consumedR, rfl, rfl, hlenR, hreplayR⟩ :=
              ihT pN rN (acc ++ [token]) out pos' rest' h
            have hbodyNe : bodyN ≠ [] := by
              intro hb
              rw [hb] at hblenN
              simp at hblenN
            have hRne : consumedR ≠ [] := by
              intro hb
              rw [hb] at hlenR
              simp at hlenR
            refine ⟨wsN ++ bodyN ++ consumedR, ?_, ?_, ?_, ?_⟩
            · rw [hdecN]
              simp
            · rw [hposN, hstartN, utf8Len_append, utf8Len_append]
              omega
            · simp only [List.length_append]
              omega
            · intro fuel2 s hf
              cases fuel2 with
              | zero => simp only [List.length_append] at hf; omega
              | succ g2 =>
                rw [show (wsN ++ bodyN ++ consumedR) ++ s =
                  wsN ++ bodyN ++ (consumedR ++ s) from by simp]
                have hheads : (consumedR ++ s).head? = (consumedR ++ rest').head? := by
                  rw [head?_append_left consumedR s hRne,
                    head?_append_left consumedR rest' hRne]
                cases hL : wsN ++ bodyN ++ (consumedR ++ s) with
                | nil =>
                  exfalso
                  have := congrArg List.length hL
                  simp only [List.length_append, List.length_nil] at this
                  omega
                | cons cx Lx =>
                  have hhd1 : (wsN ++ bodyN ++ (consumedR ++ s)).head? = some c := by
                    rw [head?_append_stable wsN bodyN (consumedR ++ s)
                      (consumedR ++ rest') hbodyNe, ← hdecN]
                    rfl
                  rw [hL] at hhd1
                  simp only [List.head?_cons, Option.some.injEq] at hhd1
                  subst hhd1
                  have hhd2 : Lx.head? = rest1.head? := by
                    have h2 := head?_tail_append_stable wsN bodyN (consumedR ++ s)
                      (consumedR ++ rest') hbodyNe hheads
                    rw [hL, ← hdecN] at h2
                    simpa using h2
                  rw [template_eq_tok g2 pos cx Lx acc hq (by rw [hhd2]; exact hcl)]
                  have hrepN := hrepN1 g2 (consumedR ++ s)
                    (by simp only [List.length_append] at hf; omega)
                    (Or.inr hheads)
                  rw [hL] at hrepN
                  rw [hrepN]
                  exact hreplayR g2 s (by simp only [List.length_append] at hf; omega)

/-- Span faithfulness transfers through a consumed input prefix. -/
theorem tokenSub_extend (pos2 : Nat) (rest2 : List Char) (t : Token) (pre0 : List Char)
    (pos : Nat) (rest : List Char) (h : Lexer.TokenSub pos2 rest2 t)
    (hr : rest = pre0 ++ rest2) (hp : pos2 = pos + utf8Len pre0) :
    Lexer.TokenSub pos rest t := by
  obtain ⟨pre, body, post, hdec, hstart, hstop, hlen, hrep⟩ := h
  refine ⟨pre0 ++ pre, body, post, ?_, ?_, hstop, hlen, hrep⟩
  · rw [hr, hdec]
    simp
  · rw [hstart, hp, utf8Len_append]
    omega

/-- `number` produces a kind with no nested tokens. -/
theorem number_allTokens (c : Char) (pos : Nat) (rest : List Char) :
    TokenKind.allTokens (Lexer.number c pos rest).1 = [] := by
  cases htd1 : Lexer.take_digits pos rest with
  | mk ds1 pr1 =>
    obtain ⟨posA, restA⟩ := pr1
    simp only [Lexer.number, htd1]
    split
    · simp [TokenKind.allTokens]
    · simp [TokenKind.allTokens]

/-- `identifier` produces a kind with no nested tokens. -/
theorem identifier_allTokens (c : Char) (pos : Nat) (rest : List Char) :
    TokenKind.allTokens (Lexer.identifier c pos rest).1 = [] := by
  cases hti : Lexer.identifier.take_ident pos rest with
  | mk cs pr =>
    obtain ⟨p2, r2⟩ := pr
    simp only [Lexer.identifier, hti]
    split_ifs <;> simp [TokenKind.allTokens]

/-- Nested tokens of an appended part list. -/
theorem allTokensParts_append (a b : List TemplatePart) :
    TemplatePart.allTokensParts (a ++ b) =
      TemplatePart.allTokensParts a ++ TemplatePart.allTokensParts b := by
  induction a with
  | nil => simp [TemplatePart.allTokensParts]
  | cons p rest ih => simp [TemplatePart.allTokensParts, ih]

/-- Nested tokens of an appended token list. -/
theorem allTokensList_append (a b : List Token) :
    Token.allTokensList (a ++ b) = Token.allTokensList a ++ Token.allTokensList b := by
  induction a with
  | nil => simp [Token.allTokensList]
  | cons t rest ih => simp [Token.allTokensList, ih]

/-- Closing the pending literal chunk adds no nested tokens. -/
theorem allTokensParts_chunk_if (parts : List TemplatePart) (chunk : List Char) :
    TemplatePart.allTokensParts
      (if chunk.isEmpty then parts else parts ++ [.Literal chunk]) =
      TemplatePart.allTokensParts parts := by
  by_cases hch : chunk.isEmpty
  · simp [hch]
  · simp [hch, allTokensParts_append, TemplatePart.allTokensParts, TemplatePart.allTokens]

/-- Every token produced by the lexer, including tokens nested inside
template parts, is span-faithful to the input piece it was lexed
from. -/
theorem lexer_np : ∀ fuel,
    (∀ pos rest t pos' rest',
      Lexer.next_token fuel pos rest = .ok (some t, pos', rest') →
      ∀ t2 ∈ Token.allTokens t, Lexer.TokenSub pos rest t2) ∧
    (∀ pos rest start parts chunk kk pos' rest',
      Lexer.string fuel pos rest start parts chunk = .ok (kk, pos', rest') →
      ∀ t2 ∈ TokenKind.allTokens kk,
        t2 ∈ TemplatePart.allTokensParts parts ∨ Lexer.TokenSub pos rest t2) ∧
    (∀ pos rest acc out pos' rest',
      Lexer.template_loop fuel pos rest acc = .ok (out, pos', rest') →
      ∀ t2 ∈ Token.allTokensList out,
        t2 ∈ Token.allTokensList acc ∨ Lexer.TokenSub pos rest t2) := by
  intro fuel
  induction fuel with
  | zero =>
    refine ⟨?_, ?_, ?_⟩
    · intro pos rest t pos' rest' h
      simp [Lexer.next_token] at h
    · intro pos rest start parts chunk kk pos' rest' h
      simp [Lexer.string] at h
    · intro pos rest acc out pos' rest' h
      simp [Lexer.template_loop] at h
  | succ fuel ih =>
    obtain ⟨ihN, ihS, ihT⟩ := ih
    refine ⟨?_, ?_, ?_⟩
    · -- next_token
      intro pos rest t pos' rest' h t2 ht2
      have hsub : Lexer.TokenSub pos rest t := by
        obtain ⟨ws, body, hdec, hstart, hpos, hstop, hblen, hrep1, hrep2⟩ :=
          (lexer_ct (fuel + 1)).1 pos rest t pos' rest' h
        refine ⟨ws, body, rest', hdec, hstart, by rw [hstop, hpos], hblen, ?_⟩
        intro f hf
        rw [hstop]
        have h2 := hrep2 f [] hf (Or.inl rfl)
        rwa [List.append_nil] at h2
      cases t with
      | mk kind span nl =>
      have ht2' := ht2
      simp only [Token.allTokens] at ht2'
      rcases List.mem_cons.mp ht2' with rfl | hmem
      · exact hsub
      · -- nested token: mirror the branch structure
        cases hsw : Lexer.skip_whitespace pos rest with
        | mk nl1 pr =>
        obtain ⟨p1, rest1⟩ := pr
        obtain ⟨ws0, hweq, hwpos, hwbound, hwreplay⟩ :=
          skip_whitespace_spec rest pos nl1 p1 rest1 hsw
        cases rest1 with
        | nil =>
          rw [next_token_eq_none fuel pos rest nl1 p1 hsw] at h
          cases h
        | cons c rest2 =>
        by_cases hsh : (c == '#') = true
        · cases hsc : Lexer.skip_comment p1 (c :: rest2) with
          | mk p3 r3 =>
          obtain ⟨cm, hceq, hcpos, hcbound, hcreplay⟩ :=
            skip_comment_spec (c :: rest2) p1 p3 r3 hsc
          rw [next_token_eq_comment fuel pos rest nl1 p1 c rest2 p3 r3 hsw hsh hsc] at h
          have hrec := ihN p3 r3 (.mk kind span nl) pos' rest' h t2 ht2
          refine tokenSub_extend p3 r3 t2 (ws0 ++ cm) pos rest hrec ?_ ?_
          · rw [hweq, hceq]
            simp
          · rw [hcpos, hwpos, utf8Len_append]
            omega
        · have hshf := eq_false_of_ne_true hsh
          rcases next_token_dispatch_cases c with hd | ⟨f0, hd⟩ | ⟨f0, f1, hd⟩ |
            ⟨f0, f1, f2, hd⟩ | ⟨f0, f1, f2, f3, hd⟩ | ⟨f0, f1, f2, f3, f4, hd⟩ |
            ⟨f0, f1, f2, f3, f4, f5, hd⟩ | ⟨f0, f1, f2, f3, f4, f5, f6, hd⟩ |
            ⟨f0, f1, f2, f3, f4, f5, f6, f7, hd⟩ |
            ⟨f0, f1, f2, f3, f4, f5, f6, f7, f8, hd⟩ |
            ⟨f0, f1, f2, f3, f4, f5, f6, f7, f8, f9⟩
          · rw [next_token_eq_colon fuel pos rest nl1 p1 c rest2 hsw hshf hd] at h
            simp only [Except.ok.injEq, Prod.mk.injEq, Option.some.injEq, Token.mk.injEq] at h
            obtain ⟨⟨rfl, rfl, rfl⟩, _, _⟩ := h
            simp [TokenKind.allTokens] at hmem
          · rw [next_token_eq_comma fuel pos rest nl1 p1 c rest2 hsw hshf f0 hd] at h
            simp only [Except.ok.injEq, Prod.mk.injEq, Option.some.injEq, Token.mk.injEq] at h
            obtain ⟨⟨rfl, rfl, rfl⟩, _, _⟩ := h
            simp [TokenKind.allTokens] at hmem
          · rw [next_token_eq_eq fuel pos rest nl1 p1 c rest2 hsw hshf f0 f1 hd] at h
            simp only [Except.ok.injEq, Prod.mk.injEq, Option.some.injEq, Token.mk.injEq] at h
            obtain ⟨⟨rfl, rfl, rfl⟩, _, _⟩ := h
            simp [TokenKind.allTokens] at hmem
          · rw [next_token_eq_obrace fuel pos rest nl1 p1 c rest2 hsw hshf f0 f1 f2 hd] at h
            simp only [Except.ok.injEq, Prod.mk.injEq, Option.some.injEq, Token.mk.injEq] at h
            obtain ⟨⟨rfl, rfl, rfl⟩, _, _⟩ := h
            simp [TokenKind.allTokens] at hmem
          · rw [next_token_eq_obrack fuel pos rest nl1 p1 c rest2 hsw hshf f0 f1 f2 f3
              hd] at h
            simp only [Except.ok.injEq, Prod.mk.injEq, Option.some.injEq, Token.mk.injEq] at h
            obtain ⟨⟨rfl, rfl, rfl⟩, _, _⟩ := h
            simp [TokenKind.allTokens] at hmem
          · rw [next_token_eq_cbrace fuel pos rest nl1 p1 c rest2 hsw hshf f0 f1 f2 f3 f4
              hd] at h
            simp only [Except.ok.injEq, Prod.mk.injEq, Option.some.injEq, Token.mk.injEq] at h
            obtain ⟨⟨rfl, rfl, rfl⟩, _, _⟩ := h
            simp [TokenKind.allTokens] at hmem
          · rw [next_token_eq_cbrack fuel pos rest nl1 p1 c rest2 hsw hshf f0 f1 f2 f3 f4
              f5 hd] at h
            simp only [Except.ok.injEq, Prod.mk.injEq, Option.some.injEq, Token.mk.injEq] at h
            obtain ⟨⟨rfl, rfl, rfl⟩, _, _⟩ := h
            simp [TokenKind.allTokens] at hmem
          · -- string literal: the nested tokens live in the string body
            rw [next_token_eq_string fuel pos rest nl1 p1 c rest2 hsw hshf f0 f1 f2 f3 f4
              f5 f6 hd] at h
            cases hstr : Lexer.string fuel (p1 + c.utf8Size) rest2 p1 [] [] with
            | error d =>
              rw [hstr] at h
              cases h
            | ok trip =>
              obtain ⟨kk, pS, rS⟩ := trip
              rw [hstr] at h
              simp only [Except.ok.injEq, Prod.mk.injEq, Option.some.injEq,
                Token.mk.injEq] at h
              obtain ⟨⟨rfl, rfl, rfl⟩, _, _⟩ := h
              rcases ihS (p1 + c.utf8Size) rest2 p1 [] [] kk pS rS hstr t2 hmem with
                hin | hsub2
              · simp [TemplatePart.allTokensParts] at hin
              · refine tokenSub_extend (p1 + c.utf8Size) rest2 t2 (ws0 ++ [c]) pos rest
                  hsub2 ?_ ?_
                · rw [hweq]
                  simp
                · rw [hwpos, utf8Len_append, utf8Len_cons, utf8Len_nil]
                  omega
          · -- number
            cases hnum : Lexer.number c (p1 + c.utf8Size) rest2 with
            | mk kind2 pr2 =>
            obtain ⟨pp, rr⟩ := pr2
            rw [next_token_eq_number fuel pos rest nl1 p1 c rest2 kind2 pp rr hsw hshf f0
              f1 f2 f3 f4 f5 f6 f7 hd hnum] at h
            simp only [Except.ok.injEq, Prod.mk.injEq, Option.some.injEq,
              Token.mk.injEq] at h
            obtain ⟨⟨rfl, rfl, rfl⟩, _, _⟩ := h
            have hk := number_allTokens c (p1 + c.utf8Size) rest2
            rw [hnum] at hk
            simp only at hk
            rw [hk] at hmem
            cases hmem
          · -- identifier
            cases hid : Lexer.identifier c (p1 + c.utf8Size) rest2 with
            | mk kind2 pr2 =>
            obtain ⟨pp, rr⟩ := pr2
            rw [next_token_eq_ident fuel pos rest nl1 p1 c rest2 kind2 pp rr hsw hshf f0
              f1 f2 f3 f4 f5 f6 f7 f8 hd hid] at h
            simp only [Except.ok.injEq, Prod.mk.injEq, Option.some.injEq,
              Token.mk.injEq] at h
            obtain ⟨⟨rfl, rfl, rfl⟩, _, _⟩ := h
            have hk := identifier_allTokens c (p1 + c.utf8Size) rest2
            rw [hid] at hk
            simp only at hk
            rw [hk] at hmem
            cases hmem
          · rw [next_token_eq_err fuel pos rest nl1 p1 c rest2 hsw hshf f0 f1 f2 f3 f4 f5
              f6 f7 f8 f9] at h
            cases h
    · -- string
      intro pos rest start parts chunk kk pos' rest' h t2 ht2
      cases rest with
      | nil => exact absurd h (string_nil_not_ok (fuel + 1) pos start parts chunk _)
      | cons c rest1 =>
      rcases string_dispatch_cases c rest1 with hq | ⟨hq, ht⟩ | ⟨hq, ht, he⟩ | ⟨hq, ht, he⟩
      · rw [string_eq_quote fuel pos c rest1 start parts chunk hq] at h
        simp only [Except.ok.injEq, Prod.mk.injEq] at h
        obtain ⟨rfl, rfl, rfl⟩ := h
        simp only [TokenKind.allTokens, allTokensParts_chunk_if] at ht2
        exact Or.inl ht2
      · have htx := ht
        simp only [Bool.and_eq_true] at htx
        obtain ⟨hcB, hhd⟩ := htx
        have hhd2 : rest1.head? = some openBrace := eq_of_beq hhd
        cases rest1 with
        | nil => simp at hhd2
        | cons c1 rest1x =>
          have hc1 : c1 = openBrace := by simpa using hhd2
          have hcEq : c = openBrace := eq_of_beq hcB
          rw [string_eq_tmpl fuel pos c (c1 :: rest1x) start parts chunk hq ht] at h
          simp only [List.tail_cons] at h
          cases hT : Lexer.template_loop fuel (pos + 2) rest1x [] with
          | error d =>
            rw [hT] at h
            cases h
          | ok trip =>
            obtain ⟨tokens, pT, rT⟩ := trip
            rw [hT] at h
            rcases ihS pT rT start
                ((if chunk.isEmpty then parts else parts ++ [TemplatePart.Literal chunk]) ++
                  [TemplatePart.Code tokens]) [] kk pos' rest' h t2 ht2 with hin | hsub2
            · rw [allTokensParts_append] at hin
              rcases List.mem_append.mp hin with hin1 | hin2
              · rw [allTokensParts_chunk_if] at hin1
                exact Or.inl hin1
              · simp only [TemplatePart.allTokensParts, TemplatePart.allTokens,
                  List.append_nil] at hin2
                rcases ihT (pos + 2) rest1x [] tokens pT rT hT t2 hin2 with hin3 | hsub3
                · simp [Token.allTokensList] at hin3
                · refine Or.inr (tokenSub_extend (pos + 2) rest1x t2 [c, c1] pos
                    (c :: c1 :: rest1x) hsub3 rfl ?_)
                  subst hcEq hc1
                  have h1 : openBrace.utf8Size = 1 := rfl
                  simp only [utf8Len_cons, utf8Len_nil, h1]
            · obtain ⟨consumedT, hTdec, hTpos, hTlen, hTreplay⟩ :=
                (lexer_ct fuel).2.2 (pos + 2) rest1x [] tokens pT rT hT
              refine Or.inr (tokenSub_extend pT rT t2 (c :: c1 :: consumedT) pos
                (c :: c1 :: rest1x) hsub2 (by rw [hTdec]; simp) ?_)
              subst hcEq hc1
              have h1 : openBrace.utf8Size = 1 := rfl
              rw [hTpos]
              simp only [utf8Len_cons, h1]
              omega
      · cases rest1 with
        | nil =>
          rw [string_eq_esc_nil fuel pos c start parts chunk hq ht he] at h
          exact absurd h (string_nil_not_ok fuel (pos + 1) start parts (chunk ++ [c]) _)
        | cons c2 rest2 =>
          rw [string_eq_esc fuel pos c c2 rest2 start parts chunk hq ht he] at h
          rcases ihS (pos + 1 + c2.utf8Size) rest2 start parts (chunk ++ [c, c2]) kk pos'
              rest' h t2 ht2 with hin | hsub2
          · exact Or.inl hin
          · refine Or.inr (tokenSub_extend (pos + 1 + c2.utf8Size) rest2 t2 [c, c2] pos
              (c :: c2 :: rest2) hsub2 rfl ?_)
            have hc : c = '\\' := eq_of_beq he
            subst hc
            have h1 : ('\\' : Char).utf8Size = 1 := rfl
            simp only [utf8Len_cons, utf8Len_nil, h1]
            omega
      · rw [string_eq_other fuel pos c rest1 start parts chunk hq ht he] at h
        rcases ihS (pos + c.utf8Size) rest1 start parts (chunk ++ [c]) kk pos' rest' h t2
            ht2 with hin | hsub2
        · exact Or.inl hin
        · refine Or.inr (tokenSub_extend (pos + c.utf8Size) rest1 t2 [c] pos (c :: rest1)
            hsub2 rfl ?_)
          simp only [utf8Len_cons, utf8Len_nil]
          omega
    · -- template_loop
      intro pos rest acc out pos' rest' h t2 ht2
      cases rest with
      | nil =>
        simp only [Lexer.template_loop] at h
        cases h
      | cons c rest1 =>
      rcases template_dispatch_cases c rest1 with hq | ⟨hq, hcl⟩ | ⟨hq, hcl⟩
      · rw [template_eq_quote fuel pos c rest1 acc hq] at h
        cases h
      · have hclx := hcl
        simp only [Bool.and_eq_true] at hclx
        obtain ⟨hcB, hhd⟩ := hclx
        have hhd2 : rest1.head? = some closeBrace := eq_of_beq hhd
        cases rest1 with
        | nil => simp at hhd2
        | cons c1 rest1x =>
          rw [template_eq_close fuel pos c (c1 :: rest1x) acc hq hcl] at h
          simp only [List.tail_cons, Except.ok.injEq, Prod.mk.injEq] at h
          obtain ⟨rfl, rfl, rfl⟩ := h
          exact Or.inl ht2
      · rw [template_eq_tok fuel pos c rest1 acc hq hcl] at h
        cases hN : Lexer.next_token fuel pos (c :: rest1) with
        | error d =>
          rw [hN] at h
          cases h
        | ok trip =>
          obtain ⟨ot, pN, rN⟩ := trip
          rw [hN] at h
          cases ot with
          | none =>
            simp only [] at h
            cases h
          | some token =>
            simp only [] at h
            rcases ihT pN rN (acc ++ [token]) out pos' rest' h t2 ht2 with hin | hsub2
            · rw [allTokensList_append] at hin
              rcases List.mem_append.mp hin with hin1 | hin2
              · exact Or.inl hin1
              · simp only [Token.allTokensList, List.append_nil] at hin2
                exact Or.inr (ihN pos (c :: rest1) token pN rN hN t2 hin2)
            · obtain ⟨wsN, bodyN, hdecN, hstartN, hposN, hstopN, hblenN, hrepN1, hrepN2⟩ :=
                (lexer_ct fuel).1 pos (c :: rest1) token pN rN hN
              refine Or.inr (tokenSub_extend pN rN t2 (wsN ++ bodyN) pos (c :: rest1)
                hsub2 (by rw [hdecN]) ?_)
              rw [hposN, hstartN, utf8Len_append]
              omega

/-- Every token collected by the `lex` loop is span-faithful to the
remaining input, unless it was already in the accumulator. -/
theorem lex_loop_np : ∀ (fuel pos : Nat) (rest : List Char) (acc tokens : List Token),
    Lexer.lex_loop fuel pos rest acc = .ok tokens →
    ∀ t2 ∈ Token.allTokensList tokens,
      t2 ∈ Token.allTokensList acc ∨ Lexer.TokenSub pos rest t2 := by
  intro fuel
  induction fuel with
  | zero =>
    intro pos rest acc tokens h
    simp [Lexer.lex_loop] at h
  | succ fuel ih =>
    intro pos rest acc tokens h
    simp only [Lexer.lex_loop] at h
    cases hN : Lexer.next_token fuel pos rest with
    | error d =>
      rw [hN] at h
      cases h
    | ok trip =>
      obtain ⟨ot, pN, rN⟩ := trip
      rw [hN] at h
      cases ot with
      | none =>
        simp only [Except.ok.injEq] at h
        subst h
        intro t2 ht2
        exact Or.inl ht2
      | some token =>
        simp only [] at h
        intro t2 ht2
        rcases ih pN rN (acc ++ [token]) tokens h t2 ht2 with hin | hsub
        · rw [allTokensList_append] at hin
          rcases List.mem_append.mp hin with h1 | h2
          · exact Or.inl h1
          · simp only [Token.allTokensList, List.append_nil] at h2
            exact Or.inr ((lexer_np fuel).1 pos rest token pN rN hN t2 h2)
        · obtain ⟨ws, body, hdec, hstart, hpos, hstop, hblen, h1, h2⟩ :=
            (lexer_ct fuel).1 pos rest token pN rN hN
          exact Or.inr (tokenSub_extend pN rN t2 (ws ++ body) pos rest hsub
            (by rw [hdec]) (by rw [hpos, hstart, utf8Len_append]; omega))

/-- A span-faithful token (relative to the whole input at base 0)
re-lexes from its own substring: `lex` on the body yields exactly one
token, which shifted by the span start is the original token with the
`skipped_newline` flag cleared. -/
theorem tokenSub_lex (input : List Char) (t : Token) (h : Lexer.TokenSub 0 input t) :
    ∃ pre body post, input = pre ++ body ++ post ∧
      utf8Len pre = t.span.start ∧
      t.span.stop = t.span.start + utf8Len body ∧
      ∃ t0, Lexer.lex body = .ok [t0] ∧
        Token.shift t.span.start t0 = Token.withNewline t false := by
  obtain ⟨pre, body, post, hdec, hstart, hstop, hblen, hrep⟩ := h
  refine ⟨pre, body, post, hdec, by omega, hstop, ?_⟩
  have hR := hrep (body.length + 1) (by omega)
  have hR2 : Lexer.next_token (body.length + 1) (t.span.start + 0) body =
      .ok (some (Token.withNewline t false), t.span.stop, []) := by
    rw [Nat.add_zero]
    exact hR
  obtain ⟨ot, p, hbase, hmap, hp⟩ := (lexer_shift_back t.span.start (body.length + 1)).1
    0 body (some (Token.withNewline t false)) t.span.stop [] hR2
  cases ot with
  | none => simp at hmap
  | some t0 =>
    simp only [Option.map_some', Option.some.injEq] at hmap
    refine ⟨t0, ?_, hmap.symm⟩
    show Lexer.lex_loop (body.length + 2) 0 body [] = .ok [t0]
    obtain ⟨m, hbl⟩ : ∃ m, body.length = m + 1 := ⟨body.length - 1, by omega⟩
    have hnone : Lexer.next_token (m + 1) p [] = .ok (none, p, []) :=
      next_token_eq_none m p [] false p rfl
    rw [hbl] at hbase
    rw [show body.length + 2 = m + 1 + 1 + 1 from by omega]
    simp only [Lexer.lex_loop, hbase, hnone, List.nil_append]

/-- **C9** (counterexample to the literal claim). For the input `"\nx"`
the lexer yields one Identifier token with span `1..2` and
`skipped_newline = true`; the substring that span bounds is `"x"`, and
lexing `"x"` in isolation yields an Identifier token with span `0..1`
and `skipped_newline = false` — not equal to the original, and still
unequal after shifting its span back by the original start (the
`skipped_newline` flag differs, since the preceding newline is not part
of the substring). -/
theorem C9_relex_counterexample :
    Lexer.lex "\nx".toList =
      .ok [Token.mk (.Identifier "x".toList) (Span.new 1 2) true] ∧
    "\nx".toList = "\n".toList ++ "x".toList ++ [] ∧
    utf8Len "\n".toList = 1 ∧
    utf8Len "\n".toList + utf8Len "x".toList = 2 ∧
    Lexer.lex "x".toList =
      .ok [Token.mk (.Identifier "x".toList) (Span.new 0 1) false] ∧
    Token.mk (.Identifier "x".toList) (Span.new 0 1) false ≠
      Token.mk (.Identifier "x".toList) (Span.new 1 2) true ∧
    Token.shift 1 (Token.mk (.Identifier "x".toList) (Span.new 0 1) false) ≠
      Token.mk (.Identifier "x".toList) (Span.new 1 2) true := by
  refine ⟨rfl, rfl, rfl, rfl, rfl, ?_, ?_⟩
  · intro hcontra
    simpa [Token.skipped_newline] using congrArg Token.skipped_newline hcontra
  · intro hcontra
    simpa [Token.shift, TokenKind.shift, Token.skipped_newline] using
      congrArg Token.skipped_newline hcontra

/-- **C9** (amended). For every input that lexes successfully, every
token — nested template `Code` tokens included — has a span that exactly
bounds a substring of the input: the input splits as
`pre ++ body ++ post` with `utf8Len pre = span.start` and
`span.stop = span.start + utf8Len body`, and lexing `body` in isolation
yields exactly one token, which equals the original after shifting its
span by `span.start` and clearing the `skipped_newline` flag.  (The
literal claim — re-lexing reproduces an *equal* token — fails on both
the raw span offsets and the flag; see the counterexample.) -/
theorem C9_span_relex_amended (input : List Char) (tokens : List Token)
    (h : Lexer.lex input = .ok tokens) (t : Token)
    (ht : t ∈ Token.allTokensList tokens) :
    ∃ pre body post, input = pre ++ body ++ post ∧
      utf8Len pre = t.span.start ∧
      t.span.stop = t.span.start + utf8Len body ∧
      ∃ t0, Lexer.lex body = .ok [t0] ∧
        Token.shift t.span.start t0 = Token.withNewline t false := by
  have hsub : Lexer.TokenSub 0 input t := by
    rcases lex_loop_np (input.length + 2) 0 input [] tokens h t ht with hin | hsub
    · simp [Token.allTokensList] at hin
    · exact hsub
  exact tokenSub_lex input t hsub

/-- Witness for `C9_span_relex_amended`: applied to the input `"\nx"`
and its single token. -/
theorem C9_span_relex_amended_witness :
    ∃ pre body post, "\nx".toList = pre ++ body ++ post ∧
      utf8Len pre = (Token.mk (.Identifier "x".toList) (Span.new 1 2) true).span.start ∧
      (Token.mk (.Identifier "x".toList) (Span.new 1 2) true).span.stop =
        (Token.mk (.Identifier "x".toList) (Span.new 1 2) true).span.start + utf8Len body ∧
      ∃ t0, Lexer.lex body = .ok [t0] ∧
        Token.shift (Token.mk (.Identifier "x".toList) (Span.new 1 2) true).span.start t0 =
          Token.withNewline (Token.mk (.Identifier "x".toList) (Span.new 1 2) true) false :=
  C9_span_relex_amended "\nx".toList
    [Token.mk (.Identifier "x".toList) (Span.new 1 2) true] rfl
    (Token.mk (.Identifier "x".toList) (Span.new 1 2) true)
    (by simp [Token.allTokensList, Token.allTokens, TokenKind.allTokens])
